import Mathlib

/-!
# Comprestimator: a shallow embedding of `comprestimator.c`

The definitions below follow the C source function by function and keep its
names.  Conventions of the embedding:

* a C `int` is an `Int`; the places where the source increments or adds `int`
  counters go through `wrap32`, the two's complement wrap-around, so that a
  statement about the exact sum carries an explicit in-range hypothesis;
* an `off_t` is an `Int` (64 bits in the source; every offset the program
  forms is below `2 ^ 43`);
* a `double` field of `struct compression_info` is a value of a type parameter
  `F`; the one place where the source converts a `double` back to an `int`
  (`get_pattern`) is evaluated in the binary64 model `Dbl`;
* a byte is a `Fin 256`, a buffer is a list of bytes;
* the operating system and the codec are explicit arguments.
-/

namespace Comprestimator

/-! ## Constants (`#define`s of the source) -/

/-- Max number of non-zero samples to take. -/
def MAX_NUM_SAMPLE : Int := 2000

/-- Ratio of zero blocks to non-zero. -/
def ZERO_BLOCK_FACTOR : Int := 10

/-- Input block size in bytes (read from disk). -/
def INBLOCK_SIZE : Nat := 2048

/-- Input block size to zlib in bytes. -/
def ZLIB_BLOCK_SIZE : Nat := 16384

/-- Output block size in bytes. -/
def OUTBLOCK_SIZE : Nat := 2048

/-- Input to streamer in bytes (128 MiB). -/
def COMP_UNIT_SIZE : Nat := 134217728

/-- How many blocks each process should handle (random mode). -/
def BLOCKS_PER_PROC : Int := 50

/-- Maximum number of child processes. -/
def MAX_NUM_PROCS : Int := 128

/-- Largest value of a C `int`. -/
def INT_MAX : Int := 2147483647

/-- Smallest value of a C `int`. -/
def INT_MIN : Int := -2147483648

/-- Two's complement wrap-around of a 32-bit signed integer. -/
def wrap32 (x : Int) : Int := (x + 2147483648) % 4294967296 - 2147483648

/-! ## Bytes, buffers and the zero-block detector -/

/-- One byte of a buffer (`char`, compared for equality only). -/
abbrev Byte := Fin 256

/-- The C library `memcmp(s1, s2, n)`: zero when the first `n` bytes agree, else
the difference of the first pair of bytes that differ.  Reading past the end of
an operand (undefined in C) is reported as a mismatch. -/
def memcmp : List Byte → List Byte → Nat → Int
  | _, _, 0 => 0
  | x :: xs, y :: ys, n + 1 =>
    if x = y then memcmp xs ys n else (x.val : Int) - (y.val : Int)
  | _, _, _ + 1 => 1

/-- Source: `is_zero_block`.
`(buf[0] == 0) && (!memcmp(buf, buf + 1, INBLOCK_SIZE - 1))`. -/
def is_zero_block (buf : List Byte) : Bool :=
  (buf.head? == some 0) && (memcmp buf (buf.drop 1) (INBLOCK_SIZE - 1) == 0)

/-! ## The C type `double` where its rounding decides an `int`

`get_pattern` computes a `double` and converts it to an `int`.  The model below is
IEEE 754 binary64 with round-to-nearest-even, written over natural numbers so
that it can be evaluated: a finite value is `(-1)^neg * m * 2^e`. -/

/-- A value of the C type `double`: finite, infinite, or not a number. -/
inductive Dbl where
  | fin (neg : Bool) (m : Nat) (e : Int)
  | inf (neg : Bool)
  | nan
  deriving DecidableEq, Repr

namespace Dbl

/-- The fraction `num / den` multiplied by `2 ^ (-u)`, as numerator and denominator. -/
def scale (num den : Nat) (u : Int) : Nat × Nat :=
  if u ≤ 0 then (num * 2 ^ (-u).toNat, den) else (num, den * 2 ^ u.toNat)

/-- Position of the highest set bit, `floor (log2 n)` for `n > 0`; the first
argument bounds the number of halvings. -/
def log2Aux : Nat → Nat → Nat
  | 0, _ => 0
  | f + 1, n => if n < 2 then 0 else log2Aux f (n / 2) + 1

/-- Integer logarithm `floor (log2 n)` of a positive natural number. -/
def log2 (n : Nat) : Nat := log2Aux n n

/-- Exponent `floor (log2 (num / den))` of a positive fraction. -/
def ilog2 (num den : Nat) : Int :=
  let e0 : Int := (log2 num : Int) - (log2 den : Int)
  let s := scale num den e0
  if s.2 ≤ s.1 then e0 else e0 - 1

/-- The integer nearest to the fraction `N / D`, the even one of the two on a
tie. -/
def nearest (N D : Nat) : Nat :=
  let q := N / D
  let r := N % D
  if 2 * r < D then q else if D < 2 * r then q + 1
  else if q % 2 = 0 then q else q + 1

/-- Round the non-negative fraction `num / den` (with `den > 0`) to the nearest
binary64 value, ties to even: 53 significant bits, least exponent `-1074`,
overflow to infinity. -/
def round (neg : Bool) (num den : Nat) : Dbl :=
  if num = 0 then fin neg 0 0
  else
    let u : Int := max (ilog2 num den) (-1022) - 52
    let s := scale num den u
    let m := nearest s.1 s.2
    if 971 < u ∨ (u = 971 ∧ 2 ^ 53 ≤ m) then inf neg else fin neg m u

/-- Conversion `(double) i` of a C `int`. -/
def ofInt (i : Int) : Dbl := round (decide (i < 0)) i.natAbs 1

/-- Division `x / y` of two doubles. -/
def div : Dbl → Dbl → Dbl
  | fin n1 m1 e1, fin n2 m2 e2 =>
    if m2 = 0 then (if m1 = 0 then nan else inf (xor n1 n2))
    else
      let s := scale m1 m2 (e2 - e1)
      round (xor n1 n2) s.1 s.2
  | fin n1 _ _, inf n2 => fin (xor n1 n2) 0 0
  | inf n1, fin n2 _ _ => inf (xor n1 n2)
  | _, _ => nan

/-- Multiplication `x * y` of two doubles. -/
def mul : Dbl → Dbl → Dbl
  | fin n1 m1 e1, fin n2 m2 e2 =>
    let s := scale (m1 * m2) 1 (-(e1 + e2))
    round (xor n1 n2) s.1 s.2
  | fin n1 m1 _, inf n2 => if m1 = 0 then nan else inf (xor n1 n2)
  | inf n1, fin n2 m2 _ => if m2 = 0 then nan else inf (xor n1 n2)
  | inf n1, inf n2 => inf (xor n1 n2)
  | _, _ => nan

/-- Conversion `(int) x` of a double: truncation toward zero.  The conversion is
undefined in C (`none`) for a NaN, an infinity, and a value outside `int`. -/
def toInt : Dbl → Option Int
  | fin neg m e =>
    let s := scale m 1 (-e)
    let t : Int := ((s.1 / s.2 : Nat) : Int)
    let v : Int := if neg then -t else t
    if -2147483648 ≤ v ∧ v ≤ 2147483647 then some v else none
  | _ => none

end Dbl

/-! ## Statistics record -/

/-- Source: `struct compression_info`.  `F` stands for the C type `double`. -/
structure compression_info (F : Type) where
  num_zero_blocks : Int
  num_non_zero_blocks : Int
  total_blocks_read : Int
  compression_ratio : F
  c_squared : F
  deriving DecidableEq, Repr

/-- A slot after `memset(..., 0, ...)`. -/
def zero_info (F : Type) [NatCast F] : compression_info F :=
  { num_zero_blocks := 0, num_non_zero_blocks := 0, total_blocks_read := 0,
    compression_ratio := ((0 : Nat) : F), c_squared := ((0 : Nat) : F) }

/-! ## Sample-pattern generator -/

/-- State that `get_pattern` carries from call to call: its `static int cur_chunk`
and the number of values already drawn from `random()`. -/
structure pattern_state where
  cur_chunk : Int
  rand_pos : Nat

/-- The value of `max_blocks` in random mode before clamping:
`((double)(active_procs+1)/(double)num_procs) * BLOCKS_PER_PROC`, converted to `int`. -/
def max_blocks_random (num_procs active_procs : Int) : Option Int :=
  Dbl.toInt
    (Dbl.mul (Dbl.div (Dbl.ofInt (wrap32 (active_procs + 1))) (Dbl.ofInt num_procs))
      (Dbl.ofInt BLOCKS_PER_PROC))

/-- The exhaustive loop of `get_pattern`,
`while ((i < max_blocks) && (cur_chunk < num_chunks))`; the first argument is
`max_blocks - i`.  Returns the offsets appended and the new `cur_chunk`. -/
def exhaustive_loop (num_chunks : Int) : Nat → Int → List Int × Int
  | 0, cur_chunk => ([], cur_chunk)
  | k + 1, cur_chunk =>
    if cur_chunk < num_chunks then
      let r := exhaustive_loop num_chunks k (cur_chunk + 1)
      (cur_chunk * INBLOCK_SIZE :: r.1, r.2)
    else ([], cur_chunk)

/-- The random loop of `get_pattern`, `while (i < max_blocks)`; the first argument
is `max_blocks - i`, the second the position in the stream of `random()`. -/
def random_loop (rnd : Nat → Int) (num_chunks : Int) : Nat → Nat → List Int
  | 0, _ => []
  | k + 1, pos =>
    (Int.tmod (rnd pos) num_chunks) * INBLOCK_SIZE :: random_loop rnd num_chunks k (pos + 1)

/-- Result of one call of `get_pattern`: the returned count `i`, the offsets
written to `pattern[0..i)`, and the state kept for the next call. -/
structure pattern_result where
  count : Int
  pattern : List Int
  state : pattern_state

/-- Source: `get_pattern`.  `num_procs` is the global, `rnd` the stream of values
of `random()`.  The result is `none` where the C program has undefined behaviour
(the `double` to `int` conversion, or `% 0`). -/
def get_pattern {F : Type} (num_procs : Int) (rnd : Nat → Int) (st : pattern_state)
    (exhaustive : Bool) (num_chunks active_procs : Int) (info : compression_info F) :
    Option pattern_result :=
  if exhaustive then
    let max_blocks := COMP_UNIT_SIZE / INBLOCK_SIZE
    let r := exhaustive_loop num_chunks max_blocks st.cur_chunk
    some { count := r.1.length, pattern := r.1,
           state := { st with cur_chunk := r.2 } }
  else
    match max_blocks_random num_procs active_procs with
    | none => none
    | some mb =>
      let max_blocks := if mb > BLOCKS_PER_PROC then BLOCKS_PER_PROC else mb
      if info.num_non_zero_blocks ≥ MAX_NUM_SAMPLE ∨
          info.num_zero_blocks ≥ MAX_NUM_SAMPLE * ZERO_BLOCK_FACTOR then
        some { count := 0, pattern := [], state := st }
      else if 0 < max_blocks ∧ num_chunks = 0 then none
      else
        let p := random_loop rnd num_chunks max_blocks.toNat st.rand_pos
        some { count := p.length, pattern := p,
               state := { st with rand_pos := st.rand_pos + max_blocks.toNat } }

/-! ## Worker pool: shared memory, worker table, and the reaper -/

/-- Outcome of running a piece of the program with a bound on the number of
iterations of each of its loops: it finished with a value, it ran into
behaviour that C leaves undefined, or it was still running when the bound was
reached. -/
inductive run (α : Type) where
  | done (a : α)
  | undefined
  | timeout
  deriving DecidableEq, Repr

/-- Apply a function to the value of a finished run. -/
def run.map {α β : Type} (f : α → β) : run α → run β
  | run.done a => run.done (f a)
  | run.undefined => run.undefined
  | run.timeout => run.timeout

/-- Source: the globals `comp_info_array`, `pid_array` and `num_procs`.  An array
is a function of the index. -/
structure globals (F : Type) where
  comp_info_array : Nat → compression_info F
  pid_array : Nat → Int
  num_procs : Int

/-- The children of the driver that have been forked and not yet reported by
`wait`, each with its process id and the status `wait` will report, and the
number of children reported so far. -/
structure os_state where
  children : List (Int × Int)
  waits : Nat
  deriving DecidableEq, Repr

/-- The system call `wait(&status)`: with no child left it fails with `-1`
(`ECHILD`) and leaves `status` alone; otherwise it reports one of the children,
chosen by the scheduler `sched`, and forgets it. -/
def wait (sched : Nat → Nat) (os : os_state) (status : Int) : Int × Int × os_state :=
  match os.children with
  | [] => (-1, status, os)
  | c :: cs =>
    let i := sched os.waits % (c :: cs).length
    let p := (c :: cs).getD i c
    (p.1, p.2, { children := (c :: cs).eraseIdx i, waits := os.waits + 1 })

/-- The macro `WIFEXITED(status)` of `<sys/wait.h>`: the low seven bits of the
status are zero, i.e. the child ended through `exit` or a return from `main`. -/
def WIFEXITED (status : Int) : Bool := status % 128 == 0

/-- The wait status of a child that ended with `exit(code)`. -/
def exit_status (code : Int) : Int := (code % 256) * 256

/-- The wait status of a child that was killed by signal `sig`. -/
def signal_status (sig : Int) : Int := sig % 128

/-- Source: `get_empty_pid_index`, the loop from index `i` on; the first argument
is `num_procs - i`. -/
def get_empty_pid_index_from (pid_array : Nat → Int) : Nat → Nat → Int
  | 0, _ => -1
  | k + 1, i => if pid_array i = 0 then (i : Int) else get_empty_pid_index_from pid_array k (i + 1)

/-- Source: `get_empty_pid_index`. -/
def get_empty_pid_index {F : Type} (g : globals F) : Int :=
  get_empty_pid_index_from g.pid_array g.num_procs.toNat 0

/-- The statements `comp_info_array[num_procs].x += comp_info_array[i].x` for the
five fields `x`; `int` addition wraps around. -/
def add_info {F : Type} [Add F] (agg s : compression_info F) : compression_info F :=
  { num_zero_blocks := wrap32 (agg.num_zero_blocks + s.num_zero_blocks),
    num_non_zero_blocks := wrap32 (agg.num_non_zero_blocks + s.num_non_zero_blocks),
    total_blocks_read := wrap32 (agg.total_blocks_read + s.total_blocks_read),
    compression_ratio := agg.compression_ratio + s.compression_ratio,
    c_squared := agg.c_squared + s.c_squared }

/-- Source: the body of the `if (pid_array[i] == ret)` of `wait_for_process`: the
table entry `i` is cleared and the slot `i` is added to the aggregate slot
`comp_info_array[num_procs]`. -/
def reaped {F : Type} [Add F] (g : globals F) (i : Nat) : globals F :=
  { g with
    pid_array := Function.update g.pid_array i 0,
    comp_info_array :=
      Function.update g.comp_info_array g.num_procs.toNat
        (add_info (g.comp_info_array g.num_procs.toNat) (g.comp_info_array i)) }

/-- Source: the `for` loop of `wait_for_process` from index `i` on, looking for the
process id `ret`; the first argument is `num_procs - i`. -/
def aggregate_from {F : Type} [Add F] (g : globals F) (ret : Int) : Nat → Nat → Int × globals F
  | 0, _ => (-1, g)
  | k + 1, i =>
    if g.pid_array i = ret then (0, reaped g i)
    else aggregate_from g ret k (i + 1)

/-- Source: the loop `do { ret = wait(&status); } while (ret == -1);` of
`wait_for_process`; the first argument bounds the number of iterations. -/
def wait_loop (sched : Nat → Nat) : Nat → os_state → Int → run (Int × Int × os_state)
  | 0, _, _ => run.timeout
  | k + 1, os, status =>
    let r := wait sched os status
    if r.1 = -1 then wait_loop sched k r.2.2 r.2.1 else run.done r

/-- Source: `wait_for_process`.  Returns the value returned by the function, the
state of the operating system and the globals.  `status0` is the indeterminate
initial content of the local `status`. -/
def wait_for_process {F : Type} [Add F] (sched : Nat → Nat) (fuel : Nat) (os : os_state)
    (g : globals F) (status0 : Int) : run (Int × os_state × globals F) :=
  match wait_loop sched fuel os status0 with
  | run.timeout => run.timeout
  | run.undefined => run.undefined
  | run.done (ret, status, os1) =>
    if !WIFEXITED status then run.done (-1, os1, g)
    else
      let r := aggregate_from g ret g.num_procs.toNat 0
      run.done (r.1, os1, r.2)

/-! ## Driver -/

/-- What the environment of the driver supplies: the stream of values of
`random()`, the outcome of the system calls, the scheduler, and what a worker
started on a pattern leaves in its slot together with its wait status. -/
structure world (F : Type) where
  rnd : Nat → Int
  mmap_errno : Int
  open_ok : Bool
  dev_len : Int
  fork_ret : Nat → Int
  fork_errno : Int
  sched : Nat → Nat
  child : Bool → List Int → Nat → compression_info F × Int

/-- The system call `lseek(fd, -1, SEEK_END)` on a device of `dev_len` bytes: the
resulting offset `dev_len - 1`, or `-1` when that offset would be negative. -/
def lseek_end_minus_one (dev_len : Int) : Int :=
  if dev_len - 1 < 0 then -1 else dev_len - 1

/-- Source: `get_dev_size`. -/
def get_dev_size {F : Type} (w : world F) : Int :=
  if !w.open_ok then -1
  else
    let size := lseek_end_minus_one w.dev_len
    if size = -1 then -1 else size

/-- What `init_log_files` is called with and meets: which file names were given on
the command line, whether each `fopen` and `dup2` succeeds, and the value of
`errno` after a failure. -/
structure log_env where
  log_name : Bool
  csv_name : Bool
  res_name : Bool
  log_fopen_ok : Bool
  log_dup2_ok : Bool
  csv_fopen_ok : Bool
  csv_dup2_ok : Bool
  res_fopen_ok : Bool
  errno : Int

/-- Source: `init_log_files` (return value). -/
def init_log_files (e : log_env) : Int :=
  if e.log_name && !e.log_fopen_ok then e.errno
  else if e.log_name && !e.log_dup2_ok then e.errno
  else if e.csv_name && !e.csv_fopen_ok then e.errno
  else if e.csv_name && !e.csv_dup2_ok then e.errno
  else if e.res_name && !e.res_fopen_ok then e.errno
  else 0

/-- The locals of `main` together with the globals and the operating system;
`forks` counts the calls of `fork`, `spawned` lists the workers created. -/
structure driver_state (F : Type) where
  g : globals F
  os : os_state
  ps : pattern_state
  active_procs : Int
  ret : Int
  forks : Nat
  spawned : List Int

/-- Where control goes after a group of statements of `main`: on to the next
statement, or to the label `out`. -/
inductive flow (σ : Type) where
  | next (s : σ)
  | out (s : σ)

/-- Source: the statements
`ret = wait_for_process(); if (ret == -1) goto out; print_status(0); active_procs--;`
of `main` (`print_status` only writes to the output files). -/
def reap_one {F : Type} [Add F] (w : world F) (fuel : Nat) (st : driver_state F) :
    run (flow (driver_state F)) :=
  match wait_for_process w.sched fuel st.os st.g 0 with
  | run.timeout => run.timeout
  | run.undefined => run.undefined
  | run.done (ret, os1, g1) =>
    let st1 := { st with os := os1, g := g1, ret := ret }
    if ret = -1 then run.done (flow.out st1)
    else run.done (flow.next { st1 with active_procs := st1.active_procs - 1 })

/-- Source: the statements of the first loop of `main` from
`index = get_empty_pid_index();` to `active_procs++;`, as seen by the parent.
The worker forked on `pattern` owns slot `index`; what it leaves there is
written at once, since the parent does not read the slot before reaping it. -/
def spawn {F : Type} (w : world F) (exhaustive : Bool) (pattern : List Int)
    (st : driver_state F) : flow (driver_state F) :=
  let index := get_empty_pid_index st.g
  if index = -1 then flow.out { st with ret := -1 }
  else
    let pid := w.fork_ret st.forks
    let st1 := { st with
      forks := st.forks + 1,
      g := { st.g with pid_array := Function.update st.g.pid_array index.toNat pid } }
    if pid = -1 then flow.out { st1 with ret := w.fork_errno }
    else
      let c := w.child exhaustive pattern st.ps.rand_pos
      flow.next { st1 with
        g := { st1.g with
               comp_info_array := Function.update st1.g.comp_info_array index.toNat c.1 },
        os := { st1.os with children := st1.os.children ++ [(pid, c.2)] },
        active_procs := st1.active_procs + 1,
        spawned := st1.spawned ++ [pid] }

/-- Source: the loop `while ((pattern_size = get_pattern(...)))` of `main`; the
first argument bounds the number of iterations of each loop. -/
def driver_loop {F : Type} [Add F] (w : world F) (exhaustive : Bool) (num_chunks : Int) :
    Nat → driver_state F → run (flow (driver_state F))
  | 0, _ => run.timeout
  | k + 1, st =>
    match get_pattern st.g.num_procs w.rnd st.ps exhaustive num_chunks st.active_procs
        (st.g.comp_info_array st.g.num_procs.toNat) with
    | none => run.undefined
    | some r =>
      let st0 := { st with ps := r.state }
      if r.count = 0 then run.done (flow.next st0)
      else
        let reaped : run (flow (driver_state F)) :=
          if st0.active_procs ≥ st0.g.num_procs then reap_one w k st0
          else run.done (flow.next st0)
        match reaped with
        | run.timeout => run.timeout
        | run.undefined => run.undefined
        | run.done (flow.out st1) => run.done (flow.out st1)
        | run.done (flow.next st1) =>
          match spawn w exhaustive r.pattern st1 with
          | flow.out st2 => run.done (flow.out st2)
          | flow.next st2 => driver_loop w exhaustive num_chunks k st2

/-- Source: the loop `while (active_procs)` of `main`. -/
def drain_loop {F : Type} [Add F] (w : world F) : Nat → driver_state F →
    run (flow (driver_state F))
  | 0, _ => run.timeout
  | k + 1, st =>
    if st.active_procs ≠ 0 then
      match reap_one w k st with
      | run.timeout => run.timeout
      | run.undefined => run.undefined
      | run.done (flow.out st1) => run.done (flow.out st1)
      | run.done (flow.next st1) => drain_loop w k st1
    else run.done (flow.next st)

/-- Source: the loop of `cleanup_handler` that sends `SIGKILL`: the process ids
passed to `kill`, in order. -/
def cleanup_kills {F : Type} (g : globals F) : List Int :=
  (List.range g.num_procs.toNat).filterMap
    (fun i => if g.pid_array i ≠ 0 then some (g.pid_array i) else none)

/-- What a run of `main` leaves: its return value (the exit status of the
program), the final state, and the process ids `cleanup_handler` has killed. -/
structure main_result (F : Type) where
  ret : Int
  final : driver_state F
  killed : List Int

/-- Source: the label `out` of `main`: `cleanup_handler(0); return ret;`. -/
def main_out {F : Type} (st : driver_state F) : main_result F :=
  { ret := st.ret, final := st, killed := cleanup_kills st.g }

/-- Source: `main`, after the options have been parsed into `num_procs`,
`exhaustive` and the file names of `le` (a device name is present).  `fuel`
bounds the number of iterations of each loop. -/
def main {F : Type} [Add F] [NatCast F] (w : world F) (le : log_env) (num_procs : Int)
    (exhaustive : Bool) (fuel : Nat) : run (main_result F) :=
  let st0 : driver_state F :=
    { g := { comp_info_array := fun _ => zero_info F, pid_array := fun _ => 0,
             num_procs := num_procs },
      os := { children := [], waits := 0 },
      ps := { cur_chunk := 0, rand_pos := 0 },
      active_procs := 0, ret := 0, forks := 0, spawned := [] }
  if num_procs < 0 ∨ num_procs > MAX_NUM_PROCS then
    -- `usage` ends the program with `exit(1)`
    run.done { ret := 1, final := st0, killed := [] }
  else if w.mmap_errno ≠ 0 then
    run.done (main_out { st0 with ret := w.mmap_errno })
  else
    let dev_size := get_dev_size w
    let num_chunks := wrap32 (Int.tdiv dev_size INBLOCK_SIZE)
    if num_chunks < 1 then run.done (main_out st0)
    else
      let st1 := { st0 with ret := init_log_files le }
      match driver_loop w exhaustive num_chunks fuel st1 with
      | run.timeout => run.timeout
      | run.undefined => run.undefined
      | run.done (flow.out st2) => run.done (main_out st2)
      | run.done (flow.next st2) =>
        match drain_loop w fuel st2 with
        | run.timeout => run.timeout
        | run.undefined => run.undefined
        | run.done (flow.out st3) => run.done (main_out st3)
        | run.done (flow.next st3) => run.done (main_out st3)

/-! ## Estimator -/

/-- The functions of `<math.h>` that the estimator calls. -/
structure libm (F : Type) where
  sqrt : F → F
  pow : F → F → F

/-- What `confidence` computes: the two values it stores through its pointer
arguments, the variance it prints, and the value it returns. -/
structure confidence_result (F : Type) where
  conf_zeros : F
  conf_comp : F
  estimated_var : F
  returned : F

/-- Source: `confidence`, on the aggregate slot `info = comp_info_array[num_procs]`. -/
def confidence {F : Type} [Sub F] [Mul F] [Div F] [NatCast F] [IntCast F] [OfScientific F]
    (m : libm F) (info : compression_info F) : confidence_result F :=
  let total_samples : Int := wrap32 (info.num_zero_blocks + info.num_non_zero_blocks)
  let estimated_var : F :=
    (info.c_squared / (info.num_non_zero_blocks : F)) -
      m.pow (info.compression_ratio / (info.num_non_zero_blocks : F)) ((2 : Nat) : F)
  let conf_zeros : F := m.sqrt (16.82 / (((2 : Nat) : F) * (total_samples : F)))
  let conf_comp : F := m.sqrt (16.82 / (((2 : Nat) : F) * (info.num_non_zero_blocks : F)))
  { conf_zeros := conf_zeros, conf_comp := conf_comp, estimated_var := estimated_var,
    returned := conf_comp }

/-- The twelve values that `print_status` formats into one CSV row, in the order
of the format string. -/
structure status_row (F : Type) where
  num_zero_blocks : Int
  num_non_zero_blocks : Int
  total_blocks_read : Int
  compression_ratio : F
  conf_comp : F
  dev_size_mb : F
  after_zero_size : F
  after_zero_perc : F
  conf_zeros : F
  after_rtc_size : F
  after_rtc_perc : F
  error : F

/-- Source: `print_status`, the values of the row it prints, on the aggregate slot
`info` and the global `dev_size`. -/
def print_status {F : Type} [Sub F] [Mul F] [Div F] [NatCast F] [IntCast F] [OfScientific F]
    (m : libm F) (info : compression_info F) (dev_size : Int) : status_row F :=
  let dev_size_mb : F := (dev_size : F) / ((1048576 : Nat) : F)
  let total_samples : Int := wrap32 (info.num_zero_blocks + info.num_non_zero_blocks)
  let after_zero_size : F :=
    ((info.num_non_zero_blocks : F) / (total_samples : F)) * dev_size_mb
  let after_zero_perc : F :=
    ((info.num_non_zero_blocks : F) / (total_samples : F)) * ((100 : Nat) : F)
  let after_rtc_size : F :=
    (info.compression_ratio * after_zero_size) / (info.num_non_zero_blocks : F)
  let after_rtc_perc : F :=
    info.compression_ratio * ((100 : Nat) : F) / (info.num_non_zero_blocks : F)
  let c := confidence m info
  let error : F := after_zero_size * c.returned
  { num_zero_blocks := info.num_zero_blocks,
    num_non_zero_blocks := info.num_non_zero_blocks,
    total_blocks_read := info.total_blocks_read,
    compression_ratio := info.compression_ratio,
    conf_comp := c.conf_comp,
    dev_size_mb := dev_size_mb,
    after_zero_size := after_zero_size,
    after_zero_perc := after_zero_perc,
    conf_zeros := c.conf_zeros,
    after_rtc_size := after_rtc_size,
    after_rtc_perc := after_rtc_perc,
    error := error }

/-! ## Worker: device, codec and the two compression procedures -/

/-- The device as a worker sees it: its bytes, and the offsets at which a
positional read fails. -/
structure device where
  data : List Byte
  fails : Int → Bool

/-- The system call `pread(fd, inbuf, count, offset)`: the number of bytes read
(`0` at or past the end of the device, `-1` on failure) and the buffer afterwards;
bytes of the buffer that are not read into keep their content. -/
def pread (dev : device) (inbuf : List Byte) (count : Nat) (offset : Int) : Int × List Byte :=
  if offset < 0 ∨ dev.fails offset = true then (-1, inbuf)
  else
    let chunk := (dev.data.drop offset.toNat).take count
    ((chunk.length : Int), chunk ++ inbuf.drop chunk.length)

/-- The zlib return code `Z_OK`. -/
def Z_OK : Int := 0

/-- Conversion of an `int` to the `unsigned int` of `avail_in`. -/
def u32 (x : Int) : Int := x % 4294967296

/-- Source: the fields of zlib's `z_stream` that the program reads or writes
(`next_in` as an offset into `inbuf`); `state` is the codec's own state. -/
structure z_stream (σ : Type) where
  next_in : Int
  avail_in : Int
  avail_out : Int
  total_in : Int
  total_out : Int
  state : σ

/-- The external codec: the stream after `deflateInit(&strm, 1)` with the value
returned, the call `deflate_cont(&strm, Z_SYNC_FLUSH)` on the stream and the
input buffer with the value returned, and `deflateReset(&strm)`. -/
structure codec (σ : Type) where
  deflateInit : z_stream σ × Int
  deflate_cont : z_stream σ → List Byte → z_stream σ × Int
  deflateReset : z_stream σ → z_stream σ

/-- How far a worker has come: still running when the bound on loop iterations
was reached, returned from the procedure, or ended by `exit(code)`. -/
inductive proc_status where
  | running
  | returned
  | exited (code : Int)
  deriving DecidableEq, Repr

/-- The memory of a worker that outlives one sample: its slot in shared memory,
its read buffer and its position in the stream of `random()`. -/
structure worker (F : Type) where
  info : compression_info F
  inbuf : List Byte
  rand_pos : Nat

/-- The locals of the `do .. while` loop of `compress_chunk_random`. -/
structure sample_state (σ F : Type) where
  strm : z_stream σ
  buffer_size : Int
  bufptr : Int
  read_location : Int
  inbuf : List Byte
  info : compression_info F

/-- Source: the inner loop of `compress_chunk_random`,
`do { read_location += INBLOCK_SIZE; pread; total_blocks_read++; }
 while (is_zero_block(inbuf) && (read_location < end_of_comp_stream))`.
The first argument bounds the number of iterations. -/
def read_ahead {F : Type} (dev : device) (end_of_comp_stream : Int) :
    Nat → Int → List Byte → compression_info F →
      proc_status × Int × List Byte × compression_info F
  | 0, read_location, inbuf, info => (proc_status.running, read_location, inbuf, info)
  | k + 1, read_location, inbuf, info =>
    let loc := read_location + INBLOCK_SIZE
    let r := pread dev inbuf INBLOCK_SIZE loc
    if r.1 = -1 then (proc_status.exited 1, loc, r.2, info)
    else
      let info1 := { info with total_blocks_read := wrap32 (info.total_blocks_read + 1) }
      if is_zero_block r.2 && decide (loc < end_of_comp_stream) then
        read_ahead dev end_of_comp_stream k loc r.2 info1
      else (proc_status.returned, loc, r.2, info1)

/-- Source: the `do .. while (strm.avail_out)` loop of `compress_chunk_random`, up
to the label `done`.  The first argument bounds the number of iterations of each
loop. -/
def sample_loop {σ F : Type} (c : codec σ) (dev : device) (end_of_comp_stream : Int) :
    Nat → sample_state σ F → proc_status × sample_state σ F
  | 0, s => (proc_status.running, s)
  | k + 1, s =>
    let saved_ti := s.strm.total_in
    let d := c.deflate_cont s.strm s.inbuf
    if d.2 ≠ Z_OK then (proc_status.exited 1, { s with strm := d.1 })
    else
      let ti := d.1.total_in
      let buffer_size := wrap32 (s.buffer_size - (ti - saved_ti))
      let bufptr := s.bufptr + (ti - saved_ti)
      let s1 := { s with strm := d.1, buffer_size := buffer_size, bufptr := bufptr }
      if d.1.avail_out = 0 then (proc_status.returned, s1)
      else if buffer_size ≤ 0 then
        match read_ahead dev end_of_comp_stream k s1.read_location s1.inbuf s1.info with
        | (proc_status.running, loc, inbuf, info) =>
          (proc_status.running, { s1 with read_location := loc, inbuf := inbuf, info := info })
        | (proc_status.exited code, loc, inbuf, info) =>
          (proc_status.exited code,
            { s1 with read_location := loc, inbuf := inbuf, info := info })
        | (proc_status.returned, loc, inbuf, info) =>
          let s2 := { s1 with read_location := loc, inbuf := inbuf, info := info, bufptr := 0 }
          if loc ≥ end_of_comp_stream then (proc_status.returned, s2)
          else
            let s3 := { s2 with
              buffer_size := INBLOCK_SIZE,
              strm := { s2.strm with
                next_in := 0,
                avail_in := u32 (min (INBLOCK_SIZE : Int) (ZLIB_BLOCK_SIZE : Int)) } }
            if s3.strm.avail_out ≠ 0 then sample_loop c dev end_of_comp_stream k s3
            else (proc_status.returned, s3)
      else
        let s3 := { s1 with
          strm := { s1.strm with
            next_in := bufptr,
            avail_in := u32 (min buffer_size (ZLIB_BLOCK_SIZE : Int)) } }
        if s3.strm.avail_out ≠ 0 then sample_loop c dev end_of_comp_stream k s3
        else (proc_status.returned, s3)

/-- Source: `compress_chunk_random`.  `rnd` is the stream of values of `random()`,
`fuel` bounds the number of iterations of each loop. -/
def compress_chunk_random {σ F : Type} [Add F] [Div F] [IntCast F] [NatCast F]
    (c : codec σ) (m : libm F) (dev : device) (rnd : Nat → Int) (fuel : Nat)
    (read_location : Int) (w : worker F) : proc_status × worker F :=
  let r := pread dev w.inbuf INBLOCK_SIZE read_location
  if r.1 = -1 then (proc_status.exited 1, { w with inbuf := r.2 })
  else
    let info1 := { w.info with total_blocks_read := wrap32 (w.info.total_blocks_read + 1) }
    if is_zero_block r.2 then
      (proc_status.returned,
        { w with inbuf := r.2,
                 info := { info1 with num_zero_blocks := wrap32 (info1.num_zero_blocks + 1) } })
    else
      let info2 :=
        { info1 with num_non_zero_blocks := wrap32 (info1.num_non_zero_blocks + 1) }
      let random_num := Int.tmod (rnd w.rand_pos) INBLOCK_SIZE
      let buffer_size := wrap32 (INBLOCK_SIZE - random_num)
      let end_of_comp_stream := read_location + COMP_UNIT_SIZE + COMP_UNIT_SIZE
      let w2 : worker F := { info := info2, inbuf := r.2, rand_pos := w.rand_pos + 1 }
      if c.deflateInit.2 ≠ Z_OK then (proc_status.exited 1, w2)
      else
        let strm := { c.deflateInit.1 with
          avail_out := OUTBLOCK_SIZE,
          next_in := random_num,
          avail_in := u32 (min buffer_size (ZLIB_BLOCK_SIZE : Int)) }
        let s0 : sample_state σ F :=
          { strm := strm, buffer_size := buffer_size, bufptr := random_num,
            read_location := read_location, inbuf := r.2, info := info2 }
        match sample_loop c dev end_of_comp_stream fuel s0 with
        | (proc_status.returned, s) =>
          let zlib_input_bytes := s.strm.total_in
          let zlib_output_bytes := s.strm.total_out
          let ratio : F := (zlib_output_bytes : F) / (zlib_input_bytes : F)
          (proc_status.returned,
            { w2 with
              inbuf := s.inbuf,
              info := { s.info with
                compression_ratio := s.info.compression_ratio + ratio,
                c_squared := s.info.c_squared + m.pow ratio ((2 : Nat) : F) } })
        | (st, s) => (st, { w2 with inbuf := s.inbuf, info := s.info })

/-- How the inner loop of `compress_chunks_sequential` ends: the pattern is
used up (`goto done`), a read failed (`exit(1)`), or a non-zero block was read
(`break`) and `rest` of the pattern remains. -/
inductive fill_result where
  | at_end (inbuf : List Byte) (zero_blocks : Int)
  | failed (inbuf : List Byte) (zero_blocks : Int)
  | found (rest : List Int) (inbuf : List Byte) (zero_blocks : Int)

/-- Source: the inner `while (1)` loop of `compress_chunks_sequential`; the first
argument is `pattern[index..pattern_size)`. -/
def seq_fill (dev : device) : List Int → List Byte → Int → fill_result
  | [], inbuf, zero_blocks => fill_result.at_end inbuf zero_blocks
  | off :: rest, inbuf, zero_blocks =>
    let r := pread dev inbuf INBLOCK_SIZE off
    if r.1 = -1 then fill_result.failed r.2 zero_blocks
    else if is_zero_block r.2 then seq_fill dev rest r.2 (wrap32 (zero_blocks + 1))
    else fill_result.found rest r.2 zero_blocks

/-- The locals of `compress_chunks_sequential`; `rest` is
`pattern[index..pattern_size)`. -/
structure seq_state (σ : Type) where
  strm : z_stream σ
  rest : List Int
  buffer_size : Int
  bufptr : Int
  zero_blocks : Int
  non_zero_blocks : Int
  zlib_input_bytes : Int
  zlib_output_bytes : Int
  inbuf : List Byte

/-- Source: the statements of the outer loop of `compress_chunks_sequential` from
`saved_ai = strm.avail_in;` to the end of the loop body; `none` stands for
`exit(1)` after a failed `deflate_cont`. -/
def seq_deflate {σ : Type} (c : codec σ) (s : seq_state σ) : Option (seq_state σ) :=
  let saved_ti := wrap32 s.strm.total_in
  let d := c.deflate_cont s.strm s.inbuf
  if d.2 ≠ Z_OK then none
  else
    let ti := wrap32 d.1.total_in
    let buffer_size := wrap32 (s.buffer_size - wrap32 (ti - saved_ti))
    let bufptr := s.bufptr + wrap32 (ti - saved_ti)
    let strm1 : z_stream σ := { d.1 with next_in := bufptr }
    let strm2 : z_stream σ :=
      if strm1.avail_in ≤ 0 then
        { strm1 with avail_in := u32 (min buffer_size (ZLIB_BLOCK_SIZE : Int)) }
      else strm1
    let s2 : seq_state σ :=
      { s with strm := strm2, buffer_size := buffer_size, bufptr := bufptr }
    if strm2.avail_out ≤ 0 then
      let strm3 : z_stream σ := c.deflateReset strm2
      some { s2 with
        zlib_input_bytes := s2.zlib_input_bytes + strm2.total_in,
        zlib_output_bytes := s2.zlib_output_bytes + strm2.total_out,
        strm := { strm3 with
          next_in := bufptr,
          avail_out := OUTBLOCK_SIZE,
          avail_in := u32 (min buffer_size (ZLIB_BLOCK_SIZE : Int)) } }
    else some s2

/-- Source: the outer `while (1)` loop of `compress_chunks_sequential`, up to the
label `done`.  The first argument bounds the number of iterations. -/
def seq_loop {σ : Type} (c : codec σ) (dev : device) :
    Nat → seq_state σ → proc_status × seq_state σ
  | 0, s => (proc_status.running, s)
  | k + 1, s =>
    if s.buffer_size ≤ 0 then
      match seq_fill dev s.rest s.inbuf s.zero_blocks with
      | fill_result.at_end inbuf zero_blocks =>
        (proc_status.returned, { s with rest := [], inbuf := inbuf, zero_blocks := zero_blocks })
      | fill_result.failed inbuf zero_blocks =>
        (proc_status.exited 1, { s with inbuf := inbuf, zero_blocks := zero_blocks })
      | fill_result.found rest inbuf zero_blocks =>
        let s1 := { s with
          rest := rest, inbuf := inbuf, zero_blocks := zero_blocks,
          non_zero_blocks := wrap32 (s.non_zero_blocks + 1),
          buffer_size := INBLOCK_SIZE,
          bufptr := 0,
          strm := { s.strm with
            next_in := 0,
            avail_in := u32 (min (INBLOCK_SIZE : Int) (ZLIB_BLOCK_SIZE : Int)) } }
        match seq_deflate c s1 with
        | none => (proc_status.exited 1, s1)
        | some s2 => seq_loop c dev k s2
    else
      match seq_deflate c s with
      | none => (proc_status.exited 1, s)
      | some s2 => seq_loop c dev k s2

/-- Source: `compress_chunks_sequential`.  `fuel` bounds the number of iterations
of the outer loop.  The slot `info` is written only after the label `done`. -/
def compress_chunks_sequential {σ F : Type} [Mul F] [Div F] [IntCast F] (c : codec σ)
    (dev : device) (fuel : Nat) (pattern : List Int) (w : worker F) :
    proc_status × worker F :=
  if c.deflateInit.2 ≠ Z_OK then (proc_status.exited 1, w)
  else
    let s0 : seq_state σ :=
      { strm := { c.deflateInit.1 with avail_out := OUTBLOCK_SIZE },
        rest := pattern, buffer_size := 0, bufptr := 0, zero_blocks := 0,
        non_zero_blocks := 0, zlib_input_bytes := 0, zlib_output_bytes := 0,
        inbuf := w.inbuf }
    match seq_loop c dev fuel s0 with
    | (proc_status.returned, s) =>
      let info1 : compression_info F :=
        if s.zlib_input_bytes ≠ 0 then
          { w.info with
            compression_ratio :=
              ((s.zlib_output_bytes : F) / (s.zlib_input_bytes : F)) *
                (s.non_zero_blocks : F) }
        else w.info
      (proc_status.returned,
        { w with
          inbuf := s.inbuf,
          info := { info1 with
            num_non_zero_blocks := s.non_zero_blocks,
            num_zero_blocks := s.zero_blocks,
            total_blocks_read := wrap32 (s.zero_blocks + s.non_zero_blocks) } })
    | (st, s) => (st, { w with inbuf := s.inbuf })

/-- Source: the loop `for (i = 0; i < pattern_size; i++) compress_chunk_random(...)`
of `child`; a sample that does not return ends the loop. -/
def random_samples {σ F : Type} [Add F] [Div F] [IntCast F] [NatCast F] (c : codec σ)
    (m : libm F) (dev : device) (rnd : Nat → Int) (fuel : Nat) :
    List Int → worker F → proc_status × worker F
  | [], w => (proc_status.returned, w)
  | off :: rest, w =>
    match compress_chunk_random c m dev rnd fuel off w with
    | (proc_status.returned, w1) => random_samples c m dev rnd fuel rest w1
    | r => r

/-- Source: `child`.  `inbuf0` is the content of the freshly allocated read
buffer, `open_ok` tells whether the device can be opened, `rand_pos` is the
position in the stream of `random()` inherited from the parent. -/
def child {σ F : Type} [Add F] [Mul F] [Div F] [IntCast F] [NatCast F] (c : codec σ)
    (m : libm F) (dev : device) (rnd : Nat → Int) (fuel : Nat) (open_ok : Bool)
    (inbuf0 : List Byte) (rand_pos : Nat) (pattern : List Int) (exhaustive : Bool) :
    proc_status × worker F :=
  let w0 : worker F := { info := zero_info F, inbuf := inbuf0, rand_pos := rand_pos }
  if !open_ok then (proc_status.exited 1, w0)
  else
    let r :=
      if exhaustive then compress_chunks_sequential c dev fuel pattern w0
      else random_samples c m dev rnd fuel pattern w0
    match r with
    | (proc_status.returned, w1) => (proc_status.exited 0, w1)
    | r => r

/-- The invariant of a slot: the counters of sampled blocks are not negative and
do not exceed the number of blocks read. -/
def slot_inv {F : Type} (s : compression_info F) : Prop :=
  0 ≤ s.num_zero_blocks ∧ 0 ≤ s.num_non_zero_blocks ∧
    s.num_zero_blocks + s.num_non_zero_blocks ≤ s.total_blocks_read

instance slot_inv_decidable {F : Type} (s : compression_info F) : Decidable (slot_inv s) := by
  unfold slot_inv
  exact inferInstance

/-! ## Concrete inputs

Small environments on which the theorems below evaluate the program. -/

/-- Example: a worker's slot holding the given three counters. -/
def example_slot (z n t : Int) : compression_info Int :=
  { num_zero_blocks := z, num_non_zero_blocks := n, total_blocks_read := t,
    compression_ratio := 0, c_squared := 0 }

/-- Example: a device of 4097 bytes (two blocks) that opens, `fork` returning the
process ids 101, 102, ..., and workers that each report 2000 non-zero samples
and end with `exit(0)`. -/
def example_world : world Int :=
  { rnd := fun _ => 0, mmap_errno := 0, open_ok := true, dev_len := 4097,
    fork_ret := fun k => 101 + (k : Int), fork_errno := 11, sched := fun _ => 0,
    child := fun _ _ _ => (example_slot 0 2000 2000, exit_status 0) }

/-- Example: the same environment with a device that cannot be opened. -/
def example_world_no_device : world Int :=
  { example_world with open_ok := false }

/-- Example: no log, CSV or result file is asked for. -/
def example_log_none : log_env :=
  { log_name := false, csv_name := false, res_name := false, log_fopen_ok := true,
    log_dup2_ok := true, csv_fopen_ok := true, csv_dup2_ok := true, res_fopen_ok := true,
    errno := 0 }

/-- Example: a log file is asked for and cannot be opened (`errno = ENOENT = 2`). -/
def example_log_fails : log_env :=
  { example_log_none with log_name := true, log_fopen_ok := false, errno := 2 }

/-- Example: one worker, process id 4242, recorded at table index 0; it has read
one non-zero block into its slot and then ended with `exit(1)`. -/
def example_failed_globals : globals Int :=
  { comp_info_array := Function.update (fun _ => zero_info Int) 0 (example_slot 0 1 1),
    pid_array := Function.update (fun _ => 0) 0 4242,
    num_procs := 1 }

/-- What is observed of a run of `main`: its return value, the workers it has
created and the process ids it has killed. -/
def main_summary {F : Type} (r : main_result F) : Int × List Int × List Int :=
  (r.ret, r.final.spawned, r.killed)

/-- Example: the driver about to drain one worker, process id 4242 at table index
0, that has left the counters 3, 1, 5 in its slot and ended with `exit(0)`. -/
def example_drain_state : driver_state Int :=
  { g := { comp_info_array := Function.update (fun _ => zero_info Int) 0 (example_slot 3 1 5),
           pid_array := Function.update (fun _ => 0) 0 4242,
           num_procs := 1 },
    os := { children := [(4242, exit_status 0)], waits := 0 },
    ps := { cur_chunk := 0, rand_pos := 50 },
    active_procs := 1, ret := 0, forks := 1, spawned := [4242] }

/-- Example: the state of `example_drain_state` after the drain. -/
def example_drained_state : driver_state Int :=
  { example_drain_state with
    g := reaped example_drain_state.g 0,
    os := { children := [], waits := 1 },
    active_procs := 0, ret := 0 }

/-- Example: a codec that takes all the input offered and fills the output buffer
at once. -/
def example_codec : codec Unit :=
  { deflateInit :=
      ({ next_in := 0, avail_in := 0, avail_out := 0, total_in := 0, total_out := 0,
         state := () }, Z_OK),
    deflate_cont := fun s _ =>
      ({ s with avail_in := 0, avail_out := 0, total_in := s.total_in + s.avail_in,
                total_out := s.total_out + s.avail_out }, Z_OK),
    deflateReset := fun s => { s with total_in := 0, total_out := 0 } }

/-- Example: integer stand-ins for `sqrt` and `pow`. -/
def example_libm : libm Int :=
  { sqrt := fun x => x, pow := fun x _ => x * x }

/-- Example: a device of one block whose bytes are all 1, every read of which
succeeds. -/
def example_device : device :=
  { data := List.replicate 2048 1, fails := fun _ => false }

/-- Example: a worker with a zeroed slot and a zeroed read buffer. -/
def example_worker : worker Int :=
  { info := zero_info Int, inbuf := List.replicate 2048 0, rand_pos := 0 }

/-- The contract of zlib's `deflate` with `Z_SYNC_FLUSH`, as far as the sampling
loop depends on it: a call that returns `Z_OK` has taken all the input offered,
or it has filled the output buffer. -/
def codec_progress {σ : Type} (c : codec σ) : Prop :=
  ∀ (s : z_stream σ) (inbuf : List Byte), (c.deflate_cont s inbuf).2 = Z_OK →
    (c.deflate_cont s inbuf).1.avail_out = 0 ∨
      (c.deflate_cont s inbuf).1.total_in = s.total_in + s.avail_in

/-- Example: a codec that takes all the input offered and emits 600 bytes on
every call, or what is left of the output buffer. -/
def example_codec_600 : codec Unit :=
  { deflateInit :=
      ({ next_in := 0, avail_in := 0, avail_out := 0, total_in := 0, total_out := 0,
         state := () }, Z_OK),
    deflate_cont := fun s _ =>
      ({ s with avail_in := 0, avail_out := s.avail_out - min 600 s.avail_out,
                total_in := s.total_in + s.avail_in,
                total_out := s.total_out + min 600 s.avail_out }, Z_OK),
    deflateReset := fun s => { s with total_in := 0, total_out := 0 } }

/-- Example: the environment of `example_world` with a device of 4096 bytes. -/
def example_world_4096 : world Int :=
  { example_world with dev_len := 4096 }

/-- Example: a device of 4096 bytes (two blocks) whose bytes are all 1, every read
of which succeeds. -/
def example_device_4096 : device :=
  { data := List.replicate 4096 1, fails := fun _ => false }

/-- Example: the locals of `compress_chunk_random` at the entry of its loop, for
the sample at offset 0 of `example_device_4096` with `random()` returning 0. -/
def example_sample_state : sample_state Unit Int :=
  { strm := { example_codec_600.deflateInit.1 with
              avail_out := OUTBLOCK_SIZE, next_in := 0, avail_in := 2048 },
    buffer_size := 2048, bufptr := 0, read_location := 0,
    inbuf := List.replicate 2048 1,
    info := example_slot 0 1 1 }

/-- The results of `n` successive calls of `get_pattern`, made the way the loop of
`main` makes them: the state a call leaves (the static `cur_chunk`, the position
in the stream of `random()`) is the state of the next call.  `acts j` and
`infos j` are the values of `active_procs` and of the aggregate slot at call `j`.
A call with undefined behaviour ends the list. -/
def get_pattern_calls {F : Type} (num_procs : Int) (rnd : Nat → Int) (exhaustive : Bool)
    (num_chunks : Int) (acts : Nat → Int) (infos : Nat → compression_info F) :
    Nat → Nat → pattern_state → List pattern_result
  | 0, _, _ => []
  | n + 1, j, st =>
    match get_pattern num_procs rnd st exhaustive num_chunks (acts j) (infos j) with
    | none => []
    | some r =>
      r :: get_pattern_calls num_procs rnd exhaustive num_chunks acts infos n (j + 1) r.state

/-- Example: the environment of `example_world` with `random()` returning 1, 4, 7,
... -/
def example_world_counting : world Int :=
  { example_world with rnd := fun i => 3 * (i : Int) + 1 }

/-- Example: a device of 4097 bytes, all 1, every read of which succeeds. -/
def example_device_4097 : device :=
  { data := List.replicate 4097 1, fails := fun _ => false }

/-- Example: the environment of `example_world` in which every `fork` fails
(`errno = EAGAIN = 11`). -/
def example_world_fork_fails : world Int :=
  { example_world with fork_ret := fun _ => -1 }

/-- Example: the environment of `example_world` in which the first `fork`
returns the process id 101 and every later one fails. -/
def example_world_second_fork_fails : world Int :=
  { example_world with fork_ret := fun k => if k = 0 then 101 else -1 }

/-- Example: the environment of `example_world` in which every worker is killed
by signal 9 after it has read one non-zero block. -/
def example_world_signalled : world Int :=
  { example_world with child := fun _ _ _ => (example_slot 0 1 1, signal_status 9) }

/-- What is left of the worker pool after a run of `main`: its return value, the
children forked and not yet reported by `wait`, the worker table
`pid_array[0..num_procs)`, and the process ids `cleanup_handler` has killed. -/
def pool_summary {F : Type} (r : main_result F) : Int × List Int × List Int × List Int :=
  (r.ret, r.final.os.children.map (fun c => c.1),
   (List.range r.final.g.num_procs.toNat).map r.final.g.pid_array, r.killed)

/-! ## Theorems -/

/-- Comparing `x :: rest` with its own tail over the whole tail succeeds exactly
when every byte of the tail equals `x`. -/
theorem memcmp_shift_eq_zero_iff (n : Nat) :
    ∀ (x : Byte) (rest : List Byte), rest.length = n →
      (memcmp (x :: rest) rest n = 0 ↔ ∀ b ∈ rest, b = x) := by
  induction n with
  | zero =>
    intro x rest h
    have hnil : rest = [] := List.length_eq_zero.mp h
    subst hnil
    simp [memcmp]
  | succ k ih =>
    intro x rest h
    match rest, h with
    | y :: tl, h =>
      have hlen : tl.length = k := by simpa using h
      by_cases hxy : x = y
      · subst hxy
        simp only [memcmp, if_true, List.mem_cons, forall_eq_or_imp, true_and]
        exact ih x tl hlen
      · have hval : (x.val : Int) - (y.val : Int) ≠ 0 := by
          intro hz
          apply hxy
          apply Fin.ext
          omega
        simp only [memcmp, if_neg hxy, List.mem_cons, forall_eq_or_imp]
        constructor
        · intro hz
          exact absurd hz hval
        · intro hall
          exact absurd hall.1.symm hxy

/-- C1. For a buffer of exactly `INBLOCK_SIZE` bytes, `is_zero_block` answers
true if and only if every byte of the buffer is zero. -/
theorem is_zero_block_iff_all_zero (buf : List Byte)
    (hlen : buf.length = INBLOCK_SIZE) :
    is_zero_block buf = true ↔ ∀ b ∈ buf, b = 0 := by
  match buf, hlen with
  | x :: rest, hlen =>
    have hrest : rest.length = INBLOCK_SIZE - 1 := by
      simp only [List.length_cons, INBLOCK_SIZE] at hlen
      simp only [INBLOCK_SIZE]
      omega
    have key := memcmp_shift_eq_zero_iff (INBLOCK_SIZE - 1) x rest hrest
    simp only [is_zero_block, List.head?_cons, List.drop_succ_cons, List.drop_zero,
      Bool.and_eq_true, beq_iff_eq, Option.some.injEq, List.mem_cons, forall_eq_or_imp]
    constructor
    · rintro ⟨hx, hm⟩
      refine ⟨hx, ?_⟩
      intro b hb
      rw [(key.mp hm) b hb, hx]
    · rintro ⟨hx, hall⟩
      refine ⟨hx, key.mpr ?_⟩
      intro b hb
      rw [hall b hb, hx]

/-- Witness for C1: the all-zero block of 2048 bytes. -/
theorem is_zero_block_iff_all_zero_witness :
    (List.replicate 2048 (0 : Byte)).length = INBLOCK_SIZE ∧
      (is_zero_block (List.replicate 2048 (0 : Byte)) = true ↔
        ∀ b ∈ List.replicate 2048 (0 : Byte), b = 0) :=
  ⟨List.length_replicate 2048 (0 : Byte),
   is_zero_block_iff_all_zero (List.replicate 2048 (0 : Byte))
     (List.length_replicate 2048 (0 : Byte))⟩

/-- C2 (the code at the failing input). In random mode with `num_procs = 51`, no
active worker and an all-zero aggregate slot, `get_pattern` returns 0 although
neither threshold of the stopping rule is reached. -/
theorem get_pattern_random_empty_below_thresholds :
    (get_pattern 51 (fun _ => 0) { cur_chunk := 0, rand_pos := 0 } false 1 0
        (zero_info Int)).map (fun r => r.count) = some 0 ∧
      ¬ ((zero_info Int).num_non_zero_blocks ≥ MAX_NUM_SAMPLE ∨
          (zero_info Int).num_zero_blocks ≥ MAX_NUM_SAMPLE * ZERO_BLOCK_FACTOR) := by
  set_option maxRecDepth 100000 in decide

/-- C5 (the code at the failing input). A worker that ended with `exit(1)` is
reaped like any other: `wait_for_process` returns 0, adds the worker's slot to
the aggregate slot and frees the table entry. -/
theorem wait_for_process_accepts_failed_worker :
    (wait_for_process (fun _ => 0) 1 { children := [(4242, exit_status 1)], waits := 0 }
        example_failed_globals 0).map
      (fun r => (r.1, r.2.2.comp_info_array 1, r.2.2.pid_array 0)) =
      run.done (0, example_slot 0 1 1, 0) := by
  decide

/-- C8 (the code at the failing inputs). With a device that cannot be opened
`main` returns 0; with a log file that cannot be opened `main` goes on, creates
two workers and returns 0. -/
theorem main_io_setup_failure_returns_zero :
    (∀ fuel exhaustive,
      (main example_world_no_device example_log_none 1 exhaustive fuel).map main_summary =
        run.done (0, [], [])) ∧
    init_log_files example_log_fails = 2 ∧
    (main example_world example_log_fails 1 false 5).map main_summary =
        run.done (0, [101, 102], []) := by
  refine ⟨fun fuel exhaustive => ?_, by decide, ?_⟩
  · rfl
  · set_option maxRecDepth 100000 in decide

/-- With no child left, the loop around `wait` never ends. -/
theorem wait_loop_no_children (sched : Nat → Nat) (k n : Nat) (status : Int) :
    wait_loop sched k { children := [], waits := n } status = run.timeout := by
  induction k generalizing status with
  | zero => rfl
  | succ k ih =>
    simp only [wait_loop, wait, if_true]
    exact ih status

/-- The exhaustive loop emits at least one offset when a chunk is left. -/
theorem exhaustive_loop_length_ne_zero (num_chunks : Int) (k : Nat) (cur_chunk : Int)
    (hk : 0 < k) (h : cur_chunk < num_chunks) :
    ((exhaustive_loop num_chunks k cur_chunk).1.length : Int) ≠ 0 := by
  cases k with
  | zero => omega
  | succ j =>
    simp only [exhaustive_loop, h, if_true, List.length_cons]
    omega

/-- The value of `get_pattern` in exhaustive mode. -/
theorem get_pattern_exhaustive {F : Type} (num_procs : Int) (rnd : Nat → Int)
    (st : pattern_state) (num_chunks active_procs : Int) (info : compression_info F) :
    get_pattern num_procs rnd st true num_chunks active_procs info =
      some { count := (exhaustive_loop num_chunks (COMP_UNIT_SIZE / INBLOCK_SIZE)
                         st.cur_chunk).1.length,
             pattern := (exhaustive_loop num_chunks (COMP_UNIT_SIZE / INBLOCK_SIZE)
                         st.cur_chunk).1,
             state := { st with
               cur_chunk := (exhaustive_loop num_chunks (COMP_UNIT_SIZE / INBLOCK_SIZE)
                         st.cur_chunk).2 } } := by
  rfl

/-- With `num_procs = 0`, in exhaustive mode, on a device of at least one block,
the driver loop of `main` never ends: the reaper waits for a child that does not
exist. -/
theorem main_zero_procs_exhaustive_timeout {F : Type} [Add F] [NatCast F] (w : world F)
    (le : log_env) (hmmap : w.mmap_errno = 0)
    (hdev : 1 ≤ wrap32 (Int.tdiv (get_dev_size w) INBLOCK_SIZE)) (fuel : Nat) :
    main w le 0 true fuel = run.timeout := by
  have hnc : ¬ wrap32 (Int.tdiv (get_dev_size w) INBLOCK_SIZE) < 1 := by omega
  have hk : 0 < COMP_UNIT_SIZE / INBLOCK_SIZE := by decide
  have hpos : (0 : Int) < wrap32 (Int.tdiv (get_dev_size w) INBLOCK_SIZE) := by omega
  have hlen := exhaustive_loop_length_ne_zero _ _ 0 hk hpos
  cases fuel with
  | zero =>
    simp [main, MAX_NUM_PROCS, hmmap, hnc, driver_loop]
  | succ k =>
    simp only [main, MAX_NUM_PROCS, hmmap, hnc, driver_loop, get_pattern_exhaustive]
    simp [hlen, reap_one, wait_for_process, wait_loop_no_children]

/-- C9 (the code at the failing input). With `num_procs = 0` in exhaustive mode on
a device of two blocks, `main` has not returned after any number of loop
iterations: it spins in the reaper, where `wait` keeps failing for lack of a
child.  In random mode the first call of `get_pattern` divides by zero and
converts an infinity to `int`, which C leaves undefined. -/
theorem main_zero_procs_never_returns :
    (∀ fuel, main example_world example_log_none 0 true fuel = run.timeout) ∧
    (∀ fuel, main example_world example_log_none 0 false (fuel + 1) = run.undefined) := by
  constructor
  · intro fuel
    exact main_zero_procs_exhaustive_timeout example_world example_log_none rfl
      (by decide) fuel
  · intro fuel
    have h : max_blocks_random 0 0 = none := by decide
    have hn : ¬ wrap32 (Int.tdiv (get_dev_size example_world) INBLOCK_SIZE) < 1 := by decide
    have hm : example_world.mmap_errno = 0 := rfl
    simp [main, MAX_NUM_PROCS, hm, hn, driver_loop, get_pattern, h]

/-- A value in the range of `int` is not changed by the wrap-around. -/
theorem wrap32_of_range (x : Int) (hlo : INT_MIN ≤ x) (hhi : x ≤ INT_MAX) : wrap32 x = x := by
  simp only [INT_MIN, INT_MAX] at hlo hhi
  simp only [wrap32]
  omega

/-- The search of `wait_for_process` stops at the first table index holding `ret`. -/
theorem aggregate_from_first {F : Type} [Add F] (g : globals F) (ret : Int) (i : Nat) :
    ∀ (k j : Nat), j ≤ i → i < j + k → g.pid_array i = ret →
      (∀ m, j ≤ m → m < i → g.pid_array m ≠ ret) →
      aggregate_from g ret k j = (0, reaped g i) := by
  intro k
  induction k with
  | zero => intro j h1 h2; omega
  | succ k ih =>
    intro j h1 h2 hpid hfirst
    by_cases hj : j = i
    · subst hj
      simp [aggregate_from, hpid]
    · have hne : g.pid_array j ≠ ret := hfirst j (Nat.le_refl j) (by omega)
      simp only [aggregate_from, if_neg hne]
      exact ih (j + 1) (by omega) (by omega) hpid (fun m hm1 hm2 => hfirst m (by omega) hm2)

/-- When the search of `wait_for_process` succeeds, it has reaped some table index
below the bound that held `ret`. -/
theorem aggregate_from_zero {F : Type} [Add F] (g : globals F) (ret : Int) :
    ∀ (k j : Nat) (r : Int × globals F), aggregate_from g ret k j = r → r.1 ≠ -1 →
      ∃ i, j ≤ i ∧ i < j + k ∧ g.pid_array i = ret ∧ r = (0, reaped g i) := by
  intro k
  induction k with
  | zero =>
    intro j r h hr
    simp only [aggregate_from] at h
    subst h
    exact absurd rfl hr
  | succ k ih =>
    intro j r h hr
    by_cases hj : g.pid_array j = ret
    · simp only [aggregate_from, if_pos hj] at h
      exact ⟨j, Nat.le_refl j, by omega, hj, h.symm⟩
    · simp only [aggregate_from, if_neg hj] at h
      obtain ⟨i, h1, h2, h3, h4⟩ := ih (j + 1) r h hr
      exact ⟨i, by omega, by omega, h3, h4⟩

/-- A process id reported by the loop around `wait` is not `-1`, belongs to a child
that was waited for, and no child appears out of nothing. -/
theorem wait_loop_done (sched : Nat → Nat) :
    ∀ (k : Nat) (os : os_state) (status ret status1 : Int) (os1 : os_state),
      wait_loop sched k os status = run.done (ret, status1, os1) →
      ret ≠ -1 ∧ (ret, status1) ∈ os.children ∧ ∀ c ∈ os1.children, c ∈ os.children := by
  intro k
  induction k with
  | zero => intro os status ret status1 os1 h; simp [wait_loop] at h
  | succ k ih =>
    intro os status ret status1 os1 h
    obtain ⟨children, waits⟩ := os
    cases children with
    | nil =>
      simp only [wait_loop, wait, if_true] at h
      exact absurd h (by rw [wait_loop_no_children]; exact fun h => by cases h)
    | cons c cs =>
      have hlt : sched waits % (c :: cs).length < (c :: cs).length :=
        Nat.mod_lt _ (by simp)
      have hmem : (c :: cs).getD (sched waits % (c :: cs).length) c ∈ c :: cs := by
        rw [List.getD_eq_getElem _ _ hlt]
        exact List.getElem_mem hlt
      simp only [wait_loop, wait] at h
      split at h
      · rename_i hneg
        obtain ⟨h1, h2, h3⟩ := ih _ _ _ _ _ h
        exact ⟨h1, List.mem_of_mem_eraseIdx h2, fun c hc => List.mem_of_mem_eraseIdx (h3 c hc)⟩
      · rename_i hneg
        cases h
        exact ⟨hneg, hmem, fun c hc => List.mem_of_mem_eraseIdx hc⟩

/-- A reap after which `main` goes on has found a table index below `num_procs`
holding the process id of a child, cleared it and added its slot to the aggregate. -/
theorem reap_one_next {F : Type} [Add F] (w : world F) (k : Nat) (st st1 : driver_state F)
    (h : reap_one w k st = run.done (flow.next st1)) :
    ∃ i, i < st.g.num_procs.toNat ∧ (∃ c ∈ st.os.children, c.1 = st.g.pid_array i) ∧
      (∀ c ∈ st1.os.children, c ∈ st.os.children) ∧ st1.g = reaped st.g i ∧
      st1.active_procs = st.active_procs - 1 := by
  simp only [reap_one, wait_for_process] at h
  cases hw : wait_loop w.sched k st.os 0 with
  | timeout => simp [hw] at h
  | undefined => simp [hw] at h
  | done r =>
    obtain ⟨ret, status, os1⟩ := r
    obtain ⟨_, hmem, hsub⟩ := wait_loop_done _ _ _ _ _ _ _ hw
    simp only [hw] at h
    by_cases hex : WIFEXITED status = true
    · simp only [hex, Bool.not_true, Bool.false_eq_true, if_false] at h
      by_cases hr : (aggregate_from st.g ret st.g.num_procs.toNat 0).1 = -1
      · simp [hr] at h
      · simp only [hr, if_false] at h
        obtain ⟨i, _, hi, hpid, hval⟩ := aggregate_from_zero st.g ret _ 0 _ rfl hr
        injection h with h
        injection h with h
        subst h
        refine ⟨i, by omega, ⟨(ret, status), hmem, hpid.symm⟩, hsub, ?_, rfl⟩
        simp [hval]
    · simp [hex] at h

/-- Folding `add_info` over two families of slots that agree on the list gives the
same result. -/
theorem foldl_add_info_congr {F : Type} [Add F] (f g : Nat → compression_info F) :
    ∀ (l : List Nat) (a : compression_info F), (∀ j ∈ l, f j = g j) →
      l.foldl (fun a j => add_info a (f j)) a = l.foldl (fun a j => add_info a (g j)) a := by
  intro l
  induction l with
  | nil => intro a _; rfl
  | cons x xs ih =>
    intro a h
    simp only [List.foldl_cons]
    rw [h x (List.mem_cons_self x xs)]
    exact ih _ (fun j hj => h j (List.mem_cons_of_mem x hj))

/-- Without overflow, folding `add_info` adds up the three counters exactly. -/
theorem foldl_add_info_exact {F : Type} [Add F] (f : Nat → compression_info F) :
    ∀ (l : List Nat) (a : compression_info F),
      (∀ j ∈ l, 0 ≤ (f j).num_zero_blocks ∧ 0 ≤ (f j).num_non_zero_blocks ∧
        0 ≤ (f j).total_blocks_read) →
      0 ≤ a.num_zero_blocks → 0 ≤ a.num_non_zero_blocks → 0 ≤ a.total_blocks_read →
      a.num_zero_blocks + (l.map (fun j => (f j).num_zero_blocks)).sum ≤ INT_MAX →
      a.num_non_zero_blocks + (l.map (fun j => (f j).num_non_zero_blocks)).sum ≤ INT_MAX →
      a.total_blocks_read + (l.map (fun j => (f j).total_blocks_read)).sum ≤ INT_MAX →
      (l.foldl (fun a j => add_info a (f j)) a).num_zero_blocks =
          a.num_zero_blocks + (l.map (fun j => (f j).num_zero_blocks)).sum ∧
      (l.foldl (fun a j => add_info a (f j)) a).num_non_zero_blocks =
          a.num_non_zero_blocks + (l.map (fun j => (f j).num_non_zero_blocks)).sum ∧
      (l.foldl (fun a j => add_info a (f j)) a).total_blocks_read =
          a.total_blocks_read + (l.map (fun j => (f j).total_blocks_read)).sum := by
  intro l
  induction l with
  | nil => intro a _ _ _ _ _ _ _; simp
  | cons x xs ih =>
    intro a hnn hz hn ht bz bn bt
    simp only [List.map_cons, List.sum_cons] at bz bn bt
    have hx := hnn x (List.mem_cons_self x xs)
    have hsz : 0 ≤ (xs.map (fun j => (f j).num_zero_blocks)).sum :=
      List.sum_nonneg (by
        intro v hv
        obtain ⟨j, hj, rfl⟩ := List.mem_map.mp hv
        exact (hnn j (List.mem_cons_of_mem x hj)).1)
    have hsn : 0 ≤ (xs.map (fun j => (f j).num_non_zero_blocks)).sum :=
      List.sum_nonneg (by
        intro v hv
        obtain ⟨j, hj, rfl⟩ := List.mem_map.mp hv
        exact (hnn j (List.mem_cons_of_mem x hj)).2.1)
    have hst : 0 ≤ (xs.map (fun j => (f j).total_blocks_read)).sum :=
      List.sum_nonneg (by
        intro v hv
        obtain ⟨j, hj, rfl⟩ := List.mem_map.mp hv
        exact (hnn j (List.mem_cons_of_mem x hj)).2.2)
    have wz : wrap32 (a.num_zero_blocks + (f x).num_zero_blocks) =
        a.num_zero_blocks + (f x).num_zero_blocks :=
      wrap32_of_range _ (by simp only [INT_MIN]; omega) (by omega)
    have wn : wrap32 (a.num_non_zero_blocks + (f x).num_non_zero_blocks) =
        a.num_non_zero_blocks + (f x).num_non_zero_blocks :=
      wrap32_of_range _ (by simp only [INT_MIN]; omega) (by omega)
    have wt : wrap32 (a.total_blocks_read + (f x).total_blocks_read) =
        a.total_blocks_read + (f x).total_blocks_read :=
      wrap32_of_range _ (by simp only [INT_MIN]; omega) (by omega)
    have ez : (add_info a (f x)).num_zero_blocks =
        a.num_zero_blocks + (f x).num_zero_blocks := wz
    have en : (add_info a (f x)).num_non_zero_blocks =
        a.num_non_zero_blocks + (f x).num_non_zero_blocks := wn
    have et : (add_info a (f x)).total_blocks_read =
        a.total_blocks_read + (f x).total_blocks_read := wt
    obtain ⟨k1, k2, k3⟩ := ih (add_info a (f x))
      (fun j hj => hnn j (List.mem_cons_of_mem x hj))
      (by rw [ez]; omega) (by rw [en]; omega) (by rw [et]; omega)
      (by rw [ez]; omega) (by rw [en]; omega) (by rw [et]; omega)
    simp only [List.foldl_cons, List.map_cons, List.sum_cons]
    refine ⟨by rw [k1, ez]; omega, by rw [k2, en]; omega, by rw [k3, et]; omega⟩

/-- A drain loop that runs to its end has reaped `active_procs` distinct table
indices, and the aggregate slot has received exactly their slots. -/
theorem drain_loop_reaps {F : Type} [Add F] (w : world F) :
    ∀ (k : Nat) (st st1 : driver_state F),
      drain_loop w k st = run.done (flow.next st1) →
      (∀ c ∈ st.os.children, c.1 ≠ 0) →
      ∃ l : List Nat, l.Nodup ∧ (l.length : Int) = st.active_procs ∧
        (∀ i ∈ l, i < st.g.num_procs.toNat ∧ st.g.pid_array i ≠ 0) ∧
        st1.g.comp_info_array st.g.num_procs.toNat =
          l.foldl (fun a i => add_info a (st.g.comp_info_array i))
            (st.g.comp_info_array st.g.num_procs.toNat) ∧
        (∀ j, j ≠ st.g.num_procs.toNat → st1.g.comp_info_array j = st.g.comp_info_array j) ∧
        st1.g.num_procs = st.g.num_procs ∧
        (∀ j, st.g.pid_array j = 0 → st1.g.pid_array j = 0) := by
  intro k
  induction k with
  | zero => intro st st1 h; simp [drain_loop] at h
  | succ k ih =>
    intro st st1 h hpid
    simp only [drain_loop] at h
    by_cases hact : st.active_procs ≠ 0
    · simp only [hact, ne_eq, not_false_eq_true, if_true] at h
      cases hr : reap_one w k st with
      | timeout => simp [hr] at h
      | undefined => simp [hr] at h
      | done f =>
        cases f with
        | out s => simp [hr] at h
        | next s =>
          simp only [hr] at h
          obtain ⟨i, hi, ⟨c, hc, hci⟩, hsub, hg, hactive⟩ := reap_one_next w k st s hr
          obtain ⟨l, hnd, hlen, hmem, hagg, hother, hnp, hzero⟩ :=
            ih s st1 h (fun c hc => hpid c (hsub c hc))
          have hnps : s.g.num_procs = st.g.num_procs := by rw [hg]; rfl
          have hpi : st.g.pid_array i ≠ 0 := by rw [← hci]; exact hpid c hc
          have hsi : s.g.pid_array i = 0 := by rw [hg]; simp [reaped]
          have hsj : ∀ j, j ≠ i → s.g.pid_array j = st.g.pid_array j := by
            intro j hj; rw [hg]; simp [reaped, Function.update_noteq hj]
          have hcj : ∀ j, j ≠ st.g.num_procs.toNat →
              s.g.comp_info_array j = st.g.comp_info_array j := by
            intro j hj; rw [hg]; simp [reaped, Function.update_noteq hj]
          have hcn : s.g.comp_info_array st.g.num_procs.toNat =
              add_info (st.g.comp_info_array st.g.num_procs.toNat) (st.g.comp_info_array i) := by
            rw [hg]; simp [reaped]
          rw [hnps] at hmem hagg hother
          refine ⟨i :: l, ?_, ?_, ?_, ?_, ?_, ?_, ?_⟩
          · refine List.nodup_cons.mpr ⟨fun hil => (hmem i hil).2 hsi, hnd⟩
          · simp only [List.length_cons, Nat.cast_add, Nat.cast_one, hlen, hactive]
            omega
          · intro j hj
            rcases List.mem_cons.mp hj with rfl | hj
            · exact ⟨hi, hpi⟩
            · refine ⟨(hmem j hj).1, ?_⟩
              by_cases hji : j = i
              · exact absurd (hji ▸ hsi) (hmem j hj).2
              · rw [← hsj j hji]; exact (hmem j hj).2
          · rw [hagg, List.foldl_cons, hcn]
            exact foldl_add_info_congr _ _ l _
              (fun j hj => hcj j (Nat.ne_of_lt (hmem j hj).1))
          · intro j hj
            rw [hother j hj, hcj j hj]
          · rw [hnp, hnps]
          · intro j hj
            apply hzero
            by_cases hji : j = i
            · rw [hji]; exact hsi
            · rw [hsj j hji]; exact hj
    · have h0 : st.active_procs = 0 := by
        by_contra hne; exact hact hne
      simp only [h0, ne_eq, not_true_eq_false, if_false] at h
      injection h with h
      injection h with h
      subst h
      exact ⟨[], List.nodup_nil, by simp [h0], by simp, rfl, fun _ _ => rfl, rfl, fun _ h => h⟩

/-- C3. Reap on a normal exit: when `wait` reports a child that exited and `i` is
the first table index holding its process id, `wait_for_process` returns 0, each
of the five fields of the aggregate slot becomes its old value plus the field of
slot `i` (the `int` sums being in range), table entry `i` becomes 0, and every
other slot and table entry is unchanged.  Hence a drain loop that runs to its end
has reaped `active_procs` distinct workers and the aggregate slot is the
element-wise sum of its old value and their slots; without overflow the three
counters are the exact sums. -/
theorem wait_for_process_adds_slot_to_aggregate {F : Type} [Add F] :
    (∀ (sched : Nat → Nat) (fuel : Nat) (os os1 : os_state) (g : globals F)
        (status0 ret status : Int) (i : Nat),
        wait_loop sched fuel os status0 = run.done (ret, status, os1) →
        WIFEXITED status = true →
        i < g.num_procs.toNat → g.pid_array i = ret → (∀ m, m < i → g.pid_array m ≠ ret) →
        (INT_MIN ≤ (g.comp_info_array g.num_procs.toNat).num_zero_blocks +
            (g.comp_info_array i).num_zero_blocks ∧
          (g.comp_info_array g.num_procs.toNat).num_zero_blocks +
            (g.comp_info_array i).num_zero_blocks ≤ INT_MAX) →
        (INT_MIN ≤ (g.comp_info_array g.num_procs.toNat).num_non_zero_blocks +
            (g.comp_info_array i).num_non_zero_blocks ∧
          (g.comp_info_array g.num_procs.toNat).num_non_zero_blocks +
            (g.comp_info_array i).num_non_zero_blocks ≤ INT_MAX) →
        (INT_MIN ≤ (g.comp_info_array g.num_procs.toNat).total_blocks_read +
            (g.comp_info_array i).total_blocks_read ∧
          (g.comp_info_array g.num_procs.toNat).total_blocks_read +
            (g.comp_info_array i).total_blocks_read ≤ INT_MAX) →
        ∃ g1, wait_for_process sched fuel os g status0 = run.done (0, os1, g1) ∧
          (g1.comp_info_array g.num_procs.toNat).num_zero_blocks =
            (g.comp_info_array g.num_procs.toNat).num_zero_blocks +
              (g.comp_info_array i).num_zero_blocks ∧
          (g1.comp_info_array g.num_procs.toNat).num_non_zero_blocks =
            (g.comp_info_array g.num_procs.toNat).num_non_zero_blocks +
              (g.comp_info_array i).num_non_zero_blocks ∧
          (g1.comp_info_array g.num_procs.toNat).total_blocks_read =
            (g.comp_info_array g.num_procs.toNat).total_blocks_read +
              (g.comp_info_array i).total_blocks_read ∧
          (g1.comp_info_array g.num_procs.toNat).compression_ratio =
            (g.comp_info_array g.num_procs.toNat).compression_ratio +
              (g.comp_info_array i).compression_ratio ∧
          (g1.comp_info_array g.num_procs.toNat).c_squared =
            (g.comp_info_array g.num_procs.toNat).c_squared +
              (g.comp_info_array i).c_squared ∧
          g1.pid_array i = 0 ∧
          (∀ j, j ≠ g.num_procs.toNat → g1.comp_info_array j = g.comp_info_array j) ∧
          (∀ j, j ≠ i → g1.pid_array j = g.pid_array j) ∧
          g1.num_procs = g.num_procs) ∧
    (∀ (w : world F) (fuel : Nat) (st st1 : driver_state F),
        drain_loop w fuel st = run.done (flow.next st1) →
        (∀ c ∈ st.os.children, c.1 ≠ 0) →
        ∃ l : List Nat, l.Nodup ∧ (l.length : Int) = st.active_procs ∧
          (∀ i ∈ l, i < st.g.num_procs.toNat ∧ st.g.pid_array i ≠ 0) ∧
          st1.g.comp_info_array st.g.num_procs.toNat =
            l.foldl (fun a i => add_info a (st.g.comp_info_array i))
              (st.g.comp_info_array st.g.num_procs.toNat) ∧
          ((∀ j ∈ l, 0 ≤ (st.g.comp_info_array j).num_zero_blocks ∧
              0 ≤ (st.g.comp_info_array j).num_non_zero_blocks ∧
              0 ≤ (st.g.comp_info_array j).total_blocks_read) →
            0 ≤ (st.g.comp_info_array st.g.num_procs.toNat).num_zero_blocks →
            0 ≤ (st.g.comp_info_array st.g.num_procs.toNat).num_non_zero_blocks →
            0 ≤ (st.g.comp_info_array st.g.num_procs.toNat).total_blocks_read →
            (st.g.comp_info_array st.g.num_procs.toNat).num_zero_blocks +
              (l.map (fun j => (st.g.comp_info_array j).num_zero_blocks)).sum ≤ INT_MAX →
            (st.g.comp_info_array st.g.num_procs.toNat).num_non_zero_blocks +
              (l.map (fun j => (st.g.comp_info_array j).num_non_zero_blocks)).sum ≤ INT_MAX →
            (st.g.comp_info_array st.g.num_procs.toNat).total_blocks_read +
              (l.map (fun j => (st.g.comp_info_array j).total_blocks_read)).sum ≤ INT_MAX →
            (st1.g.comp_info_array st.g.num_procs.toNat).num_zero_blocks =
              (st.g.comp_info_array st.g.num_procs.toNat).num_zero_blocks +
                (l.map (fun j => (st.g.comp_info_array j).num_zero_blocks)).sum ∧
            (st1.g.comp_info_array st.g.num_procs.toNat).num_non_zero_blocks =
              (st.g.comp_info_array st.g.num_procs.toNat).num_non_zero_blocks +
                (l.map (fun j => (st.g.comp_info_array j).num_non_zero_blocks)).sum ∧
            (st1.g.comp_info_array st.g.num_procs.toNat).total_blocks_read =
              (st.g.comp_info_array st.g.num_procs.toNat).total_blocks_read +
                (l.map (fun j => (st.g.comp_info_array j).total_blocks_read)).sum)) := by
  constructor
  · intro sched fuel os os1 g status0 ret status i hw hex hi hpid hfirst hz hn ht
    have hagg : aggregate_from g ret g.num_procs.toNat 0 = (0, reaped g i) :=
      aggregate_from_first g ret i _ 0 (Nat.zero_le i) (by omega) hpid
        (fun m _ hm => hfirst m hm)
    have hne : i ≠ g.num_procs.toNat := Nat.ne_of_lt hi
    refine ⟨reaped g i, ?_, ?_, ?_, ?_, ?_, ?_, ?_, ?_, ?_, rfl⟩
    · simp [wait_for_process, hw, hex, hagg]
    · simp only [reaped, Function.update_same, add_info]
      exact wrap32_of_range _ hz.1 hz.2
    · simp only [reaped, Function.update_same, add_info]
      exact wrap32_of_range _ hn.1 hn.2
    · simp only [reaped, Function.update_same, add_info]
      exact wrap32_of_range _ ht.1 ht.2
    · simp only [reaped, Function.update_same, add_info]
    · simp only [reaped, Function.update_same, add_info]
    · simp only [reaped, Function.update_same]
    · intro j hj
      simp only [reaped, Function.update_noteq hj]
    · intro j hj
      simp only [reaped, Function.update_noteq hj]
  · intro w fuel st st1 h hpid
    obtain ⟨l, hnd, hlen, hmem, hagg, _, _, _⟩ := drain_loop_reaps w fuel st st1 h hpid
    refine ⟨l, hnd, hlen, hmem, hagg, ?_⟩
    intro hnn hz hn ht bz bn bt
    rw [hagg]
    exact foldl_add_info_exact _ l _ hnn hz hn ht bz bn bt

/-- Witness for C3: one worker that exited normally is reaped from table index 0,
and a drain loop over that one worker. -/
theorem wait_for_process_adds_slot_to_aggregate_witness :
    (∃ g1, wait_for_process (fun _ => 0) 1 example_drain_state.os example_drain_state.g 0 =
        run.done (0, { children := [], waits := 1 }, g1) ∧
      (g1.comp_info_array 1).num_zero_blocks = 0 + 3 ∧
      (g1.comp_info_array 1).total_blocks_read = 0 + 5 ∧
      g1.pid_array 0 = 0) ∧
    (∃ l : List Nat, l.Nodup ∧ (l.length : Int) = 1 ∧
      example_drained_state.g.comp_info_array 1 =
        l.foldl (fun a i => add_info a (example_drain_state.g.comp_info_array i))
          (example_drain_state.g.comp_info_array 1)) := by
  constructor
  · obtain ⟨g1, h1, h2, _, h4, _, _, h7, _⟩ :=
      (wait_for_process_adds_slot_to_aggregate (F := Int)).1 (fun _ => 0) 1
        example_drain_state.os { children := [], waits := 1 } example_drain_state.g 0 4242
        (exit_status 0) 0 (by decide) (by decide) (by decide) (by decide)
        (by intro m hm; omega) (by decide) (by decide) (by decide)
    exact ⟨g1, h1, h2, h4, h7⟩
  · obtain ⟨l, h1, h2, _, h4, _⟩ :=
      (wait_for_process_adds_slot_to_aggregate (F := Int)).2 example_world 2
        example_drain_state example_drained_state rfl (by decide)
    exact ⟨l, h1, h2, h4⟩

/-- C6 (counterexample). With 3 zero and 1 non-zero sample on a device of 1 MiB,
`print_status` reports the error `0.25 * 2.9 = 0.725`, which is not
`conf_zeros * f * device_size_MB = 1.45 * 0.25 * 1`. -/
theorem print_status_error_ne_conf_zeros_formula :
    (0 : Int) < 3 + 1 ∧ (0 : Int) < 1 ∧
    (print_status { sqrt := Real.sqrt, pow := fun x y => x ^ y }
        ({ num_zero_blocks := 3, num_non_zero_blocks := 1, total_blocks_read := 4,
           compression_ratio := 1, c_squared := 1 } : compression_info ℝ) 1048576).error ≠
      Real.sqrt (16.82 / (2 * (((3 + 1 : Int)) : ℝ))) *
        ((((1 : Int)) : ℝ) / (((3 + 1 : Int)) : ℝ)) * ((((1048576 : Int)) : ℝ) / 1048576) := by
  have hw : wrap32 (3 + 1) = 4 := by decide
  have h1 : Real.sqrt 841 = 29 := by
    rw [Real.sqrt_eq_iff_mul_self_eq (by norm_num) (by norm_num)]
    norm_num
  have h2 : Real.sqrt 100 = 10 := by
    rw [Real.sqrt_eq_iff_mul_self_eq (by norm_num) (by norm_num)]
    norm_num
  have h3 : Real.sqrt 400 = 20 := by
    rw [Real.sqrt_eq_iff_mul_self_eq (by norm_num) (by norm_num)]
    norm_num
  refine ⟨by decide, by decide, ?_⟩
  simp only [print_status, confidence, hw]
  norm_num
  rw [h1, h2, h3]
  norm_num

/-- C6 (amended). For an aggregate slot with `T = num_zero_blocks +
num_non_zero_blocks > 0` (in the range of `int`) and `N = num_non_zero_blocks`, over
the reals, `after_zero_size = (N / T) * device_size_MB`, `confidence` returns
`conf_comp`, and the reported error is `conf_comp * (N / T) * device_size_MB` with
`conf_comp = sqrt (16.82 / (2 N))`. -/
theorem print_status_error_eq_conf_comp_formula (info : compression_info ℝ) (dev_size : Int)
    (hT : 0 < info.num_zero_blocks + info.num_non_zero_blocks)
    (hTmax : info.num_zero_blocks + info.num_non_zero_blocks ≤ INT_MAX) :
    (print_status { sqrt := Real.sqrt, pow := fun x y => x ^ y } info dev_size).after_zero_size =
      ((info.num_non_zero_blocks : ℝ) /
        ((info.num_zero_blocks + info.num_non_zero_blocks : Int) : ℝ)) *
        ((dev_size : ℝ) / 1048576) ∧
    (confidence { sqrt := Real.sqrt, pow := fun x y => x ^ y } info).returned =
      Real.sqrt (16.82 / (2 * (info.num_non_zero_blocks : ℝ))) ∧
    (print_status { sqrt := Real.sqrt, pow := fun x y => x ^ y } info dev_size).error =
      Real.sqrt (16.82 / (2 * (info.num_non_zero_blocks : ℝ))) *
        ((info.num_non_zero_blocks : ℝ) /
          ((info.num_zero_blocks + info.num_non_zero_blocks : Int) : ℝ)) *
        ((dev_size : ℝ) / 1048576) := by
  have hw : wrap32 (info.num_zero_blocks + info.num_non_zero_blocks) =
      info.num_zero_blocks + info.num_non_zero_blocks :=
    wrap32_of_range _ (by simp only [INT_MIN]; omega) hTmax
  refine ⟨?_, ?_, ?_⟩
  · simp only [print_status, hw, Nat.cast_ofNat]
  · simp only [confidence, Nat.cast_ofNat]
  · simp only [print_status, confidence, hw, Nat.cast_ofNat]
    ring

/-- Witness for C6 (amended): 3 zero and 1 non-zero sample, a device of 1 MiB. -/
theorem print_status_error_eq_conf_comp_formula_witness :
    (print_status { sqrt := Real.sqrt, pow := fun x y => x ^ y }
        ({ num_zero_blocks := 3, num_non_zero_blocks := 1, total_blocks_read := 4,
           compression_ratio := 1, c_squared := 1 } : compression_info ℝ) 1048576).error =
      Real.sqrt (16.82 / (2 * (((1 : Int)) : ℝ))) *
        ((((1 : Int)) : ℝ) / (((3 + 1 : Int)) : ℝ)) * ((((1048576 : Int)) : ℝ) / 1048576) :=
  (print_status_error_eq_conf_comp_formula
    ({ num_zero_blocks := 3, num_non_zero_blocks := 1, total_blocks_read := 4,
       compression_ratio := 1, c_squared := 1 } : compression_info ℝ) 1048576
    (by decide) (by decide)).2.2

/-- C10. Over the reals, `confidence` computes `conf_zeros = sqrt (16.82 / (2 T))`
and `conf_comp = sqrt (16.82 / (2 N))`, and both do not increase when the sample
count grows: for `1 ≤ T1 ≤ T2` (in the range of `int`) the second `conf_zeros` is
at most the first, and for `1 ≤ N1 ≤ N2` the second `conf_comp` is at most the
first. -/
theorem confidence_antitone (a b : compression_info ℝ)
    (hT1 : 1 ≤ a.num_zero_blocks + a.num_non_zero_blocks)
    (hT : a.num_zero_blocks + a.num_non_zero_blocks ≤
      b.num_zero_blocks + b.num_non_zero_blocks)
    (hT2 : b.num_zero_blocks + b.num_non_zero_blocks ≤ INT_MAX)
    (hN1 : 1 ≤ a.num_non_zero_blocks) (hN : a.num_non_zero_blocks ≤ b.num_non_zero_blocks) :
    (confidence { sqrt := Real.sqrt, pow := fun x y => x ^ y } a).conf_zeros =
      Real.sqrt (16.82 / (2 * ((a.num_zero_blocks + a.num_non_zero_blocks : Int) : ℝ))) ∧
    (confidence { sqrt := Real.sqrt, pow := fun x y => x ^ y } a).conf_comp =
      Real.sqrt (16.82 / (2 * (a.num_non_zero_blocks : ℝ))) ∧
    (confidence { sqrt := Real.sqrt, pow := fun x y => x ^ y } b).conf_zeros ≤
      (confidence { sqrt := Real.sqrt, pow := fun x y => x ^ y } a).conf_zeros ∧
    (confidence { sqrt := Real.sqrt, pow := fun x y => x ^ y } b).conf_comp ≤
      (confidence { sqrt := Real.sqrt, pow := fun x y => x ^ y } a).conf_comp := by
  have hwa : wrap32 (a.num_zero_blocks + a.num_non_zero_blocks) =
      a.num_zero_blocks + a.num_non_zero_blocks :=
    wrap32_of_range _ (by simp only [INT_MIN]; omega) (by omega)
  have hwb : wrap32 (b.num_zero_blocks + b.num_non_zero_blocks) =
      b.num_zero_blocks + b.num_non_zero_blocks :=
    wrap32_of_range _ (by simp only [INT_MIN]; omega) hT2
  have key : ∀ x y : Int, 1 ≤ x → x ≤ y →
      Real.sqrt (16.82 / (2 * (y : ℝ))) ≤ Real.sqrt (16.82 / (2 * (x : ℝ))) := by
    intro x y hx hxy
    apply Real.sqrt_le_sqrt
    have hx1 : (1 : ℝ) ≤ (x : ℝ) := by exact_mod_cast hx
    have hxy1 : (x : ℝ) ≤ (y : ℝ) := by exact_mod_cast hxy
    apply div_le_div_of_nonneg_left (by norm_num) (by linarith) (by linarith)
  refine ⟨?_, ?_, ?_, ?_⟩
  · simp only [confidence, hwa, Nat.cast_ofNat]
  · simp only [confidence, Nat.cast_ofNat]
  · simp only [confidence, hwa, hwb, Nat.cast_ofNat]
    exact key _ _ hT1 hT
  · simp only [confidence, Nat.cast_ofNat]
    exact key _ _ hN1 hN

/-- Witness for C10: 4 samples of which 1 non-zero, against 10 samples of which 5
non-zero. -/
theorem confidence_antitone_witness :
    (confidence { sqrt := Real.sqrt, pow := fun x y => x ^ y }
        ({ num_zero_blocks := 5, num_non_zero_blocks := 5, total_blocks_read := 10,
           compression_ratio := 1, c_squared := 1 } : compression_info ℝ)).conf_zeros ≤
      (confidence { sqrt := Real.sqrt, pow := fun x y => x ^ y }
        ({ num_zero_blocks := 3, num_non_zero_blocks := 1, total_blocks_read := 4,
           compression_ratio := 1, c_squared := 1 } : compression_info ℝ)).conf_zeros :=
  (confidence_antitone
    ({ num_zero_blocks := 3, num_non_zero_blocks := 1, total_blocks_read := 4,
       compression_ratio := 1, c_squared := 1 } : compression_info ℝ)
    ({ num_zero_blocks := 5, num_non_zero_blocks := 5, total_blocks_read := 10,
       compression_ratio := 1, c_squared := 1 } : compression_info ℝ)
    (by decide) (by decide) (by decide) (by decide) (by decide)).2.2.1

/-- The read-ahead loop leaves the two sample counters alone and only increases
`total_blocks_read`, one for every block it advances. -/
theorem read_ahead_counters {F : Type} (dev : device) (e B : Int)
    (hB : B + e ≤ 2048 * INT_MAX) :
    ∀ (k : Nat) (loc : Int) (inbuf : List Byte) (info : compression_info F),
      loc < e → 2048 * info.total_blocks_read - loc ≤ B → INT_MIN ≤ info.total_blocks_read →
      (read_ahead dev e k loc inbuf info).2.2.2.num_zero_blocks = info.num_zero_blocks ∧
      (read_ahead dev e k loc inbuf info).2.2.2.num_non_zero_blocks =
        info.num_non_zero_blocks ∧
      info.total_blocks_read ≤ (read_ahead dev e k loc inbuf info).2.2.2.total_blocks_read ∧
      2048 * (read_ahead dev e k loc inbuf info).2.2.2.total_blocks_read -
        (read_ahead dev e k loc inbuf info).2.1 ≤ B ∧
      (read_ahead dev e k loc inbuf info).2.1 ≤ e + 2047 := by
  intro k
  induction k with
  | zero =>
    intro loc inbuf info h1 h2 _
    simp only [read_ahead, le_refl, and_self, true_and]
    exact ⟨h2, by omega⟩
  | succ k ih =>
    intro loc inbuf info h1 h2 h3
    have hw : wrap32 (info.total_blocks_read + 1) = info.total_blocks_read + 1 := by
      apply wrap32_of_range
      · omega
      · simp only [INT_MAX] at hB ⊢
        omega
    simp only [read_ahead]
    split
    · simp only [le_refl, and_self, true_and, INBLOCK_SIZE, Nat.cast_ofNat]
      omega
    · split
      · rename_i hc
        simp only [Bool.and_eq_true, decide_eq_true_eq] at hc
        have := ih (loc + (INBLOCK_SIZE : Nat)) (pread dev inbuf INBLOCK_SIZE (loc + INBLOCK_SIZE)).2
          { info with total_blocks_read := wrap32 (info.total_blocks_read + 1) } hc.2
          (by simp only [hw, INBLOCK_SIZE, Nat.cast_ofNat]; omega)
          (by simp only [hw]; omega)
        obtain ⟨a1, a2, a3, a4, a5⟩ := this
        have hstep : info.total_blocks_read ≤ wrap32 (info.total_blocks_read + 1) := by
          rw [hw]; omega
        exact ⟨a1, a2, le_trans hstep a3, a4, a5⟩
      · simp only [hw, and_self, true_and, INBLOCK_SIZE, Nat.cast_ofNat]
        omega

/-- The sampling loop of `compress_chunk_random` leaves the two sample counters
alone and only increases `total_blocks_read`. -/
theorem sample_loop_counters {σ F : Type} (c : codec σ) (dev : device) (e B : Int)
    (hB : B + e ≤ 2048 * INT_MAX) :
    ∀ (k : Nat) (s : sample_state σ F),
      s.read_location < e → 2048 * s.info.total_blocks_read - s.read_location ≤ B →
      INT_MIN ≤ s.info.total_blocks_read →
      (sample_loop c dev e k s).2.info.num_zero_blocks = s.info.num_zero_blocks ∧
      (sample_loop c dev e k s).2.info.num_non_zero_blocks = s.info.num_non_zero_blocks ∧
      s.info.total_blocks_read ≤ (sample_loop c dev e k s).2.info.total_blocks_read ∧
      2048 * (sample_loop c dev e k s).2.info.total_blocks_read -
        (sample_loop c dev e k s).2.read_location ≤ B ∧
      (sample_loop c dev e k s).2.read_location ≤ e + 2047 := by
  intro k
  induction k with
  | zero =>
    intro s h1 h2 _
    simp only [sample_loop, le_refl, and_self, true_and]
    exact ⟨h2, by omega⟩
  | succ k ih =>
    intro s h1 h2 h3
    simp only [sample_loop]
    split
    · simp only [le_refl, and_self, true_and]
      exact ⟨h2, by omega⟩
    · split
      · simp only [le_refl, and_self, true_and]
        exact ⟨h2, by omega⟩
      · split
        · have ra := read_ahead_counters dev e B hB k s.read_location s.inbuf s.info h1 h2 h3
          split
          · rename_i heq
            rw [heq] at ra
            exact ra
          · rename_i heq
            rw [heq] at ra
            exact ra
          · rename_i loc inbuf info heq
            rw [heq] at ra
            simp only at ra
            split
            · exact ra
            · rename_i hlt
              have := ih
                { strm :=
                    { (c.deflate_cont s.strm s.inbuf).1 with
                      next_in := 0,
                      avail_in := u32 (min (INBLOCK_SIZE : Int) (ZLIB_BLOCK_SIZE : Int)) },
                  buffer_size := INBLOCK_SIZE, bufptr := 0, read_location := loc,
                  inbuf := inbuf, info := info }
                (by simpa using hlt) ra.2.2.2.1 (le_trans h3 ra.2.2.1)
              exact ⟨this.1.trans ra.1, this.2.1.trans ra.2.1, le_trans ra.2.2.1 this.2.2.1,
                this.2.2.2⟩
        · exact ih _ h1 h2 h3

/-- A call of `compress_chunk_random` preserves the invariant of the slot, whatever
way it ends and however far it has come, provided `total_blocks_read` has room for
the at most `1 + 2 * COMP_UNIT_SIZE / INBLOCK_SIZE = 131073` blocks of one sample. -/
theorem compress_chunk_random_inv {σ F : Type} [Add F] [Div F] [IntCast F] [NatCast F]
    (c : codec σ) (m : libm F) (dev : device) (rnd : Nat → Int) (fuel : Nat)
    (read_location : Int) (w : worker F) (hinv : slot_inv w.info)
    (hmax : w.info.total_blocks_read + 131073 ≤ INT_MAX) :
    slot_inv (compress_chunk_random c m dev rnd fuel read_location w).2.info ∧
      (compress_chunk_random c m dev rnd fuel read_location w).2.info.total_blocks_read ≤
        w.info.total_blocks_read + 131073 := by
  obtain ⟨hz, hn, hle⟩ := hinv
  simp only [INT_MAX] at hmax
  have hw : wrap32 (w.info.total_blocks_read + 1) = w.info.total_blocks_read + 1 :=
    wrap32_of_range _ (by simp only [INT_MIN]; omega) (by simp only [INT_MAX]; omega)
  have hwz : wrap32 (w.info.num_zero_blocks + 1) = w.info.num_zero_blocks + 1 :=
    wrap32_of_range _ (by simp only [INT_MIN]; omega) (by simp only [INT_MAX]; omega)
  have hwn : wrap32 (w.info.num_non_zero_blocks + 1) = w.info.num_non_zero_blocks + 1 :=
    wrap32_of_range _ (by simp only [INT_MIN]; omega) (by simp only [INT_MAX]; omega)
  simp only [compress_chunk_random]
  split
  · exact ⟨⟨hz, hn, hle⟩, by simp only; omega⟩
  · split
    · simp only [slot_inv, hw, hwz]
      omega
    · split
      · simp only [slot_inv, hw, hwn]
        omega
      · have key := sample_loop_counters c dev
          (read_location + COMP_UNIT_SIZE + COMP_UNIT_SIZE)
          (2048 * (w.info.total_blocks_read + 1) - read_location)
          (by simp only [COMP_UNIT_SIZE, INT_MAX, Nat.cast_ofNat]; omega) fuel
          { strm :=
              { c.deflateInit.1 with
                avail_out := OUTBLOCK_SIZE,
                next_in := Int.tmod (rnd w.rand_pos) INBLOCK_SIZE,
                avail_in := u32 (min (wrap32 (INBLOCK_SIZE - Int.tmod (rnd w.rand_pos) INBLOCK_SIZE))
                  (ZLIB_BLOCK_SIZE : Int)) },
            buffer_size := wrap32 (INBLOCK_SIZE - Int.tmod (rnd w.rand_pos) INBLOCK_SIZE),
            bufptr := Int.tmod (rnd w.rand_pos) INBLOCK_SIZE,
            read_location := read_location,
            inbuf := (pread dev w.inbuf INBLOCK_SIZE read_location).2,
            info :=
              { w.info with
                total_blocks_read := wrap32 (w.info.total_blocks_read + 1),
                num_non_zero_blocks := wrap32 (w.info.num_non_zero_blocks + 1) } }
          (by simp only [COMP_UNIT_SIZE, Nat.cast_ofNat]; omega)
          (by simp only [hw]; omega)
          (by simp only [hw, INT_MIN]; omega)
        simp only [hw, hwn] at key
        obtain ⟨k1, k2, k3, k4, k5⟩ := key
        split
        · rename_i s heq
          simp only [hw, hwn] at heq
          rw [heq] at k1 k2 k3 k4 k5
          simp only [slot_inv]
          simp only [COMP_UNIT_SIZE, Nat.cast_ofNat] at k1 k2 k3 k4 k5
          omega
        · rename_i st s hne heq
          simp only [hw, hwn] at heq
          rw [heq] at k1 k2 k3 k4 k5
          simp only [slot_inv]
          simp only [COMP_UNIT_SIZE, Nat.cast_ofNat] at k1 k2 k3 k4 k5
          omega

/-- The inner loop of `compress_chunks_sequential` counts every block it reads:
at the end of the pattern all remaining blocks were zero, and at a non-zero block
the zero blocks counted, that block and the rest make up what was left. -/
theorem seq_fill_counts (dev : device) :
    ∀ (rest : List Int) (inbuf : List Byte) (z : Int), 0 ≤ z →
      z + rest.length ≤ INT_MAX →
      (∀ i z1, seq_fill dev rest inbuf z = fill_result.at_end i z1 → z1 = z + rest.length) ∧
      (∀ r1 i z1, seq_fill dev rest inbuf z = fill_result.found r1 i z1 →
        z ≤ z1 ∧ z1 + 1 + r1.length = z + rest.length) := by
  intro rest
  induction rest with
  | nil =>
    intro inbuf z _ _
    constructor
    · intro i z1 h
      simp only [seq_fill] at h
      injection h with _ h2
      simp [h2]
    · intro r1 i z1 h
      simp [seq_fill] at h
  | cons off rest ih =>
    intro inbuf z hz hmax
    simp only [List.length_cons, Nat.cast_add, Nat.cast_one] at hmax ⊢
    have hw : wrap32 (z + 1) = z + 1 :=
      wrap32_of_range _ (by simp only [INT_MIN]; omega) (by omega)
    by_cases hp : (pread dev inbuf INBLOCK_SIZE off).1 = -1
    · simp [seq_fill, hp]
    · by_cases hzb : is_zero_block (pread dev inbuf INBLOCK_SIZE off).2 = true
      · simp only [seq_fill, hp, hzb, if_true, if_false, hw]
        obtain ⟨a1, a2⟩ := ih (pread dev inbuf INBLOCK_SIZE off).2 (z + 1) (by omega) (by omega)
        constructor
        · intro i z1 h
          have := a1 i z1 h
          omega
        · intro r1 i z1 h
          have := a2 r1 i z1 h
          omega
      · simp only [seq_fill, hp, hzb, if_false]
        constructor
        · intro i z1 h
          cases h
        · intro r1 i z1 h
          injection h with h1 _ h3
          subst h1 h3
          omega

/-- The codec step of `compress_chunks_sequential` does not touch the block
counters nor the position in the pattern. -/
theorem seq_deflate_counters {σ : Type} (c : codec σ) (s s2 : seq_state σ)
    (h : seq_deflate c s = some s2) :
    s2.rest = s.rest ∧ s2.zero_blocks = s.zero_blocks ∧
      s2.non_zero_blocks = s.non_zero_blocks := by
  simp only [seq_deflate] at h
  split at h
  · cases h
  · split at h <;> split at h <;> (injection h with h; subst h; exact ⟨rfl, rfl, rfl⟩)

/-- When the outer loop of `compress_chunks_sequential` reaches `done`, the two
local counters add up to the number of blocks of the pattern. -/
theorem seq_loop_counts {σ : Type} (c : codec σ) (dev : device) (P : Int)
    (hP : P ≤ INT_MAX) :
    ∀ (k : Nat) (s : seq_state σ), 0 ≤ s.zero_blocks → 0 ≤ s.non_zero_blocks →
      s.zero_blocks + s.non_zero_blocks + s.rest.length = P →
      (seq_loop c dev k s).1 = proc_status.returned →
      0 ≤ (seq_loop c dev k s).2.zero_blocks ∧ 0 ≤ (seq_loop c dev k s).2.non_zero_blocks ∧
        (seq_loop c dev k s).2.zero_blocks + (seq_loop c dev k s).2.non_zero_blocks = P := by
  intro k
  induction k with
  | zero => intro s _ _ _ h; simp [seq_loop] at h
  | succ k ih =>
    intro s hz hn hsum
    have hlen : (0 : Int) ≤ s.rest.length := Int.natCast_nonneg _
    simp only [seq_loop]
    split
    · obtain ⟨f1, f2⟩ := seq_fill_counts dev s.rest s.inbuf s.zero_blocks hz (by omega)
      split
      · rename_i i z1 heq
        have := f1 i z1 heq
        intro _
        simp only
        omega
      · intro h; simp at h
      · rename_i rest1 inbuf1 z1 heq
        obtain ⟨g1, g2⟩ := f2 rest1 inbuf1 z1 heq
        have hlen1 : (0 : Int) ≤ rest1.length := Int.natCast_nonneg _
        have hw : wrap32 (s.non_zero_blocks + 1) = s.non_zero_blocks + 1 :=
          wrap32_of_range _ (by simp only [INT_MIN]; omega) (by omega)
        split
        · intro h; simp at h
        · rename_i s2 hd
          obtain ⟨d1, d2, d3⟩ := seq_deflate_counters c _ s2 hd
          simp only [hw] at d1 d2 d3
          exact ih s2 (by rw [d2]; omega) (by rw [d3]; omega) (by rw [d1, d2, d3]; omega)
    · split
      · intro h; simp at h
      · rename_i s2 hd
        obtain ⟨d1, d2, d3⟩ := seq_deflate_counters c _ s2 hd
        exact ih s2 (by rw [d2]; exact hz) (by rw [d3]; exact hn) (by rw [d1, d2, d3]; exact hsum)

/-- `compress_chunks_sequential` writes the slot only at `done`, and then with
`num_zero_blocks + num_non_zero_blocks = total_blocks_read`, the number of blocks
of the pattern. -/
theorem compress_chunks_sequential_inv {σ F : Type} [Mul F] [Div F] [IntCast F]
    (c : codec σ) (dev : device) (fuel : Nat) (pattern : List Int) (w : worker F)
    (hlen : (pattern.length : Int) ≤ INT_MAX) :
    ((compress_chunks_sequential c dev fuel pattern w).1 = proc_status.returned →
      0 ≤ (compress_chunks_sequential c dev fuel pattern w).2.info.num_zero_blocks ∧
      0 ≤ (compress_chunks_sequential c dev fuel pattern w).2.info.num_non_zero_blocks ∧
      (compress_chunks_sequential c dev fuel pattern w).2.info.num_zero_blocks +
        (compress_chunks_sequential c dev fuel pattern w).2.info.num_non_zero_blocks =
        (compress_chunks_sequential c dev fuel pattern w).2.info.total_blocks_read ∧
      (compress_chunks_sequential c dev fuel pattern w).2.info.total_blocks_read =
        pattern.length) ∧
    ((compress_chunks_sequential c dev fuel pattern w).1 ≠ proc_status.returned →
      (compress_chunks_sequential c dev fuel pattern w).2.info = w.info) := by
  simp only [compress_chunks_sequential]
  split
  · exact ⟨fun h => by simp at h, fun _ => rfl⟩
  · have key := seq_loop_counts c dev pattern.length hlen fuel
      { strm := { c.deflateInit.1 with avail_out := OUTBLOCK_SIZE },
        rest := pattern, buffer_size := 0, bufptr := 0, zero_blocks := 0,
        non_zero_blocks := 0, zlib_input_bytes := 0, zlib_output_bytes := 0,
        inbuf := w.inbuf } (le_refl _) (le_refl _) (by simp)
    split
    · rename_i s heq
      rw [heq] at key
      obtain ⟨k1, k2, k3⟩ := key rfl
      simp only at k1 k2 k3
      have hw : wrap32 (s.zero_blocks + s.non_zero_blocks) = s.zero_blocks + s.non_zero_blocks :=
        wrap32_of_range _ (by simp only [INT_MIN]; omega) (by omega)
      refine ⟨fun _ => ?_, fun h => absurd rfl h⟩
      simp only [hw]
      exact ⟨k1, k2, trivial, k3⟩
    · rename_i st s hne heq
      refine ⟨fun h => ?_, fun _ => rfl⟩
      simp only at h
      subst h
      exact absurd rfl hne

/-- The reaper's addition of a slot into the aggregate slot preserves the
invariant when `total_blocks_read` does not overflow. -/
theorem add_info_inv {F : Type} [Add F] (agg s : compression_info F) (ha : slot_inv agg)
    (hs : slot_inv s) (hmax : agg.total_blocks_read + s.total_blocks_read ≤ INT_MAX) :
    slot_inv (add_info agg s) := by
  obtain ⟨a1, a2, a3⟩ := ha
  obtain ⟨s1, s2, s3⟩ := hs
  have wz : wrap32 (agg.num_zero_blocks + s.num_zero_blocks) =
      agg.num_zero_blocks + s.num_zero_blocks :=
    wrap32_of_range _ (by simp only [INT_MIN]; omega) (by omega)
  have wn : wrap32 (agg.num_non_zero_blocks + s.num_non_zero_blocks) =
      agg.num_non_zero_blocks + s.num_non_zero_blocks :=
    wrap32_of_range _ (by simp only [INT_MIN]; omega) (by omega)
  have wt : wrap32 (agg.total_blocks_read + s.total_blocks_read) =
      agg.total_blocks_read + s.total_blocks_read :=
    wrap32_of_range _ (by simp only [INT_MIN]; omega) (by omega)
  simp only [slot_inv, add_info, wz, wn, wt]
  omega

/-- The loop of `child` over a random pattern preserves the invariant of the slot
at every point, with room for 131073 blocks per sample. -/
theorem random_samples_inv {σ F : Type} [Add F] [Div F] [IntCast F] [NatCast F]
    (c : codec σ) (m : libm F) (dev : device) (rnd : Nat → Int) (fuel : Nat) :
    ∀ (pattern : List Int) (w : worker F), slot_inv w.info →
      w.info.total_blocks_read + 131073 * (pattern.length : Int) ≤ INT_MAX →
      slot_inv (random_samples c m dev rnd fuel pattern w).2.info := by
  intro pattern
  induction pattern with
  | nil => intro w h _; simpa [random_samples] using h
  | cons off rest ih =>
    intro w hinv hmax
    simp only [List.length_cons, Nat.cast_add, Nat.cast_one] at hmax
    have hlen : (0 : Int) ≤ rest.length := Int.natCast_nonneg _
    obtain ⟨h1, h2⟩ := compress_chunk_random_inv c m dev rnd fuel off w hinv (by omega)
    simp only [random_samples]
    split
    · rename_i w1 heq
      rw [heq] at h1 h2
      exact ih w1 h1 (by simp only at h2; omega)
    · exact h1

/-- A worker's slot satisfies the invariant however far the worker has come and
whatever way it ends, for a pattern that leaves room for 131073 blocks per
sample. -/
theorem child_inv {σ F : Type} [Add F] [Mul F] [Div F] [IntCast F] [NatCast F]
    (c : codec σ) (m : libm F) (dev : device) (rnd : Nat → Int) (fuel : Nat) (open_ok : Bool)
    (inbuf0 : List Byte) (rand_pos : Nat) (pattern : List Int) (exhaustive : Bool)
    (hlen : 131073 * (pattern.length : Int) ≤ INT_MAX) :
    slot_inv (child c m dev rnd fuel open_ok inbuf0 rand_pos pattern exhaustive :
      proc_status × worker F).2.info := by
  have hzero : slot_inv (zero_info F) := by simp [slot_inv, zero_info]
  have hnn : (0 : Int) ≤ pattern.length := Int.natCast_nonneg _
  simp only [child]
  split
  · exact hzero
  · have hr : slot_inv
        (if exhaustive = true then
          compress_chunks_sequential c dev fuel pattern
            { info := zero_info F, inbuf := inbuf0, rand_pos := rand_pos }
        else
          random_samples c m dev rnd fuel pattern
            { info := zero_info F, inbuf := inbuf0, rand_pos := rand_pos }).2.info := by
      split
      · obtain ⟨s1, s2⟩ := compress_chunks_sequential_inv c dev fuel pattern
          ({ info := zero_info F, inbuf := inbuf0, rand_pos := rand_pos } : worker F)
          (by omega)
        by_cases hret : (compress_chunks_sequential c dev fuel pattern
            ({ info := zero_info F, inbuf := inbuf0, rand_pos := rand_pos } : worker F)).1 =
            proc_status.returned
        · obtain ⟨a1, a2, a3, _⟩ := s1 hret
          exact ⟨a1, a2, le_of_eq a3⟩
        · rw [s2 hret]
          exact hzero
      · exact random_samples_inv c m dev rnd fuel pattern _ hzero (by
          simp only [zero_info]; omega)
    split
    · rename_i w1 heq
      rw [heq] at hr
      exact hr
    · exact hr

/-- C4. The invariant `num_zero_blocks + num_non_zero_blocks ≤ total_blocks_read`
(with counters that are not negative) holds for a zero-initialised slot; it is
preserved by every call of `compress_chunk_random`, however far the call has come
and whatever way it ends, the read-ahead loop included; `compress_chunks_sequential`
leaves the slot alone until it returns and then writes it with equality; the
reaper's addition into the aggregate slot preserves it; hence it holds in the slot
of a worker at every point.  `total_blocks_read` is assumed not to overflow. -/
theorem slot_inv_preserved {σ F : Type} [Add F] [Mul F] [Div F] [IntCast F] [NatCast F] :
    slot_inv (zero_info F) ∧
    (∀ (c : codec σ) (m : libm F) (dev : device) (rnd : Nat → Int) (fuel : Nat)
        (read_location : Int) (w : worker F),
        slot_inv w.info → w.info.total_blocks_read + 131073 ≤ INT_MAX →
        slot_inv (compress_chunk_random c m dev rnd fuel read_location w).2.info) ∧
    (∀ (c : codec σ) (dev : device) (fuel : Nat) (pattern : List Int) (w : worker F),
        slot_inv w.info → (pattern.length : Int) ≤ INT_MAX →
        slot_inv (compress_chunks_sequential c dev fuel pattern w).2.info ∧
        ((compress_chunks_sequential c dev fuel pattern w).1 = proc_status.returned →
          (compress_chunks_sequential c dev fuel pattern w).2.info.num_zero_blocks +
            (compress_chunks_sequential c dev fuel pattern w).2.info.num_non_zero_blocks =
            (compress_chunks_sequential c dev fuel pattern w).2.info.total_blocks_read)) ∧
    (∀ (agg s : compression_info F), slot_inv agg → slot_inv s →
        agg.total_blocks_read + s.total_blocks_read ≤ INT_MAX →
        slot_inv (add_info agg s)) ∧
    (∀ (c : codec σ) (m : libm F) (dev : device) (rnd : Nat → Int) (fuel : Nat)
        (open_ok : Bool) (inbuf0 : List Byte) (rand_pos : Nat) (pattern : List Int)
        (exhaustive : Bool), 131073 * (pattern.length : Int) ≤ INT_MAX →
        slot_inv (child c m dev rnd fuel open_ok inbuf0 rand_pos pattern exhaustive :
          proc_status × worker F).2.info) := by
  refine ⟨by simp [slot_inv, zero_info], ?_, ?_, ?_, ?_⟩
  · intro c m dev rnd fuel read_location w hinv hmax
    exact (compress_chunk_random_inv c m dev rnd fuel read_location w hinv hmax).1
  · intro c dev fuel pattern w hinv hlen
    obtain ⟨s1, s2⟩ := compress_chunks_sequential_inv c dev fuel pattern w hlen
    by_cases hret : (compress_chunks_sequential c dev fuel pattern w).1 = proc_status.returned
    · obtain ⟨a1, a2, a3, _⟩ := s1 hret
      exact ⟨⟨a1, a2, le_of_eq a3⟩, fun _ => a3⟩
    · refine ⟨?_, fun h => absurd h hret⟩
      rw [s2 hret]
      exact hinv
  · intro agg s ha hs hmax
    exact add_info_inv agg s ha hs hmax
  · intro c m dev rnd fuel open_ok inbuf0 rand_pos pattern exhaustive hlen
    exact child_inv c m dev rnd fuel open_ok inbuf0 rand_pos pattern exhaustive hlen

/-- Witness for C4: one sample of a non-zero block taken with a zeroed slot, and a
reap of a slot with the counters 3, 1, 5 into an aggregate with 0, 2, 2. -/
theorem slot_inv_preserved_witness :
    slot_inv (compress_chunk_random example_codec example_libm example_device (fun _ => 0) 3 0
      example_worker).2.info ∧
    slot_inv (add_info (example_slot 0 2 2) (example_slot 3 1 5)) :=
  ⟨(slot_inv_preserved (σ := Unit) (F := Int)).2.1 example_codec example_libm example_device
      (fun _ => 0) 3 0 example_worker (by decide) (by decide),
   (slot_inv_preserved (σ := Unit) (F := Int)).2.2.2.1 (example_slot 0 2 2) (example_slot 3 1 5)
      (by decide) (by decide) (by decide)⟩

namespace Dbl

/-- With enough fuel `log2Aux` brackets its argument between two powers of two. -/
theorem log2Aux_spec : ∀ (f n : Nat), 0 < n → n ≤ f →
    2 ^ log2Aux f n ≤ n ∧ n < 2 ^ (log2Aux f n + 1) := by
  intro f
  induction f with
  | zero => intro n h1 h2; omega
  | succ f ih =>
    intro n h1 h2
    by_cases hn : n < 2
    · simp only [log2Aux, hn, if_true]
      omega
    · simp only [log2Aux, hn, if_false]
      obtain ⟨a, b⟩ := ih (n / 2) (by omega) (by omega)
      rw [pow_succ] at b ⊢
      rw [pow_succ (n := log2Aux f (n / 2) + 1)]
      rw [pow_succ] at *
      omega

/-- The integer logarithm brackets its argument between two powers of two. -/
theorem log2_spec (n : Nat) (h : 0 < n) : 2 ^ log2 n ≤ n ∧ n < 2 ^ (log2 n + 1) :=
  log2Aux_spec n n h (Nat.le_refl n)

end Dbl
namespace Dbl

/-- The pair computed by `scale` has a positive denominator and the value
`num / den * 2 ^ (-u)`. -/
theorem scale_spec (num den : Nat) (hd : 0 < den) (u : Int) :
    0 < (scale num den u).2 ∧
      ((scale num den u).1 : ℚ) / ((scale num den u).2 : ℚ) =
        (num : ℚ) / (den : ℚ) * (2 : ℚ) ^ (-u) := by
  by_cases hu : u ≤ 0
  · have hk : ((-u).toNat : Int) = -u := Int.toNat_of_nonneg (by omega)
    simp only [scale, hu, if_true]
    refine ⟨hd, ?_⟩
    have h2 : (2 : ℚ) ^ (-u) = (2 : ℚ) ^ (-u).toNat := by
      rw [← zpow_natCast, hk]
    rw [h2]
    push_cast
    ring
  · have hk : ((u.toNat : Int)) = u := Int.toNat_of_nonneg (by omega)
    simp only [scale, hu, if_false]
    refine ⟨Nat.mul_pos hd (pow_pos (by norm_num) _), ?_⟩
    have h2 : (2 : ℚ) ^ (-u) = ((2 : ℚ) ^ u.toNat)⁻¹ := by
      rw [zpow_neg, ← zpow_natCast, hk]
    rw [h2]
    push_cast
    have hden : (den : ℚ) ≠ 0 := by exact_mod_cast (Nat.pos_iff_ne_zero.mp hd)
    field_simp

end Dbl
namespace Dbl

/-- The exponent computed by `ilog2` brackets the fraction between two powers of
two. -/
theorem ilog2_spec (num den : Nat) (hn : 0 < num) (hd : 0 < den) :
    (2 : ℚ) ^ (ilog2 num den) ≤ (num : ℚ) / (den : ℚ) ∧
      (num : ℚ) / (den : ℚ) < (2 : ℚ) ^ (ilog2 num den + 1) := by
  obtain ⟨n1, n2⟩ := log2_spec num hn
  obtain ⟨d1, d2⟩ := log2_spec den hd
  have hnq : (0 : ℚ) < num := by exact_mod_cast hn
  have hdq : (0 : ℚ) < den := by exact_mod_cast hd
  have n1q : (2 : ℚ) ^ log2 num ≤ num := by exact_mod_cast n1
  have n2q : (num : ℚ) < 2 ^ log2 num * 2 := by
    have : (num : ℚ) < ((2 ^ (log2 num + 1) : Nat) : ℚ) := by exact_mod_cast n2
    rwa [Nat.cast_pow, pow_succ, Nat.cast_ofNat] at this
  have d1q : (2 : ℚ) ^ log2 den ≤ den := by exact_mod_cast d1
  have d2q : (den : ℚ) < 2 ^ log2 den * 2 := by
    have : (den : ℚ) < ((2 ^ (log2 den + 1) : Nat) : ℚ) := by exact_mod_cast d2
    rwa [Nat.cast_pow, pow_succ, Nat.cast_ofNat] at this
  have ha : (0 : ℚ) < 2 ^ log2 num := by positivity
  have hb : (0 : ℚ) < 2 ^ log2 den := by positivity
  have hP : (2 : ℚ) ^ ((log2 num : Int) - (log2 den : Int)) =
      (2 : ℚ) ^ log2 num / (2 : ℚ) ^ log2 den := by
    rw [zpow_sub₀ (by norm_num), zpow_natCast, zpow_natCast]
  have hup : (num : ℚ) / den < (2 : ℚ) ^ log2 num / (2 : ℚ) ^ log2 den * 2 := by
    rw [div_mul_eq_mul_div, div_lt_div_iff₀ hdq hb]
    nlinarith
  have hlow : (2 : ℚ) ^ log2 num / (2 : ℚ) ^ log2 den / 2 ≤ (num : ℚ) / den := by
    rw [div_div, div_le_div_iff₀ (by positivity) hdq]
    nlinarith
  obtain ⟨s2, sv⟩ := scale_spec num den hd ((log2 num : Int) - (log2 den : Int))
  have s2q : (0 : ℚ) < (scale num den ((log2 num : Int) - (log2 den : Int))).2 := by
    exact_mod_cast s2
  simp only [ilog2]
  split
  · rename_i hle
    have hleq : ((scale num den ((log2 num : Int) - (log2 den : Int))).2 : ℚ) ≤
        (scale num den ((log2 num : Int) - (log2 den : Int))).1 := by exact_mod_cast hle
    have h1 : (1 : ℚ) ≤ (num : ℚ) / den * (2 : ℚ) ^ (-((log2 num : Int) - (log2 den : Int))) := by
      rw [← sv, le_div_iff₀ s2q]
      linarith
    rw [zpow_neg, hP] at h1
    rw [zpow_add_one₀ (by norm_num), hP]
    refine ⟨?_, hup⟩
    have hpos : (0 : ℚ) < (2 : ℚ) ^ log2 num / (2 : ℚ) ^ log2 den := by positivity
    calc (2 : ℚ) ^ log2 num / (2 : ℚ) ^ log2 den
        = 1 * ((2 : ℚ) ^ log2 num / (2 : ℚ) ^ log2 den) := by ring
      _ ≤ ((num : ℚ) / den * ((2 : ℚ) ^ log2 num / (2 : ℚ) ^ log2 den)⁻¹) *
            ((2 : ℚ) ^ log2 num / (2 : ℚ) ^ log2 den) :=
          mul_le_mul_of_nonneg_right h1 (le_of_lt hpos)
      _ = (num : ℚ) / den := by field_simp; ring
  · rename_i hle
    have hltq : ((scale num den ((log2 num : Int) - (log2 den : Int))).1 : ℚ) <
        (scale num den ((log2 num : Int) - (log2 den : Int))).2 := by
      exact_mod_cast (Nat.lt_of_not_le hle)
    have h1 : (num : ℚ) / den * (2 : ℚ) ^ (-((log2 num : Int) - (log2 den : Int))) < 1 := by
      rw [← sv, div_lt_iff₀ s2q]
      linarith
    rw [zpow_neg, hP] at h1
    have hpos : (0 : ℚ) < (2 : ℚ) ^ log2 num / (2 : ℚ) ^ log2 den := by positivity
    have hlt : (num : ℚ) / den < (2 : ℚ) ^ log2 num / (2 : ℚ) ^ log2 den := by
      calc (num : ℚ) / den
          = ((num : ℚ) / den * ((2 : ℚ) ^ log2 num / (2 : ℚ) ^ log2 den)⁻¹) *
              ((2 : ℚ) ^ log2 num / (2 : ℚ) ^ log2 den) := by field_simp; ring
        _ < 1 * ((2 : ℚ) ^ log2 num / (2 : ℚ) ^ log2 den) :=
            mul_lt_mul_of_pos_right h1 hpos
        _ = (2 : ℚ) ^ log2 num / (2 : ℚ) ^ log2 den := by ring
    have e1 : (2 : ℚ) ^ ((log2 num : Int) - (log2 den : Int) - 1) =
        (2 : ℚ) ^ log2 num / (2 : ℚ) ^ log2 den / 2 := by
      rw [zpow_sub_one₀ (by norm_num), hP]
      ring
    have e2 : ((log2 num : Int) - (log2 den : Int) - 1 + 1) =
        (log2 num : Int) - (log2 den : Int) := by ring
    rw [e1, e2, hP]
    exact ⟨hlow, hlt⟩

end Dbl
namespace Dbl

/-- The integer nearest to `N / D` as chosen by `round`: it is within one half of
the quotient, and equal to it when the quotient is an integer. -/
theorem nearest_spec (N D : Nat) (hD : 0 < D) :
    |((nearest N D : Nat) : ℚ) - (N : ℚ) / (D : ℚ)| ≤ 1 / 2 ∧
    (∀ M : Nat, (N : ℚ) / (D : ℚ) = (M : ℚ) → nearest N D = M) := by
  simp only [nearest]
  have hDq : (0 : ℚ) < D := by exact_mod_cast hD
  have hdm : (N : ℚ) = (D : ℚ) * ((N / D : Nat) : ℚ) + ((N % D : Nat) : ℚ) := by
    exact_mod_cast (Nat.div_add_mod N D).symm
  have hr : ((N % D : Nat) : ℚ) < D := by exact_mod_cast Nat.mod_lt N hD
  have hr0 : (0 : ℚ) ≤ ((N % D : Nat) : ℚ) := by positivity
  have hY : (N : ℚ) / (D : ℚ) = ((N / D : Nat) : ℚ) + ((N % D : Nat) : ℚ) / D := by
    rw [hdm]
    field_simp
    ring
  constructor
  · rw [hY]
    split
    · rename_i h
      have hq : (2 : ℚ) * ((N % D : Nat) : ℚ) < D := by exact_mod_cast h
      have : ((N % D : Nat) : ℚ) / D ≤ 1 / 2 := by
        rw [div_le_iff₀ hDq]; linarith
      have h0 : (0 : ℚ) ≤ ((N % D : Nat) : ℚ) / D := by positivity
      rw [abs_le]
      constructor <;> linarith
    · split
      · rename_i h1 h
        have hq : (D : ℚ) < 2 * ((N % D : Nat) : ℚ) := by exact_mod_cast h
        have h1 : (1 : ℚ) / 2 ≤ ((N % D : Nat) : ℚ) / D := by
          rw [le_div_iff₀ hDq]; linarith
        have h2 : ((N % D : Nat) : ℚ) / D ≤ 1 := by
          rw [div_le_iff₀ hDq]; linarith
        rw [abs_le]
        push_cast
        constructor <;> linarith
      · rename_i h1 h2
        have heq : 2 * (N % D) = D := by omega
        have hq : (2 : ℚ) * ((N % D : Nat) : ℚ) = D := by exact_mod_cast heq
        have h3 : ((N % D : Nat) : ℚ) / D = 1 / 2 := by
          rw [div_eq_iff (ne_of_gt hDq)]; linarith
        rw [h3, abs_le]
        split
        · constructor <;> linarith
        · push_cast
          constructor <;> linarith
  · intro M hM
    have hN : N = M * D := by
      have : (N : ℚ) = (M : ℚ) * D := by
        rw [div_eq_iff (ne_of_gt hDq)] at hM
        exact hM
      exact_mod_cast this
    have hq : N / D = M := by rw [hN]; exact Nat.mul_div_cancel M hD
    have hrm : N % D = 0 := by rw [hN]; exact Nat.mul_mod_left M D
    simp only [hrm, hq, Nat.mul_zero, hD, if_true]

end Dbl
namespace Dbl

/-- Rounding of a positive fraction `X = num / den` in the normal range: the result
is finite, `m * 2 ^ u` with `2 ^ (u + 52) ≤ X < 2 ^ (u + 53)`, within half a unit
in the last place of `X`, and exact when `X` is a multiple of `2 ^ u`. -/
theorem round_spec (num den : Nat) (hn : 0 < num) (hd : 0 < den)
    (hlo : (2 : ℚ) ^ (-1022 : Int) ≤ (num : ℚ) / (den : ℚ))
    (hhi : (num : ℚ) / (den : ℚ) < (2 : ℚ) ^ (1023 : Int)) :
    ∃ (m : Nat) (u : Int), round false num den = fin false m u ∧
      (2 : ℚ) ^ (u + 52) ≤ (num : ℚ) / (den : ℚ) ∧
      (num : ℚ) / (den : ℚ) < (2 : ℚ) ^ (u + 53) ∧
      |(m : ℚ) * (2 : ℚ) ^ u - (num : ℚ) / (den : ℚ)| ≤ (2 : ℚ) ^ u / 2 ∧
      (∀ M : Nat, (num : ℚ) / (den : ℚ) = (M : ℚ) * (2 : ℚ) ^ u → m = M) := by
  obtain ⟨e1, e2⟩ := ilog2_spec num den hn hd
  have hE1 : -1022 ≤ ilog2 num den := by
    by_contra hcon
    have : (2 : ℚ) ^ (ilog2 num den + 1) ≤ (2 : ℚ) ^ (-1022 : Int) :=
      zpow_le_zpow_right₀ (by norm_num) (by omega)
    exact absurd (lt_of_lt_of_le e2 (le_trans this hlo)) (lt_irrefl _)
  have hE2 : ilog2 num den < 1023 := by
    by_contra hcon
    have : (2 : ℚ) ^ (1023 : Int) ≤ (2 : ℚ) ^ (ilog2 num den) :=
      zpow_le_zpow_right₀ (by norm_num) (by omega)
    exact absurd (lt_of_le_of_lt (le_trans this e1) hhi) (lt_irrefl _)
  have hmax : max (ilog2 num den) (-1022) = ilog2 num den := max_eq_left hE1
  obtain ⟨s2, sv⟩ := scale_spec num den hd (ilog2 num den - 52)
  obtain ⟨a1, a2⟩ := nearest_spec (scale num den (ilog2 num den - 52)).1
    (scale num den (ilog2 num den - 52)).2 s2
  have hu : (0 : ℚ) < (2 : ℚ) ^ (ilog2 num den - 52) := by positivity
  have hX : (num : ℚ) / (den : ℚ) =
      ((scale num den (ilog2 num den - 52)).1 : ℚ) /
        ((scale num den (ilog2 num den - 52)).2 : ℚ) * (2 : ℚ) ^ (ilog2 num den - 52) := by
    rw [sv, mul_assoc, ← zpow_add₀ (by norm_num)]
    simp
  refine ⟨nearest (scale num den (ilog2 num den - 52)).1 (scale num den (ilog2 num den - 52)).2,
    ilog2 num den - 52, ?_, ?_, ?_, ?_, ?_⟩
  · have hno : ¬ (971 < ilog2 num den - 52 ∨ (ilog2 num den - 52 = 971 ∧
        2 ^ 53 ≤ nearest (scale num den (ilog2 num den - 52)).1
          (scale num den (ilog2 num den - 52)).2)) := by
      intro h
      rcases h with h | h
      · omega
      · omega
    simp only [round, Nat.pos_iff_ne_zero.mp hn, if_false, hmax, hno]
  · have : ilog2 num den - 52 + 52 = ilog2 num den := by ring
    rw [this]
    exact e1
  · have : ilog2 num den - 52 + 53 = ilog2 num den + 1 := by ring
    rw [this]
    exact e2
  · have hfac : (nearest (scale num den (ilog2 num den - 52)).1
          (scale num den (ilog2 num den - 52)).2 : ℚ) * (2 : ℚ) ^ (ilog2 num den - 52) -
        (num : ℚ) / (den : ℚ) =
        ((nearest (scale num den (ilog2 num den - 52)).1
          (scale num den (ilog2 num den - 52)).2 : ℚ) -
          ((scale num den (ilog2 num den - 52)).1 : ℚ) /
            ((scale num den (ilog2 num den - 52)).2 : ℚ)) * (2 : ℚ) ^ (ilog2 num den - 52) := by
      rw [hX]
      ring
    rw [hfac, abs_mul, abs_of_pos hu]
    calc _ ≤ 1 / 2 * (2 : ℚ) ^ (ilog2 num den - 52) :=
          mul_le_mul_of_nonneg_right a1 (le_of_lt hu)
      _ = (2 : ℚ) ^ (ilog2 num den - 52) / 2 := by ring
  · intro M hM
    apply a2 M
    rw [hX] at hM
    exact mul_right_cancel₀ (ne_of_gt hu) hM

end Dbl
namespace Dbl

/-- Conversion of a positive `int` below `2 ^ 53` to `double` is exact. -/
theorem ofInt_spec (A : Nat) (hA : 0 < A) (hA2 : A < 2 ^ 53) :
    ∃ (m : Nat) (u : Int), ofInt (A : Int) = fin false m u ∧ (m : ℚ) * (2 : ℚ) ^ u = (A : ℚ) := by
  have hAq : (0 : ℚ) < A := by exact_mod_cast hA
  have hX : ((A : Int).natAbs : ℚ) / ((1 : Nat) : ℚ) = (A : ℚ) := by simp
  have hlo : (2 : ℚ) ^ (-1022 : Int) ≤ ((A : Int).natAbs : ℚ) / ((1 : Nat) : ℚ) := by
    rw [hX]
    have h1 : (2 : ℚ) ^ (-1022 : Int) ≤ (2 : ℚ) ^ (0 : Int) :=
      zpow_le_zpow_right₀ (by norm_num) (by norm_num)
    have h2 : (1 : ℚ) ≤ A := by exact_mod_cast hA
    rw [zpow_zero] at h1
    exact le_trans h1 h2
  have hhi : ((A : Int).natAbs : ℚ) / ((1 : Nat) : ℚ) < (2 : ℚ) ^ (1023 : Int) := by
    rw [hX]
    have h1 : (A : ℚ) < (2 : ℚ) ^ (53 : Int) := by
      have : (A : ℚ) < ((2 ^ 53 : Nat) : ℚ) := by exact_mod_cast hA2
      rw [Nat.cast_pow, Nat.cast_ofNat] at this
      rw [show (53 : Int) = ((53 : Nat) : Int) from rfl, zpow_natCast]
      exact this
    exact lt_of_lt_of_le h1 (zpow_le_zpow_right₀ (by norm_num) (by norm_num))
  obtain ⟨m, u, r1, r2, r3, _, r5⟩ :=
    round_spec (A : Int).natAbs 1 (by simpa using hA) (by norm_num) hlo hhi
  rw [hX] at r2 r3 r5
  have hu : u ≤ 0 := by
    by_contra hcon
    have h1 : (2 : ℚ) ^ (53 : Int) ≤ (2 : ℚ) ^ (u + 52) :=
      zpow_le_zpow_right₀ (by norm_num) (by omega)
    have h2 : (A : ℚ) < (2 : ℚ) ^ (53 : Int) := by
      have : (A : ℚ) < ((2 ^ 53 : Nat) : ℚ) := by exact_mod_cast hA2
      rw [Nat.cast_pow, Nat.cast_ofNat] at this
      rw [show (53 : Int) = ((53 : Nat) : Int) from rfl, zpow_natCast]
      exact this
    exact absurd (lt_of_le_of_lt (le_trans h1 r2) h2) (lt_irrefl _)
  have hk : ((-u).toNat : Int) = -u := Int.toNat_of_nonneg (by omega)
  have hpow : (2 : ℚ) ^ u * (2 : ℚ) ^ (-u).toNat = 1 := by
    rw [← zpow_natCast, hk, ← zpow_add₀ (by norm_num)]
    simp
  have hm : m = A * 2 ^ (-u).toNat := by
    apply r5
    push_cast
    rw [mul_assoc, mul_comm ((2 : ℚ) ^ (-u).toNat), hpow, mul_one]
  refine ⟨m, u, ?_, ?_⟩
  · have hdec : decide ((A : Int) < 0) = false := by simp
    simp only [ofInt, hdec]
    exact r1
  · rw [hm]
    push_cast
    rw [mul_assoc, mul_comm ((2 : ℚ) ^ (-u).toNat), hpow, mul_one]

/-- Division of two positive finite doubles rounds their exact quotient. -/
theorem div_spec (m1 m2 : Nat) (e1 e2 : Int) (X : ℚ) (h2 : 0 < m2)
    (hX : (m1 : ℚ) * (2 : ℚ) ^ e1 / ((m2 : ℚ) * (2 : ℚ) ^ e2) = X)
    (hlo : (2 : ℚ) ^ (-1022 : Int) ≤ X) (hhi : X < (2 : ℚ) ^ (1023 : Int)) :
    ∃ (m : Nat) (u : Int), div (fin false m1 e1) (fin false m2 e2) = fin false m u ∧
      (2 : ℚ) ^ (u + 52) ≤ X ∧ X < (2 : ℚ) ^ (u + 53) ∧
      |(m : ℚ) * (2 : ℚ) ^ u - X| ≤ (2 : ℚ) ^ u / 2 := by
  obtain ⟨s2, sv⟩ := scale_spec m1 m2 h2 (e2 - e1)
  have hval : ((scale m1 m2 (e2 - e1)).1 : ℚ) / ((scale m1 m2 (e2 - e1)).2 : ℚ) = X := by
    rw [sv, ← hX]
    have : (2 : ℚ) ^ (-(e2 - e1)) = (2 : ℚ) ^ e1 / (2 : ℚ) ^ e2 := by
      rw [neg_sub, zpow_sub₀ (by norm_num)]
    rw [this]
    have h2q : (m2 : ℚ) ≠ 0 := by exact_mod_cast (Nat.pos_iff_ne_zero.mp h2)
    have hp : (2 : ℚ) ^ e2 ≠ 0 := by positivity
    field_simp
  have hXpos : 0 < X := lt_of_lt_of_le (by positivity) hlo
  have s1 : 0 < (scale m1 m2 (e2 - e1)).1 := by
    rcases Nat.eq_zero_or_pos (scale m1 m2 (e2 - e1)).1 with h | h
    · rw [h] at hval
      simp at hval
      linarith
    · exact h
  obtain ⟨m, u, r1, r2, r3, r4, _⟩ := round_spec _ _ s1 s2 (by rw [hval]; exact hlo)
    (by rw [hval]; exact hhi)
  rw [hval] at r2 r3 r4
  refine ⟨m, u, ?_, r2, r3, r4⟩
  simp only [div, Nat.pos_iff_ne_zero.mp h2, if_false, Bool.xor_false]
  exact r1

/-- Multiplication of two positive finite doubles rounds their exact product. -/
theorem mul_spec (m1 m2 : Nat) (e1 e2 : Int) (X : ℚ)
    (hX : (m1 : ℚ) * (2 : ℚ) ^ e1 * ((m2 : ℚ) * (2 : ℚ) ^ e2) = X)
    (hlo : (2 : ℚ) ^ (-1022 : Int) ≤ X) (hhi : X < (2 : ℚ) ^ (1023 : Int)) :
    ∃ (m : Nat) (u : Int), mul (fin false m1 e1) (fin false m2 e2) = fin false m u ∧
      (2 : ℚ) ^ (u + 52) ≤ X ∧ X < (2 : ℚ) ^ (u + 53) ∧
      |(m : ℚ) * (2 : ℚ) ^ u - X| ≤ (2 : ℚ) ^ u / 2 := by
  obtain ⟨s2, sv⟩ := scale_spec (m1 * m2) 1 (by norm_num) (-(e1 + e2))
  have hval : ((scale (m1 * m2) 1 (-(e1 + e2))).1 : ℚ) /
      ((scale (m1 * m2) 1 (-(e1 + e2))).2 : ℚ) = X := by
    rw [sv, ← hX, neg_neg, zpow_add₀ (by norm_num)]
    push_cast
    ring
  have hXpos : 0 < X := lt_of_lt_of_le (by positivity) hlo
  have s1 : 0 < (scale (m1 * m2) 1 (-(e1 + e2))).1 := by
    rcases Nat.eq_zero_or_pos (scale (m1 * m2) 1 (-(e1 + e2))).1 with h | h
    · rw [h] at hval
      simp at hval
      linarith
    · exact h
  obtain ⟨m, u, r1, r2, r3, r4, _⟩ := round_spec _ _ s1 s2 (by rw [hval]; exact hlo)
    (by rw [hval]; exact hhi)
  rw [hval] at r2 r3 r4
  refine ⟨m, u, ?_, r2, r3, r4⟩
  simp only [mul, Bool.xor_false]
  exact r1

/-- Conversion of a non-negative finite double to `int` truncates its value. -/
theorem toInt_spec (m : Nat) (e : Int) (k : Nat) (h1 : (k : ℚ) ≤ (m : ℚ) * (2 : ℚ) ^ e)
    (h2 : (m : ℚ) * (2 : ℚ) ^ e < (k : ℚ) + 1) (hk : k ≤ 2147483647) :
    toInt (fin false m e) = some (k : Int) := by
  obtain ⟨s2, sv⟩ := scale_spec m 1 (by norm_num) (-e)
  have s2q : (0 : ℚ) < (scale m 1 (-e)).2 := by exact_mod_cast s2
  have hval : ((scale m 1 (-e)).1 : ℚ) / ((scale m 1 (-e)).2 : ℚ) = (m : ℚ) * (2 : ℚ) ^ e := by
    rw [sv, neg_neg]
    simp
  have hdiv : (scale m 1 (-e)).1 / (scale m 1 (-e)).2 = k := by
    apply Nat.div_eq_of_lt_le
    · have : (k : ℚ) * (scale m 1 (-e)).2 ≤ (scale m 1 (-e)).1 := by
        rw [← hval, le_div_iff₀ s2q] at h1
        exact h1
      exact_mod_cast this
    · have : ((scale m 1 (-e)).1 : ℚ) < ((k : ℚ) + 1) * (scale m 1 (-e)).2 := by
        rw [← hval, div_lt_iff₀ s2q] at h2
        exact h2
      exact_mod_cast this
  simp only [toInt, hdiv, Bool.false_eq_true, if_false]
  have hk2 : (-2147483648 : Int) ≤ (k : Int) ∧ (k : Int) ≤ 2147483647 := by omega
  simp only [hk2, and_self, if_true]

end Dbl
/-- The throttle of `get_pattern` as a real number: for `1 ≤ num_procs ≤ 128` and
`1 ≤ active_procs + 1 ≤ 42949672` the `double` that is converted to `int` is
finite and within a relative error of `2 ^ (-51)` of `50 * (active_procs + 1) /
num_procs`. -/
theorem max_blocks_random_value (n A : Nat) (hn1 : 1 ≤ n) (hn2 : n ≤ 128) (hA1 : 1 ≤ A)
    (hA2 : A ≤ 42949672) :
    ∃ (m : Nat) (u : Int),
      max_blocks_random (n : Int) ((A : Int) - 1) = Dbl.toInt (Dbl.fin false m u) ∧
      |(m : ℚ) * (2 : ℚ) ^ u - 50 * (A : ℚ) / (n : ℚ)| ≤
        50 * (A : ℚ) / (n : ℚ) / 2251799813685248 := by
  have hnq : (1 : ℚ) ≤ n := by exact_mod_cast hn1
  have hnq2 : (n : ℚ) ≤ 128 := by exact_mod_cast hn2
  have hAq : (1 : ℚ) ≤ A := by exact_mod_cast hA1
  have hAq2 : (A : ℚ) ≤ 42949672 := by exact_mod_cast hA2
  have hn0 : (0 : ℚ) < n := by linarith
  have hw : wrap32 ((A : Int) - 1 + 1) = (A : Int) := by
    rw [sub_add_cancel]
    exact wrap32_of_range _ (by simp only [INT_MIN]; omega) (by simp only [INT_MAX]; omega)
  obtain ⟨mx, ux, x1, x2⟩ := Dbl.ofInt_spec A (by omega) (by omega)
  obtain ⟨my, uy, y1, y2⟩ := Dbl.ofInt_spec n (by omega) (by omega)
  obtain ⟨mc, uc, c1, c2⟩ := Dbl.ofInt_spec 50 (by norm_num) (by norm_num)
  rw [Nat.cast_ofNat] at c2
  have hmy : 0 < my := by
    rcases Nat.eq_zero_or_pos my with h | h
    · rw [h] at y2
      simp at y2
      linarith
    · exact h
  have hXlo : (1 : ℚ) / 128 ≤ (A : ℚ) / n := by
    rw [div_le_div_iff₀ (by norm_num) hn0]
    linarith
  have hXhi : (A : ℚ) / n ≤ 42949672 := by
    rw [div_le_iff₀ hn0]
    nlinarith
  have hsmall : (2 : ℚ) ^ (-1022 : Int) ≤ 1 / 256 := by
    have h1 : (2 : ℚ) ^ (-1022 : Int) ≤ (2 : ℚ) ^ (-8 : Int) :=
      zpow_le_zpow_right₀ (by norm_num) (by norm_num)
    have h2 : (2 : ℚ) ^ (-8 : Int) = 1 / 256 := by norm_num
    rw [h2] at h1
    exact h1
  have hbig : (4398046511104 : ℚ) ≤ (2 : ℚ) ^ (1023 : Int) := by
    have h1 : (2 : ℚ) ^ (42 : Int) ≤ (2 : ℚ) ^ (1023 : Int) :=
      zpow_le_zpow_right₀ (by norm_num) (by norm_num)
    have h2 : (2 : ℚ) ^ (42 : Int) = 4398046511104 := by norm_num
    rw [h2] at h1
    exact h1
  obtain ⟨md, ud, d1, d2, _, d4⟩ := Dbl.div_spec mx my ux uy ((A : ℚ) / n) hmy
    (by rw [x2, y2]) (le_trans hsmall (by linarith)) (lt_of_lt_of_le (by linarith) hbig)
  have hud : (2 : ℚ) ^ (ud + 52) = (2 : ℚ) ^ ud * 4503599627370496 := by
    rw [zpow_add₀ (by norm_num)]
    norm_num
  rw [hud] at d2
  have hudpos : (0 : ℚ) < (2 : ℚ) ^ ud := by positivity
  rw [abs_le] at d4
  have hYlo : (2 : ℚ) ^ (-1022 : Int) ≤ (md : ℚ) * (2 : ℚ) ^ ud * 50 := by
    obtain ⟨d4a, d4b⟩ := d4
    have : (1 : ℚ) / 256 ≤ (md : ℚ) * (2 : ℚ) ^ ud * 50 := by linarith
    exact le_trans hsmall this
  have hYhi : (md : ℚ) * (2 : ℚ) ^ ud * 50 < (2 : ℚ) ^ (1023 : Int) := by
    obtain ⟨d4a, d4b⟩ := d4
    have : (md : ℚ) * (2 : ℚ) ^ ud * 50 < 4398046511104 := by linarith
    exact lt_of_lt_of_le this hbig
  obtain ⟨mp, up, p1, p2, _, p4⟩ := Dbl.mul_spec md mc ud uc ((md : ℚ) * (2 : ℚ) ^ ud * 50)
    (by rw [c2]) hYlo hYhi
  have hup : (2 : ℚ) ^ (up + 52) = (2 : ℚ) ^ up * 4503599627370496 := by
    rw [zpow_add₀ (by norm_num)]
    norm_num
  rw [hup] at p2
  have huppos : (0 : ℚ) < (2 : ℚ) ^ up := by positivity
  rw [abs_le] at p4
  refine ⟨mp, up, ?_, ?_⟩
  · simp only [max_blocks_random, hw, BLOCKS_PER_PROC]
    rw [x1, y1]
    have c1' : Dbl.ofInt 50 = Dbl.fin false mc uc := by exact_mod_cast c1
    rw [c1', d1, p1]
  · have e1 : 50 * (A : ℚ) / n = 50 * ((A : ℚ) / n) := by ring
    rw [e1, abs_le]
    obtain ⟨d4a, d4b⟩ := d4
    obtain ⟨p4a, p4b⟩ := p4
    constructor <;> linarith

namespace Dbl

/-- The exponent computed by `ilog2` depends only on the value of the fraction. -/
theorem ilog2_congr (N D N1 D1 : Nat) (hN : 0 < N) (hD : 0 < D) (hN1 : 0 < N1) (hD1 : 0 < D1)
    (h : (N : ℚ) / (D : ℚ) = (N1 : ℚ) / (D1 : ℚ)) : ilog2 N D = ilog2 N1 D1 := by
  obtain ⟨a1, a2⟩ := ilog2_spec N D hN hD
  obtain ⟨b1, b2⟩ := ilog2_spec N1 D1 hN1 hD1
  rw [h] at a1 a2
  have h1 : ilog2 N D < ilog2 N1 D1 + 1 :=
    (zpow_lt_zpow_iff_right₀ (by norm_num : (1 : ℚ) < 2)).mp (lt_of_le_of_lt a1 b2)
  have h2 : ilog2 N1 D1 < ilog2 N D + 1 :=
    (zpow_lt_zpow_iff_right₀ (by norm_num : (1 : ℚ) < 2)).mp (lt_of_le_of_lt b1 a2)
  omega

/-- The integer chosen by `nearest` depends only on the value of the fraction. -/
theorem nearest_congr (N D N1 D1 : Nat) (hD : 0 < D) (hD1 : 0 < D1)
    (h : (N : ℚ) / (D : ℚ) = (N1 : ℚ) / (D1 : ℚ)) : nearest N D = nearest N1 D1 := by
  have hDq : (0 : ℚ) < D := by exact_mod_cast hD
  have hD1q : (0 : ℚ) < D1 := by exact_mod_cast hD1
  have hq : N / D = N1 / D1 := by
    rw [← Nat.floor_div_eq_div (α := ℚ) N D, ← Nat.floor_div_eq_div (α := ℚ) N1 D1, h]
  have hdm : (N : ℚ) = (D : ℚ) * ((N / D : Nat) : ℚ) + ((N % D : Nat) : ℚ) := by
    exact_mod_cast (Nat.div_add_mod N D).symm
  have hdm1 : (N1 : ℚ) = (D1 : ℚ) * ((N1 / D1 : Nat) : ℚ) + ((N1 % D1 : Nat) : ℚ) := by
    exact_mod_cast (Nat.div_add_mod N1 D1).symm
  have hr : ((N % D : Nat) : ℚ) / D = ((N1 % D1 : Nat) : ℚ) / D1 := by
    have e1 : ((N % D : Nat) : ℚ) / D = (N : ℚ) / D - ((N / D : Nat) : ℚ) := by
      rw [eq_sub_iff_add_eq, div_add' _ _ _ (ne_of_gt hDq), div_left_inj' (ne_of_gt hDq)]
      linarith
    have e2 : ((N1 % D1 : Nat) : ℚ) / D1 = (N1 : ℚ) / D1 - ((N1 / D1 : Nat) : ℚ) := by
      rw [eq_sub_iff_add_eq, div_add' _ _ _ (ne_of_gt hD1q), div_left_inj' (ne_of_gt hD1q)]
      linarith
    rw [e1, e2, h, hq]
  have c1 : 2 * (N % D) < D ↔ 2 * (N1 % D1) < D1 := by
    have l1 : 2 * (N % D) < D ↔ 2 * (((N % D : Nat) : ℚ) / D) < 1 := by
      rw [← mul_div_assoc, div_lt_one hDq]
      exact ⟨fun h => by exact_mod_cast h, fun h => by exact_mod_cast h⟩
    have l2 : 2 * (N1 % D1) < D1 ↔ 2 * (((N1 % D1 : Nat) : ℚ) / D1) < 1 := by
      rw [← mul_div_assoc, div_lt_one hD1q]
      exact ⟨fun h => by exact_mod_cast h, fun h => by exact_mod_cast h⟩
    rw [l1, l2, hr]
  have c2 : D < 2 * (N % D) ↔ D1 < 2 * (N1 % D1) := by
    have l1 : D < 2 * (N % D) ↔ 1 < 2 * (((N % D : Nat) : ℚ) / D) := by
      rw [← mul_div_assoc, one_lt_div hDq]
      exact ⟨fun h => by exact_mod_cast h, fun h => by exact_mod_cast h⟩
    have l2 : D1 < 2 * (N1 % D1) ↔ 1 < 2 * (((N1 % D1 : Nat) : ℚ) / D1) := by
      rw [← mul_div_assoc, one_lt_div hD1q]
      exact ⟨fun h => by exact_mod_cast h, fun h => by exact_mod_cast h⟩
    rw [l1, l2, hr]
  simp only [nearest, hq, c1, c2]

/-- Rounding depends only on the value of the fraction. -/
theorem round_congr (neg : Bool) (N D N1 D1 : Nat) (hN : 0 < N) (hD : 0 < D) (hN1 : 0 < N1)
    (hD1 : 0 < D1) (h : (N : ℚ) / (D : ℚ) = (N1 : ℚ) / (D1 : ℚ)) :
    round neg N D = round neg N1 D1 := by
  have hE := ilog2_congr N D N1 D1 hN hD hN1 hD1 h
  obtain ⟨s2, sv⟩ := scale_spec N D hD (max (ilog2 N1 D1) (-1022) - 52)
  obtain ⟨t2, tv⟩ := scale_spec N1 D1 hD1 (max (ilog2 N1 D1) (-1022) - 52)
  have hn := nearest_congr _ _ _ _ s2 t2 (by rw [sv, tv, h])
  simp only [round, Nat.pos_iff_ne_zero.mp hN, Nat.pos_iff_ne_zero.mp hN1, if_false, hE, hn]

/-- The quotient of two converted positive integers depends only on their ratio. -/
theorem div_ofInt_congr (A n A1 n1 : Nat) (hA : 0 < A) (hA2 : A < 2 ^ 53) (hn : 0 < n)
    (hn2 : n < 2 ^ 53) (hA1 : 0 < A1) (hA12 : A1 < 2 ^ 53) (hn1 : 0 < n1) (hn12 : n1 < 2 ^ 53)
    (h : (A : ℚ) / (n : ℚ) = (A1 : ℚ) / (n1 : ℚ)) :
    div (ofInt (A : Int)) (ofInt (n : Int)) = div (ofInt (A1 : Int)) (ofInt (n1 : Int)) := by
  obtain ⟨mx, ux, x1, x2⟩ := ofInt_spec A hA hA2
  obtain ⟨my, uy, y1, y2⟩ := ofInt_spec n hn hn2
  obtain ⟨mx1, ux1, x11, x12⟩ := ofInt_spec A1 hA1 hA12
  obtain ⟨my1, uy1, y11, y12⟩ := ofInt_spec n1 hn1 hn12
  have pos_of : ∀ (m : Nat) (u : Int) (B : Nat), 0 < B → (m : ℚ) * (2 : ℚ) ^ u = (B : ℚ) → 0 < m := by
    intro m u B hB hm
    rcases Nat.eq_zero_or_pos m with h0 | h0
    · rw [h0] at hm
      simp at hm
      have : (0 : ℚ) < B := by exact_mod_cast hB
      linarith
    · exact h0
  have hmx := pos_of mx ux A hA x2
  have hmy := pos_of my uy n hn y2
  have hmx1 := pos_of mx1 ux1 A1 hA1 x12
  have hmy1 := pos_of my1 uy1 n1 hn1 y12
  have ratio : ∀ (m1 m2 : Nat) (e1 e2 : Int) (B C : Nat), 0 < m2 →
      (m1 : ℚ) * (2 : ℚ) ^ e1 = (B : ℚ) → (m2 : ℚ) * (2 : ℚ) ^ e2 = (C : ℚ) →
      0 < (scale m1 m2 (e2 - e1)).2 ∧
      ((scale m1 m2 (e2 - e1)).1 : ℚ) / ((scale m1 m2 (e2 - e1)).2 : ℚ) = (B : ℚ) / (C : ℚ) := by
    intro m1 m2 e1 e2 B C h2 hB hC
    obtain ⟨s2, sv⟩ := scale_spec m1 m2 h2 (e2 - e1)
    refine ⟨s2, ?_⟩
    rw [sv, ← hB, ← hC]
    have : (2 : ℚ) ^ (-(e2 - e1)) = (2 : ℚ) ^ e1 / (2 : ℚ) ^ e2 := by
      rw [neg_sub, zpow_sub₀ (by norm_num)]
    rw [this]
    have h2q : (m2 : ℚ) ≠ 0 := by exact_mod_cast (Nat.pos_iff_ne_zero.mp h2)
    have hp : (2 : ℚ) ^ e2 ≠ 0 := by positivity
    field_simp
  obtain ⟨r1, r2⟩ := ratio mx my ux uy A n hmy x2 y2
  obtain ⟨q1, q2⟩ := ratio mx1 my1 ux1 uy1 A1 n1 hmy1 x12 y12
  have num_pos : ∀ (N D : Nat) (B C : Nat), 0 < B → 0 < C → 0 < D →
      (N : ℚ) / (D : ℚ) = (B : ℚ) / (C : ℚ) → 0 < N := by
    intro N D B C hB hC hDp hv
    rcases Nat.eq_zero_or_pos N with h0 | h0
    · rw [h0] at hv
      have hBq : (0 : ℚ) < B := by exact_mod_cast hB
      have hCq : (0 : ℚ) < C := by exact_mod_cast hC
      have : (0 : ℚ) < (B : ℚ) / C := by positivity
      simp at hv
      linarith
    · exact h0
  rw [x1, y1, x11, y11]
  simp only [div, Nat.pos_iff_ne_zero.mp hmy, Nat.pos_iff_ne_zero.mp hmy1, if_false]
  exact round_congr _ _ _ _ _ (num_pos _ _ A n hA hn r1 r2) r1 (num_pos _ _ A1 n1 hA1 hn1 q1 q2) q1
    (by rw [r2, q2, h])

end Dbl

/-- The throttle of `get_pattern` depends only on the ratio of `active_procs + 1`
to `num_procs`. -/
theorem max_blocks_random_congr (n A n1 A1 : Nat) (hn1 : 1 ≤ n) (hn2 : n ≤ 128) (hA1 : 1 ≤ A)
    (hA2 : A ≤ 128) (hn11 : 1 ≤ n1) (hn12 : n1 ≤ 128) (hA11 : 1 ≤ A1) (hA12 : A1 ≤ 128)
    (h : A * n1 = A1 * n) :
    max_blocks_random (n : Int) ((A : Int) - 1) = max_blocks_random (n1 : Int) ((A1 : Int) - 1) := by
  have hw : ∀ B : Nat, B ≤ 128 → wrap32 ((B : Int) - 1 + 1) = (B : Int) := by
    intro B hB
    rw [sub_add_cancel]
    exact wrap32_of_range _ (by simp only [INT_MIN]; omega) (by simp only [INT_MAX]; omega)
  have hq : (A : ℚ) / (n : ℚ) = (A1 : ℚ) / (n1 : ℚ) := by
    have hnq : (n : ℚ) ≠ 0 := by exact_mod_cast (by omega : n ≠ 0)
    have hn1q : (n1 : ℚ) ≠ 0 := by exact_mod_cast (by omega : n1 ≠ 0)
    rw [div_eq_div_iff hnq hn1q]
    exact_mod_cast h
  have hlt : (128 : Nat) < 2 ^ 53 := by norm_num
  simp only [max_blocks_random, hw A hA2, hw A1 hA12]
  rw [Dbl.div_ofInt_congr A n A1 n1 (by omega) (by omega) (by omega) (by omega) (by omega)
    (by omega) (by omega) (by omega) hq]

/-- The throttle of `get_pattern` for 50 workers and `1 ≤ active_procs + 1 ≤ 50`, by
evaluation: it is `active_procs + 1`, except at 29, where it is 28. -/
theorem max_blocks_random_row :
    ∀ k < 51, 1 ≤ k →
      max_blocks_random 50 ((k : Nat) - 1 : Int) =
        some (if k = 29 then (28 : Int) else (k : Int)) := by
  decide!

/-- The throttle of `get_pattern` where the exact quotient is an integer: it is
that integer, except for `29 / 50` and `58 / 100`, where it is 28. -/
theorem max_blocks_random_table :
    ∀ n < 129, ∀ A < 129, (1 ≤ n ∧ 1 ≤ A ∧ A ≤ n ∧ (50 * A) % n = 0) →
      max_blocks_random (n : Nat) ((A : Nat) - 1 : Int) =
        some (if (n = 50 ∧ A = 29) ∨ (n = 100 ∧ A = 58) then (28 : Int)
              else ((50 * A / n : Nat) : Int)) := by
  intro n hn A hA h
  obtain ⟨h1, h2, h3, h4⟩ := h
  have hk : 50 * A = 50 * A / n * n := by
    have := Nat.div_add_mod (50 * A) n
    rw [h4, add_zero, mul_comm] at this
    exact this.symm
  have hk1 : 1 ≤ 50 * A / n := by
    rcases Nat.eq_zero_or_pos (50 * A / n) with h0 | h0
    · rw [h0] at hk
      omega
    · exact h0
  have hk2 : 50 * A / n ≤ 50 := by
    apply Nat.div_le_of_le_mul
    nlinarith
  have hc := max_blocks_random_congr n A 50 (50 * A / n) h1 (by omega) h2 (by omega)
    (by norm_num) (by norm_num) hk1 (by omega) (by rw [← hk]; ring)
  have hr := max_blocks_random_row (50 * A / n) (by omega) hk1
  have e50 : ((50 : Nat) : Int) = 50 := rfl
  rw [e50] at hc
  rw [hc, hr]
  by_cases hex : (n = 50 ∧ A = 29) ∨ (n = 100 ∧ A = 58)
  · have : 50 * A / n = 29 := by
      rcases hex with ⟨a, b⟩ | ⟨a, b⟩ <;> subst a b <;> rfl
    simp only [hex, this, if_true]
  · have : ¬ (50 * A / n = 29) := by
      intro hh
      rw [hh] at hk
      omega
    simp only [hex, this, if_false]

/-- The throttle of `get_pattern` after clamping, for `1 ≤ num_procs ≤ 128` and
`1 ≤ active_procs + 1 ≤ 42949672`: the conversion to `int` is defined and the
clamped value is `min 50 (50 * (active_procs + 1) / num_procs)`, except for
`29 / 50` and `58 / 100`, where it is 28. -/
theorem max_blocks_random_clamped (n A : Nat) (hn1 : 1 ≤ n) (hn2 : n ≤ 128) (hA1 : 1 ≤ A)
    (hA2 : A ≤ 42949672) :
    ∃ mb : Int, max_blocks_random (n : Int) ((A : Int) - 1) = some mb ∧
      (if mb > 50 then 50 else mb) =
        (if (n = 50 ∧ A = 29) ∨ (n = 100 ∧ A = 58) then (28 : Int)
         else ((min 50 (50 * A / n) : Nat) : Int)) := by
  have hnq : (1 : ℚ) ≤ n := by exact_mod_cast hn1
  have hnq2 : (n : ℚ) ≤ 128 := by exact_mod_cast hn2
  have hAq : (1 : ℚ) ≤ A := by exact_mod_cast hA1
  have hAq2 : (A : ℚ) ≤ 42949672 := by exact_mod_cast hA2
  have hn0 : (0 : ℚ) < n := by linarith
  obtain ⟨m, u, hval, herr⟩ := max_blocks_random_value n A hn1 hn2 hA1 hA2
  rw [abs_le] at herr
  obtain ⟨herr1, herr2⟩ := herr
  by_cases hgt : n < A
  · -- more workers than slots: the value is at least 50 and the clamp applies
    have hv1 : (50 : ℚ) * (129 / 128) ≤ 50 * (A : ℚ) / n := by
      have h1 : (n : ℚ) + 1 ≤ A := by exact_mod_cast hgt
      rw [le_div_iff₀ hn0]
      nlinarith
    have hv2 : 50 * (A : ℚ) / n ≤ 2147483600 := by
      rw [div_le_iff₀ hn0]
      nlinarith
    have hp0 : (0 : ℚ) ≤ (m : ℚ) * (2 : ℚ) ^ u := by positivity
    have hk1 : ((⌊(m : ℚ) * (2 : ℚ) ^ u⌋₊ : Nat) : ℚ) ≤ (m : ℚ) * (2 : ℚ) ^ u :=
      Nat.floor_le hp0
    have hk2 : (m : ℚ) * (2 : ℚ) ^ u < ((⌊(m : ℚ) * (2 : ℚ) ^ u⌋₊ : Nat) : ℚ) + 1 :=
      Nat.lt_floor_add_one _
    have hk3 : 50 ≤ ⌊(m : ℚ) * (2 : ℚ) ^ u⌋₊ := by
      apply Nat.le_floor
      push_cast
      linarith
    have hk4 : ⌊(m : ℚ) * (2 : ℚ) ^ u⌋₊ ≤ 2147483647 := by
      have : ((⌊(m : ℚ) * (2 : ℚ) ^ u⌋₊ : Nat) : ℚ) < 2147483648 := by linarith
      have h2 : ⌊(m : ℚ) * (2 : ℚ) ^ u⌋₊ < 2147483648 := by exact_mod_cast this
      omega
    refine ⟨(⌊(m : ℚ) * (2 : ℚ) ^ u⌋₊ : Nat), ?_, ?_⟩
    · rw [hval]
      exact Dbl.toInt_spec m u _ hk1 hk2 hk4
    · have hne : ¬ ((n = 50 ∧ A = 29) ∨ (n = 100 ∧ A = 58)) := by omega
      have hdiv : 50 ≤ 50 * A / n := by
        rw [Nat.le_div_iff_mul_le (by omega)]
        nlinarith
      simp only [hne, if_false, min_eq_left hdiv]
      split
      · rfl
      · omega
  · have hle : A ≤ n := Nat.le_of_not_lt hgt
    by_cases hdvd : (50 * A) % n = 0
    · -- the exact quotient is an integer: by evaluation
      have := max_blocks_random_table n (by omega) A (by omega) ⟨hn1, hA1, hle, hdvd⟩
      have hc : ((A : Nat) : Int) - 1 = ((A : Int) - 1) := rfl
      refine ⟨_, this, ?_⟩
      have hdiv : 50 * A / n ≤ 50 := by
        apply Nat.div_le_of_le_mul
        nlinarith
      by_cases hex : (n = 50 ∧ A = 29) ∨ (n = 100 ∧ A = 58)
      · simp only [hex, if_true]
        decide
      · simp only [hex, if_false, min_eq_right hdiv]
        split
        · omega
        · rfl
    · -- the exact quotient is not an integer: the rounding errors are too small
      -- to reach the next integer
      have hA3 : A < n := by
        rcases Nat.lt_or_eq_of_le hle with h | h
        · exact h
        · exfalso
          apply hdvd
          rw [h]
          exact Nat.mul_mod_left 50 n
      have hmod1 : 1 ≤ (50 * A) % n := by omega
      have hmod2 : (50 * A) % n < n := Nat.mod_lt _ (by omega)
      have hdm : (50 : ℚ) * A = (n : ℚ) * ((50 * A / n : Nat) : ℚ) + (((50 * A) % n : Nat) : ℚ) := by
        have := (Nat.div_add_mod (50 * A) n).symm
        exact_mod_cast this
      have hr1 : (1 : ℚ) ≤ (((50 * A) % n : Nat) : ℚ) := by exact_mod_cast hmod1
      have hr2 : (((50 * A) % n : Nat) : ℚ) + 1 ≤ n := by exact_mod_cast hmod2
      have hv : 50 * (A : ℚ) / n =
          ((50 * A / n : Nat) : ℚ) + (((50 * A) % n : Nat) : ℚ) / n := by
        rw [hdm]
        field_simp
        ring
      have hf1 : (1 : ℚ) / 128 ≤ (((50 * A) % n : Nat) : ℚ) / n := by
        rw [div_le_div_iff₀ (by norm_num) hn0]
        linarith
      have hf2 : (((50 * A) % n : Nat) : ℚ) / n ≤ 1 - 1 / 128 := by
        rw [div_le_iff₀ hn0]
        nlinarith
      have hv50 : 50 * (A : ℚ) / n ≤ 50 := by
        have h1 : (A : ℚ) ≤ n := by exact_mod_cast hle
        rw [div_le_iff₀ hn0]
        linarith
      have hv0 : (0 : ℚ) ≤ 50 * (A : ℚ) / n := by positivity
      have hq0 : (0 : ℚ) ≤ ((50 * A / n : Nat) : ℚ) := by positivity
      have hk50 : 50 * A / n < 50 := by
        rw [Nat.div_lt_iff_lt_mul (by omega)]
        nlinarith
      refine ⟨((50 * A / n : Nat) : Int), ?_, ?_⟩
      · rw [hval]
        apply Dbl.toInt_spec m u _ _ _ (by omega)
        · linarith
        · linarith
      · have hne : ¬ ((n = 50 ∧ A = 29) ∨ (n = 100 ∧ A = 58)) := by
          intro h
          apply hdvd
          rcases h with ⟨h1, h2⟩ | ⟨h1, h2⟩ <;> subst h1 h2 <;> rfl
        simp only [hne, if_false, min_eq_right (le_of_lt hk50)]
        split
        · omega
        · rfl

/-- The random loop of `get_pattern` writes as many offsets as it is asked for. -/
theorem random_loop_length (rnd : Nat → Int) (num_chunks : Int) :
    ∀ (k pos : Nat), (random_loop rnd num_chunks k pos).length = k := by
  intro k
  induction k with
  | zero => intro pos; rfl
  | succ k ih => intro pos; simp [random_loop, ih]

/-- C7 (counterexample). With `num_procs = 50` and `active_procs = 28` the stopping
rule does not fire and `get_pattern` returns 28 offsets, while
`min (50, floor (29 * 50 / 50)) = 29`: the `double` quotient `29 / 50` is rounded
down and its product with 50 stays below 29.  With `num_procs = 1` and
`active_procs = 42949672` the product exceeds the range of `int`, and its
conversion is undefined. -/
theorem get_pattern_random_count_counterexample :
    (get_pattern 50 (fun _ => 0) { cur_chunk := 0, rand_pos := 0 } false 1 28
        (zero_info Int)).map (fun r => r.count) = some 28 ∧
      min BLOCKS_PER_PROC ((28 + 1) * BLOCKS_PER_PROC / 50) = 29 ∧
      ¬ ((zero_info Int).num_non_zero_blocks ≥ MAX_NUM_SAMPLE ∨
          (zero_info Int).num_zero_blocks ≥ MAX_NUM_SAMPLE * ZERO_BLOCK_FACTOR) ∧
      (get_pattern 1 (fun _ => 0) { cur_chunk := 0, rand_pos := 0 } false 1 42949672
        (zero_info Int)).map (fun r => r.count) = none := by
  set_option maxRecDepth 100000 in decide

/-- C7 (amended). In random mode, for `1 ≤ num_procs ≤ 128`, `0 ≤ active_procs ≤
42949671` and a device of at least one block, when the stopping rule does not
fire, `get_pattern` returns `min (50, floor ((active_procs + 1) * 50 / num_procs))`
offsets, except for `(num_procs, active_procs) = (50, 28)` and `(100, 57)`, where
it returns 28. -/
theorem get_pattern_random_count {F : Type} (rnd : Nat → Int) (st : pattern_state)
    (num_chunks : Int) (info : compression_info F) (num_procs active_procs : Int)
    (hn1 : 1 ≤ num_procs) (hn2 : num_procs ≤ 128) (ha1 : 0 ≤ active_procs)
    (ha2 : active_procs ≤ 42949671) (hc : 1 ≤ num_chunks)
    (hstop : ¬ (info.num_non_zero_blocks ≥ MAX_NUM_SAMPLE ∨
      info.num_zero_blocks ≥ MAX_NUM_SAMPLE * ZERO_BLOCK_FACTOR)) :
    ∃ r, get_pattern num_procs rnd st false num_chunks active_procs info = some r ∧
      r.count =
        (if (num_procs = 50 ∧ active_procs = 28) ∨ (num_procs = 100 ∧ active_procs = 57)
         then 28 else min BLOCKS_PER_PROC ((active_procs + 1) * BLOCKS_PER_PROC / num_procs)) ∧
      (r.pattern.length : Int) = r.count := by
  obtain ⟨n, rfl⟩ := Int.eq_ofNat_of_zero_le (le_trans (by norm_num) hn1)
  obtain ⟨A, hA⟩ := Int.eq_ofNat_of_zero_le (show (0 : Int) ≤ active_procs + 1 by omega)
  have ha : active_procs = (A : Int) - 1 := by omega
  subst ha
  obtain ⟨mb, h1, h2⟩ := max_blocks_random_clamped n A (by omega) (by omega) (by omega) (by omega)
  have hexp : (if ((n : Int) = 50 ∧ (A : Int) - 1 = 28) ∨ ((n : Int) = 100 ∧ (A : Int) - 1 = 57)
        then (28 : Int)
        else min BLOCKS_PER_PROC (((A : Int) - 1 + 1) * BLOCKS_PER_PROC / (n : Int))) =
      (if (n = 50 ∧ A = 29) ∨ (n = 100 ∧ A = 58) then (28 : Int)
        else ((min 50 (50 * A / n) : Nat) : Int)) := by
    have hc1 : (((n : Int) = 50 ∧ (A : Int) - 1 = 28) ∨ ((n : Int) = 100 ∧ (A : Int) - 1 = 57)) ↔
        ((n = 50 ∧ A = 29) ∨ (n = 100 ∧ A = 58)) := by omega
    simp only [hc1, BLOCKS_PER_PROC, sub_add_cancel]
    split
    · rfl
    · push_cast
      rw [mul_comm (A : Int) 50]
  rw [hexp, ← h2]
  have hnc : num_chunks ≠ 0 := by omega
  have hmbnn : 0 ≤ (if mb > 50 then 50 else mb) := by
    rw [h2]
    split
    · norm_num
    · exact Int.natCast_nonneg _
  have hlen : ((random_loop rnd num_chunks (if mb > 50 then 50 else mb).toNat
      st.rand_pos).length : Int) = (if mb > 50 then 50 else mb) := by
    rw [random_loop_length]
    exact Int.toNat_of_nonneg hmbnn
  refine ⟨{ count := (random_loop rnd num_chunks (if mb > 50 then 50 else mb).toNat
              st.rand_pos).length,
            pattern := random_loop rnd num_chunks (if mb > 50 then 50 else mb).toNat
              st.rand_pos,
            state := { st with
              rand_pos := st.rand_pos + (if mb > 50 then 50 else mb).toNat } }, ?_, hlen, rfl⟩
  simp only [get_pattern, h1, hstop, hnc, BLOCKS_PER_PROC, and_false, if_false,
    Bool.false_eq_true]

/-- Witness for C7 (amended): four workers of which one is active. -/
theorem get_pattern_random_count_witness :
    ∃ r, get_pattern 4 (fun _ => 0) { cur_chunk := 0, rand_pos := 0 } false 1 1
        (zero_info Int) = some r ∧
      r.count =
        (if ((4 : Int) = 50 ∧ (1 : Int) = 28) ∨ ((4 : Int) = 100 ∧ (1 : Int) = 57)
         then 28 else min BLOCKS_PER_PROC ((1 + 1) * BLOCKS_PER_PROC / 4)) ∧
      (r.pattern.length : Int) = r.count :=
  get_pattern_random_count (fun _ => 0) { cur_chunk := 0, rand_pos := 0 } 1 (zero_info Int) 4 1
    (by decide) (by decide) (by decide) (by decide) (by decide) (by decide)


/-- A sample whose loop has reached the label `done` did so on a full output
buffer or on a tripped read-ahead guard. -/
theorem sample_loop_returned {σ F : Type} (c : codec σ) (dev : device) (e : Int) :
    ∀ (k : Nat) (s r : sample_state σ F),
      sample_loop c dev e k s = (proc_status.returned, r) →
      r.strm.avail_out = 0 ∨ e ≤ r.read_location := by
  intro k
  induction k with
  | zero =>
    intro s r h
    simp only [sample_loop, Prod.mk.injEq] at h
    exact absurd h.1 (by decide)
  | succ k ih =>
    intro s r h
    simp only [sample_loop] at h
    split at h
    · simp only [Prod.mk.injEq] at h
      exact absurd h.1 (by decide)
    · split at h
      · rename_i hout
        simp only [Prod.mk.injEq] at h
        rw [← h.2]
        exact Or.inl hout
      · split at h
        · split at h
          · simp only [Prod.mk.injEq] at h
            exact absurd h.1 (by decide)
          · simp only [Prod.mk.injEq] at h
            exact proc_status.noConfusion h.1
          · split at h
            · rename_i hge
              simp only [Prod.mk.injEq] at h
              rw [← h.2]
              exact Or.inr hge
            · exact ih _ r h
        · exact ih _ r h
/-- The read-ahead loop ends: with `n` blocks between the read position and the
guard, `n` iterations are enough, and the read position has advanced by at least
one block. -/
theorem read_ahead_ends {F : Type} (dev : device) (e : Int) :
    ∀ (k n : Nat) (loc : Int) (inbuf : List Byte) (info : compression_info F),
      e - loc ≤ 2048 * (n : Int) → n ≤ k → 1 ≤ k →
      (read_ahead dev e k loc inbuf info).1 ≠ proc_status.running ∧
        loc + 2048 ≤ (read_ahead dev e k loc inbuf info).2.1 := by
  intro k
  induction k with
  | zero =>
    intro n loc inbuf info _ _ h1
    omega
  | succ k ih =>
    intro n loc inbuf info hn hk _
    simp only [read_ahead]
    split
    · exact ⟨by simp, by simp only [INBLOCK_SIZE, Nat.cast_ofNat]; omega⟩
    · split
      · rename_i hc
        simp only [Bool.and_eq_true, decide_eq_true_eq, INBLOCK_SIZE, Nat.cast_ofNat] at hc
        have hn2 : 2 ≤ n := by omega
        have := ih (n - 1) (loc + (INBLOCK_SIZE : Nat))
          (pread dev inbuf INBLOCK_SIZE (loc + INBLOCK_SIZE)).2
          { info with total_blocks_read := wrap32 (info.total_blocks_read + 1) }
          (by simp only [INBLOCK_SIZE, Nat.cast_ofNat]; omega) (by omega) (by omega)
        refine ⟨this.1, ?_⟩
        have h2 := this.2
        simp only [INBLOCK_SIZE, Nat.cast_ofNat] at h2 ⊢
        omega
      · exact ⟨by simp, by simp only [INBLOCK_SIZE, Nat.cast_ofNat]; omega⟩

/-- The sampling loop ends when the codec keeps its contract: every iteration
fills the output buffer or uses up the block in the buffer, and every
read-ahead moves the read position towards the guard. -/
theorem sample_loop_ends {σ F : Type} (c : codec σ) (dev : device) (e : Int)
    (hc : codec_progress c) :
    ∀ (k n : Nat) (s : sample_state σ F),
      e - s.read_location ≤ 2048 * (n : Int) → 2 * n + 2 ≤ k →
      0 < s.buffer_size → s.buffer_size ≤ 16384 → s.strm.avail_in = s.buffer_size →
      (sample_loop c dev e k s).1 ≠ proc_status.running := by
  intro k
  induction k with
  | zero =>
    intro n s _ hk
    omega
  | succ k ih =>
    intro n s hn hk hb1 hb2 hav
    simp only [sample_loop]
    split
    · simp
    · rename_i hok
      split
      · simp
      · rename_i hout
        have hti : (c.deflate_cont s.strm s.inbuf).1.total_in = s.strm.total_in + s.buffer_size := by
          rcases hc s.strm s.inbuf (by simpa using hok) with h | h
          · exact absurd h hout
          · rw [h, hav]
        have hbs : wrap32 (s.buffer_size - ((c.deflate_cont s.strm s.inbuf).1.total_in -
            s.strm.total_in)) = 0 := by
          rw [hti]
          simp only [wrap32]
          omega
        simp only [hbs, le_refl, if_true]
        have ra := read_ahead_ends dev e k n s.read_location s.inbuf s.info hn (by omega)
          (by omega)
        split
        · rename_i heq
          rw [heq] at ra
          exact absurd rfl ra.1
        · simp
        · rename_i loc inbuf info heq
          rw [heq] at ra
          split
          · simp
          · rename_i hlt
            have h2 := ra.2
            simp only at h2
            have hn1 : 1 ≤ n := by omega
            exact ih (n - 1) _ (by simp only; omega) (by omega)
              (by simp only [INBLOCK_SIZE, Nat.cast_ofNat]; omega)
              (by simp only [INBLOCK_SIZE, Nat.cast_ofNat]; omega)
              (by simp only [INBLOCK_SIZE, ZLIB_BLOCK_SIZE, u32, Nat.cast_ofNat]; decide)
/-- The remainder of the truncating division by a positive number lies strictly
between minus the divisor and the divisor. -/
theorem tmod_bounds (a b : Int) (hb : 0 < b) : -b < Int.tmod a b ∧ Int.tmod a b < b := by
  refine ⟨?_, Int.tmod_lt_of_pos a hb⟩
  rcases le_or_lt 0 a with h | h
  · have := Int.tmod_nonneg b h
    omega
  · have h1 : Int.tmod (-a) b < b := Int.tmod_lt_of_pos (-a) hb
    rw [Int.tmod_def, Int.neg_tdiv] at h1
    rw [Int.tmod_def]
    have h2 : b * -(a.tdiv b) = -(b * a.tdiv b) := by ring
    rw [h2] at h1
    omega

/-- A call of `compress_chunk_random` ends when the codec keeps its contract: the
bound on the iterations covers the `2 * COMP_UNIT_SIZE / INBLOCK_SIZE = 131072`
blocks up to the guard. -/
theorem compress_chunk_random_ends {σ F : Type} [Add F] [Div F] [IntCast F] [NatCast F]
    (c : codec σ) (m : libm F) (dev : device) (hc : codec_progress c) (rnd : Nat → Int)
    (fuel : Nat) (read_location : Int) (w : worker F) (hfuel : 262146 ≤ fuel) :
    (compress_chunk_random c m dev rnd fuel read_location w).1 ≠ proc_status.running := by
  obtain ⟨t1, t2⟩ := tmod_bounds (rnd w.rand_pos) 2048 (by norm_num)
  have hbs : wrap32 ((INBLOCK_SIZE : Int) - Int.tmod (rnd w.rand_pos) INBLOCK_SIZE) =
      2048 - Int.tmod (rnd w.rand_pos) 2048 := by
    simp only [INBLOCK_SIZE, Nat.cast_ofNat]
    exact wrap32_of_range _ (by simp only [INT_MIN]; omega) (by simp only [INT_MAX]; omega)
  simp only [compress_chunk_random]
  split
  · simp
  · split
    · simp
    · split
      · simp
      · have key := sample_loop_ends (F := F) c dev
          (read_location + COMP_UNIT_SIZE + COMP_UNIT_SIZE) hc fuel 131072
          { strm :=
              { c.deflateInit.1 with
                avail_out := OUTBLOCK_SIZE,
                next_in := Int.tmod (rnd w.rand_pos) INBLOCK_SIZE,
                avail_in := u32 (min (wrap32 (INBLOCK_SIZE - Int.tmod (rnd w.rand_pos) INBLOCK_SIZE))
                  (ZLIB_BLOCK_SIZE : Int)) },
            buffer_size := wrap32 (INBLOCK_SIZE - Int.tmod (rnd w.rand_pos) INBLOCK_SIZE),
            bufptr := Int.tmod (rnd w.rand_pos) INBLOCK_SIZE,
            read_location := read_location,
            inbuf := (pread dev w.inbuf INBLOCK_SIZE read_location).2,
            info :=
              { w.info with
                total_blocks_read := wrap32 (w.info.total_blocks_read + 1),
                num_non_zero_blocks := wrap32 (w.info.num_non_zero_blocks + 1) } }
          (by simp only [COMP_UNIT_SIZE, Nat.cast_ofNat]; omega) (by omega)
          (by simp only [hbs]; omega) (by simp only [hbs]; omega)
          (by
            simp only [hbs, ZLIB_BLOCK_SIZE, Nat.cast_ofNat, u32]
            rw [min_eq_left (by omega)]
            omega)
        split
        · simp
        · rename_i st s hne heq
          rw [heq] at key
          exact key
/-- A positional read at or past the end of the device reads nothing: it returns 0
and leaves the buffer as it was. -/
theorem pread_at_end (dev : device) (inbuf : List Byte) (count : Nat) (offset : Int)
    (h0 : 0 ≤ offset) (hf : dev.fails offset = false) (hlen : dev.data.length ≤ offset.toNat) :
    pread dev inbuf count offset = (0, inbuf) := by
  have hd : dev.data.drop offset.toNat = [] := List.drop_eq_nil_of_le hlen
  simp only [pread, hf, not_lt.mpr h0, hd, List.take_nil, List.length_nil, List.drop_zero,
    List.nil_append, Bool.false_eq_true, or_self, if_false, Nat.cast_zero]
set_option maxRecDepth 100000 in
/-- C11 (the code at the failing input).  A device of 4096 bytes, all non-zero, on
which `main` computes `num_chunks = 1`, so that every sample starts at offset 0;
the codec emits 600 bytes a call.  A `pread` at offset 4096 or 6144 is at the end
of the device: it returns 0 and leaves the buffer as it was.  The read-ahead loop
tests the value of `pread` for `-1` only, so the sample does not stop there: the
read-ahead that moves from 2048 to 4096 returns as after a block read and counts
it (`total_blocks_read = 3`), and the loop, entered after the first block is
counted, reads ahead at 2048, 4096 and 6144; the sample ends on the full output
buffer with 8192 bytes fed to the compressor, twice what the device holds, and
with `total_blocks_read = 4` on a device of two blocks. -/
theorem compress_chunk_random_feeds_past_device_end :
    wrap32 (Int.tdiv (get_dev_size example_world_4096) INBLOCK_SIZE) = 1 ∧
    example_device_4096.data.length = 4096 ∧
    (∀ inbuf : List Byte, pread example_device_4096 inbuf INBLOCK_SIZE 4096 = (0, inbuf)) ∧
    (∀ inbuf : List Byte, pread example_device_4096 inbuf INBLOCK_SIZE 6144 = (0, inbuf)) ∧
    ((read_ahead example_device_4096 (0 + COMP_UNIT_SIZE + COMP_UNIT_SIZE) 1 2048
        (List.replicate 2048 1) (example_slot 0 1 2)).1 = proc_status.returned ∧
    (read_ahead example_device_4096 (0 + COMP_UNIT_SIZE + COMP_UNIT_SIZE) 1 2048
        (List.replicate 2048 1) (example_slot 0 1 2)).2.1 = 4096 ∧
    (read_ahead example_device_4096 (0 + COMP_UNIT_SIZE + COMP_UNIT_SIZE) 1 2048
        (List.replicate 2048 1) (example_slot 0 1 2)).2.2.2.total_blocks_read = 3 ∧
    (sample_loop example_codec_600 example_device_4096 (0 + COMP_UNIT_SIZE + COMP_UNIT_SIZE) 6
        example_sample_state).1 = proc_status.returned ∧
    (sample_loop example_codec_600 example_device_4096 (0 + COMP_UNIT_SIZE + COMP_UNIT_SIZE) 6
        example_sample_state).2.strm.avail_out = 0 ∧
    (sample_loop example_codec_600 example_device_4096 (0 + COMP_UNIT_SIZE + COMP_UNIT_SIZE) 6
        example_sample_state).2.read_location = 6144 ∧
    (sample_loop example_codec_600 example_device_4096 (0 + COMP_UNIT_SIZE + COMP_UNIT_SIZE) 6
        example_sample_state).2.strm.total_in = 8192 ∧
    (sample_loop example_codec_600 example_device_4096 (0 + COMP_UNIT_SIZE + COMP_UNIT_SIZE) 6
        example_sample_state).2.info.total_blocks_read = 4 ∧
    (compress_chunk_random example_codec_600 example_libm example_device_4096 (fun _ => 0) 6 0
        example_worker).1 = proc_status.returned ∧
    (compress_chunk_random example_codec_600 example_libm example_device_4096 (fun _ => 0) 6 0
        example_worker).2.info.num_non_zero_blocks = 1 ∧
    (compress_chunk_random example_codec_600 example_libm example_device_4096 (fun _ => 0) 6 0
        example_worker).2.info.total_blocks_read = 4) :=
  ⟨by decide,
   List.length_replicate 4096 (1 : Byte),
   fun inbuf => pread_at_end example_device_4096 inbuf INBLOCK_SIZE 4096 (by decide) rfl
     (le_of_eq (List.length_replicate 4096 (1 : Byte))),
   fun inbuf => pread_at_end example_device_4096 inbuf INBLOCK_SIZE 6144 (by decide) rfl
     (by rw [show example_device_4096.data.length = 4096 from
       List.length_replicate 4096 (1 : Byte)]; decide),
   by decide⟩

/-- The exhaustive loop of `get_pattern` from cursor `a` with room for `k` offsets
on a device of `N` blocks: it emits the offsets of the blocks `a`, `a + 1`, ... up
to `k` of them or to the last block, and leaves the cursor behind them. -/
theorem exhaustive_loop_spec (N : Nat) :
    ∀ (k a : Nat), exhaustive_loop (N : Int) k (a : Int) =
      ((List.range' a (min k (N - a))).map (fun (i : Nat) => (i : Int) * (INBLOCK_SIZE : Int)),
       ((a + min k (N - a) : Nat) : Int)) := by
  intro k
  induction k with
  | zero =>
    intro a
    simp only [exhaustive_loop, Nat.zero_min, List.range'_zero, List.map_nil, Nat.add_zero]
  | succ k ih =>
    intro a
    simp only [exhaustive_loop]
    by_cases h : a < N
    · have hi : (a : Int) < (N : Int) := by exact_mod_cast h
      have hm : min (k + 1) (N - a) = min k (N - (a + 1)) + 1 := by omega
      have ha : (a : Int) + 1 = ((a + 1 : Nat) : Int) := by push_cast; rfl
      simp only [hi, if_true, ha, ih (a + 1), hm, List.range'_succ, List.map_cons]
      refine Prod.ext rfl ?_
      simp only
      push_cast
      omega
    · have hi : ¬ (a : Int) < (N : Int) := by exact_mod_cast h
      have hm : min (k + 1) (N - a) = 0 := by omega
      simp only [hi, if_false, hm, List.range'_zero, List.map_nil, Nat.add_zero]
/-- One call of `get_pattern` in exhaustive mode with the cursor at block `a` of a
device of `N` blocks. -/
theorem get_pattern_exhaustive_call {F : Type} (num_procs : Int) (rnd : Nat → Int) (N a p : Nat)
    (active_procs : Int) (info : compression_info F) :
    get_pattern num_procs rnd { cur_chunk := (a : Int), rand_pos := p } true (N : Int)
        active_procs info =
      some { count := ((min 65536 (N - a) : Nat) : Int),
             pattern := (List.range' a (min 65536 (N - a))).map
               (fun (i : Nat) => (i : Int) * (INBLOCK_SIZE : Int)),
             state := { cur_chunk := ((a + min 65536 (N - a) : Nat) : Int), rand_pos := p } } := by
  have hk : COMP_UNIT_SIZE / INBLOCK_SIZE = 65536 := by decide
  rw [get_pattern_exhaustive, hk, exhaustive_loop_spec N 65536 a]
  simp only [List.length_map, List.length_range']

/-- Successive calls of `get_pattern` in exhaustive mode from a cursor `a` inside
the device: call `i` finds the cursor at `min N (a + 65536 * i)`. -/
theorem get_pattern_calls_exhaustive {F : Type} (num_procs : Int) (rnd : Nat → Int) (N p : Nat)
    (acts : Nat → Int) (infos : Nat → compression_info F) :
    ∀ (n j a : Nat), a ≤ N →
      get_pattern_calls num_procs rnd true (N : Int) acts infos n j
          { cur_chunk := (a : Int), rand_pos := p } =
        (List.range n).map (fun i =>
          ({ count := ((min 65536 (N - min N (a + 65536 * i)) : Nat) : Int),
             pattern := (List.range' (min N (a + 65536 * i))
                 (min 65536 (N - min N (a + 65536 * i)))).map
               (fun (i : Nat) => (i : Int) * (INBLOCK_SIZE : Int)),
             state := { cur_chunk := ((min N (a + 65536 * i) +
                 min 65536 (N - min N (a + 65536 * i)) : Nat) : Int), rand_pos := p } } :
           pattern_result)) := by
  intro n
  induction n with
  | zero =>
    intro j a _
    simp only [get_pattern_calls, List.range_zero, List.map_nil]
  | succ n ih =>
    intro j a ha
    have h0 : min N (a + 65536 * 0) = a := by omega
    simp only [get_pattern_calls, get_pattern_exhaustive_call, List.range_succ_eq_map,
      List.map_cons, List.map_map, h0]
    rw [ih (j + 1) (a + min 65536 (N - a)) (by omega)]
    congr 1
    apply List.map_congr_left
    intro i _
    have h1 : min N (a + min 65536 (N - a) + 65536 * i) = min N (a + 65536 * (i + 1)) := by
      omega
    simp only [Function.comp, Nat.succ_eq_add_one, h1]
/-- The blocks of successive exhaustive patterns from cursor `a`, laid end to end,
are the blocks from `a` up to where the cursor has come. -/
theorem flatten_exhaustive_ranges (N a : Nat) (ha : a ≤ N) :
    ∀ n : Nat,
      ((List.range n).map (fun i =>
          List.range' (min N (a + 65536 * i)) (min 65536 (N - min N (a + 65536 * i))))).flatten =
        List.range' a (min N (a + 65536 * n) - a) := by
  intro n
  induction n with
  | zero =>
    have h : min N (a + 65536 * 0) - a = 0 := by omega
    simp only [List.range_zero, List.map_nil, List.flatten_nil, h, List.range'_zero]
  | succ n ih =>
    rw [List.range_succ, List.map_append, List.flatten_append, ih]
    simp only [List.map_cons, List.map_nil, List.flatten_cons, List.flatten_nil,
      List.append_nil]
    obtain ⟨d, hd⟩ : ∃ d, min N (a + 65536 * n) = a + d :=
      ⟨min N (a + 65536 * n) - a, by omega⟩
    rw [hd, Nat.add_sub_cancel_left, List.range'_append_1]
    congr 1
    omega
/-- The offsets of the patterns of `n` successive exhaustive calls from cursor 0,
laid end to end, are the offsets of the blocks below `min N (65536 * n)`. -/
theorem get_pattern_calls_exhaustive_flatten {F : Type} (num_procs : Int) (rnd : Nat → Int)
    (N p : Nat) (acts : Nat → Int) (infos : Nat → compression_info F) (n : Nat) :
    ((get_pattern_calls num_procs rnd true (N : Int) acts infos n 0
        { cur_chunk := 0, rand_pos := p }).map (fun r => r.pattern)).flatten =
      (List.range (min N (65536 * n))).map (fun (b : Nat) => (b : Int) * (INBLOCK_SIZE : Int)) := by
  have key := get_pattern_calls_exhaustive num_procs rnd N p acts infos n 0 0 (Nat.zero_le N)
  simp only [Nat.cast_zero, Nat.zero_add] at key
  rw [key, List.map_map]
  have h := flatten_exhaustive_ranges N 0 (Nat.zero_le N) n
  simp only [Nat.zero_add, Nat.sub_zero] at h
  rw [← List.range_eq_range'] at h
  rw [← h, List.map_flatten, List.map_map]
  rfl

/-- C12.  `get_pattern` in exhaustive mode on a device of `N = num_chunks` blocks.
One call with the cursor at `a ≤ N` returns `min 65536 (N - a)` offsets, those of
the blocks `a`, `a + 1`, ... in increasing order, moves the cursor behind them,
and is empty exactly when `a = N`.  The calls made one after the other from
cursor 0: call `i` returns `min 65536 (N - 65536 * i)` offsets starting at block
`min N (65536 * i)` and leaves the cursor at `min N (65536 * (i + 1))`; it is
empty exactly when `i ≥ ceil (N / 65536)`; the patterns laid end to end are
strictly increasing, and once `ceil (N / 65536)` calls are made they are exactly
`0, 2048, ..., (N - 1) * 2048`. -/
theorem get_pattern_exhaustive_walks_device {F : Type} (num_procs : Int) (rnd : Nat → Int)
    (N p : Nat) (acts : Nat → Int) (infos : Nat → compression_info F) :
    (∀ (a : Nat) (active_procs : Int) (info : compression_info F), a ≤ N →
      ∃ r, get_pattern num_procs rnd { cur_chunk := (a : Int), rand_pos := p } true (N : Int)
          active_procs info = some r ∧
        r.count = min 65536 ((N : Int) - (a : Int)) ∧
        r.pattern = (List.range r.count.toNat).map
          (fun (i : Nat) => ((a : Int) + (i : Int)) * (INBLOCK_SIZE : Int)) ∧
        r.state.cur_chunk = (a : Int) + r.count ∧
        (r.count = 0 ↔ a = N)) ∧
    (∀ n : Nat,
      (get_pattern_calls num_procs rnd true (N : Int) acts infos n 0
          { cur_chunk := 0, rand_pos := p }).map
          (fun r => (r.count, r.pattern, r.state.cur_chunk)) =
        (List.range n).map (fun i =>
          (((min 65536 (N - 65536 * i) : Nat) : Int),
           (List.range' (min N (65536 * i)) (min 65536 (N - 65536 * i))).map
             (fun (b : Nat) => (b : Int) * (INBLOCK_SIZE : Int)),
           ((min N (65536 * (i + 1)) : Nat) : Int))) ∧
      (get_pattern_calls num_procs rnd true (N : Int) acts infos n 0
          { cur_chunk := 0, rand_pos := p }).map (fun r => decide (r.count = 0)) =
        (List.range n).map (fun i => decide ((N + 65535) / 65536 ≤ i)) ∧
      ((get_pattern_calls num_procs rnd true (N : Int) acts infos n 0
          { cur_chunk := 0, rand_pos := p }).map (fun r => r.pattern)).flatten =
        (List.range (min N (65536 * n))).map
          (fun (b : Nat) => (b : Int) * (INBLOCK_SIZE : Int)) ∧
      List.Pairwise (fun x y => x < y)
        ((get_pattern_calls num_procs rnd true (N : Int) acts infos n 0
          { cur_chunk := 0, rand_pos := p }).map (fun r => r.pattern)).flatten ∧
      ((N + 65535) / 65536 ≤ n →
        ((get_pattern_calls num_procs rnd true (N : Int) acts infos n 0
            { cur_chunk := 0, rand_pos := p }).map (fun r => r.pattern)).flatten =
          (List.range N).map (fun (b : Nat) => (b : Int) * (INBLOCK_SIZE : Int)))) := by
  constructor
  · intro a active_procs info ha
    refine ⟨_, get_pattern_exhaustive_call num_procs rnd N a p active_procs info, ?_, ?_, ?_, ?_⟩
    · simp only
      omega
    · simp only [Int.toNat_ofNat, List.range'_eq_map_range, List.map_map]
      apply List.map_congr_left
      intro i _
      simp only [Function.comp, Nat.cast_add]
    · simp only
      push_cast
      rfl
    · simp only
      omega
  · intro n
    have hflat := get_pattern_calls_exhaustive_flatten num_procs rnd N p acts infos n
    have key := get_pattern_calls_exhaustive num_procs rnd N p acts infos n 0 0 (Nat.zero_le N)
    simp only [Nat.cast_zero, Nat.zero_add] at key
    refine ⟨?_, ?_, hflat, ?_, ?_⟩
    · rw [key, List.map_map]
      apply List.map_congr_left
      intro i _
      have h1 : N - min N (65536 * i) = N - 65536 * i := by omega
      have h2 : min N (65536 * i) + min 65536 (N - 65536 * i) = min N (65536 * (i + 1)) := by
        omega
      simp only [Function.comp, h1, h2]
    · rw [key, List.map_map]
      apply List.map_congr_left
      intro i _
      simp only [Function.comp, decide_eq_decide]
      omega
    · rw [hflat]
      apply List.Pairwise.map _ _ (List.pairwise_lt_range _)
      intro x y hxy
      simp only [INBLOCK_SIZE, Nat.cast_ofNat]
      omega
    · intro hn
      rw [hflat]
      have : min N (65536 * n) = N := by omega
      rw [this]

/-- Witness for C12: a device of 3 blocks; a call with the cursor at block 1, and
two calls from cursor 0. -/
theorem get_pattern_exhaustive_walks_device_witness :
    (∃ r, get_pattern 1 (fun _ => 0) { cur_chunk := ((1 : Nat) : Int), rand_pos := 0 } true
          ((3 : Nat) : Int) 0 (example_slot 0 0 0) = some r ∧
        r.count = min 65536 (((3 : Nat) : Int) - ((1 : Nat) : Int)) ∧
        r.pattern = (List.range r.count.toNat).map
          (fun (i : Nat) => (((1 : Nat) : Int) + (i : Int)) * (INBLOCK_SIZE : Int)) ∧
        r.state.cur_chunk = ((1 : Nat) : Int) + r.count ∧
        (r.count = 0 ↔ 1 = 3)) ∧
    ((get_pattern_calls 1 (fun _ => 0) true ((3 : Nat) : Int) (fun _ => 0)
        (fun _ => example_slot 0 0 0) 2 0 { cur_chunk := 0, rand_pos := 0 }).map
        (fun r => r.pattern)).flatten =
      (List.range 3).map (fun (b : Nat) => (b : Int) * (INBLOCK_SIZE : Int)) :=
  ⟨(get_pattern_exhaustive_walks_device 1 (fun _ => 0) 3 0 (fun _ => 0)
      (fun _ => example_slot 0 0 0)).1 1 0 (example_slot 0 0 0) (by decide),
   ((get_pattern_exhaustive_walks_device 1 (fun _ => 0) 3 0 (fun _ => 0)
      (fun _ => example_slot 0 0 0)).2 2).2.2.2.2 (by decide)⟩

/-- The random loop of `get_pattern` writes one offset for each value drawn from
`random()`, in the order of the draws. -/
theorem random_loop_spec (rnd : Nat → Int) (num_chunks : Int) :
    ∀ (k pos : Nat), random_loop rnd num_chunks k pos =
      (List.range k).map (fun i => Int.tmod (rnd (pos + i)) num_chunks * (INBLOCK_SIZE : Int)) := by
  intro k
  induction k with
  | zero => intro pos; rfl
  | succ k ih =>
    intro pos
    simp only [random_loop, ih, List.range_succ_eq_map, List.map_cons, List.map_map,
      Nat.add_zero]
    congr 1
    apply List.map_congr_left
    intro i _
    simp only [Function.comp, Nat.succ_eq_add_one]
    congr 3
    omega

/-- The number of chunks `main` computes, when it is at least 1, counts whole
blocks that lie inside the device: `num_chunks * INBLOCK_SIZE ≤ dev_len - 1`. -/
theorem num_chunks_inside_device {F : Type} (w : world F)
    (hnc : 1 ≤ wrap32 (Int.tdiv (get_dev_size w) INBLOCK_SIZE)) :
    wrap32 (Int.tdiv (get_dev_size w) INBLOCK_SIZE) * 2048 ≤ w.dev_len - 1 := by
  have hsize : get_dev_size w = -1 ∨ (get_dev_size w = w.dev_len - 1 ∧ 0 ≤ w.dev_len - 1) := by
    simp only [get_dev_size, lseek_end_minus_one]
    split
    · exact Or.inl rfl
    · split
      · exact Or.inl (by simp)
      · rename_i h
        have hne : ¬ (w.dev_len - 1 = -1) := by omega
        simp only [hne, if_false]
        right
        exact ⟨trivial, by omega⟩
  rcases hsize with h | ⟨h, h0⟩
  · rw [h] at hnc
    exact absurd hnc (by decide)
  · rw [h] at hnc ⊢
    have hI : ((INBLOCK_SIZE : Nat) : Int) = 2048 := rfl
    rw [hI] at hnc ⊢
    rw [Int.tdiv_eq_ediv h0 (by norm_num)] at hnc ⊢
    simp only [wrap32] at hnc ⊢
    omega

/-- A positional read of one block at an offset that leaves a whole block before
the end of the device, and does not fail, reads the whole block. -/
theorem pread_full_block (dev : device) (inbuf : List Byte) (off : Int) (h0 : 0 ≤ off)
    (hlen : off + 2048 ≤ (dev.data.length : Int)) (hf : dev.fails off = false) :
    pread dev inbuf INBLOCK_SIZE off =
      (2048, (dev.data.drop off.toNat).take INBLOCK_SIZE ++ inbuf.drop INBLOCK_SIZE) := by
  have hl : ((dev.data.drop off.toNat).take INBLOCK_SIZE).length = 2048 := by
    simp only [List.length_take, List.length_drop, INBLOCK_SIZE]
    omega
  simp only [pread, hf, not_lt.mpr h0, Bool.false_eq_true, or_self, if_false, hl]
  rfl
/-- C13.  Random-mode offsets stay inside the device.  For a device of `dev_len`
bytes on which `main` computes `num_chunks ≥ 1` (from `get_dev_size`, divided by
`INBLOCK_SIZE` and converted to `int`), and a `random()` that returns no negative
value, the pattern a call of `get_pattern` returns holds, for each value `p`
drawn, the offset `(p mod num_chunks) * INBLOCK_SIZE`; each offset is a multiple
of `INBLOCK_SIZE`, is not negative and leaves a whole block before the end of the
device, so that the first `pread` of the sample, when it does not fail, reads
2048 bytes of the device. -/
theorem get_pattern_random_offsets_inside_device {F : Type} (w : world F) (num_procs : Int)
    (st : pattern_state) (active_procs : Int) (info : compression_info F) (r : pattern_result)
    (hnc : 1 ≤ wrap32 (Int.tdiv (get_dev_size w) INBLOCK_SIZE))
    (hrnd : ∀ i, 0 ≤ w.rnd i)
    (hr : get_pattern num_procs w.rnd st false (wrap32 (Int.tdiv (get_dev_size w) INBLOCK_SIZE))
      active_procs info = some r) :
    r.pattern = (List.range r.pattern.length).map (fun i =>
      (w.rnd (st.rand_pos + i) % wrap32 (Int.tdiv (get_dev_size w) INBLOCK_SIZE)) *
        (INBLOCK_SIZE : Int)) ∧
    (r.pattern.length : Int) = r.count ∧
    ∀ off ∈ r.pattern,
      (INBLOCK_SIZE : Int) ∣ off ∧ 0 ≤ off ∧ off + (INBLOCK_SIZE : Int) ≤ w.dev_len ∧
      ∀ (dev : device) (inbuf : List Byte), (dev.data.length : Int) = w.dev_len →
        dev.fails off = false →
        pread dev inbuf INBLOCK_SIZE off =
          (2048, (dev.data.drop off.toNat).take INBLOCK_SIZE ++ inbuf.drop INBLOCK_SIZE) := by
  have hbound := num_chunks_inside_device w hnc
  generalize wrap32 (Int.tdiv (get_dev_size w) INBLOCK_SIZE) = nc at hnc hr hbound ⊢
  have hmod : ∀ i, Int.tmod (w.rnd i) nc = w.rnd i % nc := fun i =>
    Int.tmod_eq_emod (hrnd i) (by omega)
  have hpat : ∀ k : Nat, random_loop w.rnd nc k st.rand_pos =
      (List.range k).map (fun i => (w.rnd (st.rand_pos + i) % nc) * (INBLOCK_SIZE : Int)) := by
    intro k
    rw [random_loop_spec]
    apply List.map_congr_left
    intro i _
    rw [hmod]
  have hoff : ∀ off k, off ∈ (List.range k).map
      (fun i => (w.rnd (st.rand_pos + i) % nc) * (INBLOCK_SIZE : Int)) →
      (INBLOCK_SIZE : Int) ∣ off ∧ 0 ≤ off ∧ off + (INBLOCK_SIZE : Int) ≤ w.dev_len ∧
      ∀ (dev : device) (inbuf : List Byte), (dev.data.length : Int) = w.dev_len →
        dev.fails off = false →
        pread dev inbuf INBLOCK_SIZE off =
          (2048, (dev.data.drop off.toNat).take INBLOCK_SIZE ++ inbuf.drop INBLOCK_SIZE) := by
    intro off k hmem
    obtain ⟨i, _, rfl⟩ := List.mem_map.mp hmem
    have h1 : 0 ≤ w.rnd (st.rand_pos + i) % nc := Int.emod_nonneg _ (by omega)
    have h2 : w.rnd (st.rand_pos + i) % nc < nc := Int.emod_lt_of_pos _ (by omega)
    have hI : ((INBLOCK_SIZE : Nat) : Int) = 2048 := rfl
    rw [hI]
    have h3 : 0 ≤ w.rnd (st.rand_pos + i) % nc * 2048 := by omega
    have h4 : w.rnd (st.rand_pos + i) % nc * 2048 + 2048 ≤ w.dev_len := by omega
    refine ⟨Dvd.intro_left _ rfl, h3, h4, ?_⟩
    intro dev inbuf hlen hf
    exact pread_full_block dev inbuf _ h3 (by omega) hf
  simp only [get_pattern, Bool.false_eq_true, if_false] at hr
  split at hr
  · exact absurd hr (by simp)
  · rename_i mb _
    generalize (if mb > BLOCKS_PER_PROC then BLOCKS_PER_PROC else mb) = mbx at hr
    by_cases hstop : info.num_non_zero_blocks ≥ MAX_NUM_SAMPLE ∨
        info.num_zero_blocks ≥ MAX_NUM_SAMPLE * ZERO_BLOCK_FACTOR
    · simp only [hstop, if_true, Option.some.injEq] at hr
      rw [← hr]
      simp
    · have hz : ¬ (0 < mbx ∧ nc = 0) := fun h => by omega
      simp only [hstop, hz, if_false, Option.some.injEq] at hr
      rw [← hr]
      simp only [random_loop_length]
      exact ⟨hpat _, trivial, fun off hmem => hoff off _ (by rw [← hpat]; exact hmem)⟩

set_option maxRecDepth 100000 in
/-- Witness for C13: the device of 4097 bytes of `example_world_counting`, on which
`main` computes two chunks; with one worker the first pattern holds 50 offsets,
2048 and 0 in turn. -/
theorem get_pattern_random_offsets_inside_device_witness :
    (List.range 50).map (fun (i : Nat) => ((3 * (i : Int) + 1) % 2) * 2048) =
      (List.range ((List.range 50).map
          (fun (i : Nat) => ((3 * (i : Int) + 1) % 2) * 2048)).length).map (fun i =>
        (example_world_counting.rnd (0 + i) %
            wrap32 (Int.tdiv (get_dev_size example_world_counting) INBLOCK_SIZE)) *
          (INBLOCK_SIZE : Int)) ∧
    pread example_device_4097 [] INBLOCK_SIZE 2048 =
      (2048, (example_device_4097.data.drop (2048 : Int).toNat).take INBLOCK_SIZE ++
        ([] : List Byte).drop INBLOCK_SIZE) :=
  have h := get_pattern_random_offsets_inside_device example_world_counting 1
    { cur_chunk := 0, rand_pos := 0 } 0 (example_slot 0 0 0)
    { count := 50,
      pattern := (List.range 50).map (fun (i : Nat) => ((3 * (i : Int) + 1) % 2) * 2048),
      state := { cur_chunk := 0, rand_pos := 50 } }
    (by decide) (fun i => by simp only [example_world_counting]; omega) (by rfl)
  ⟨h.1, (h.2.2 2048 (by decide)).2.2.2 example_device_4097 []
    (by simp only [example_device_4097, List.length_replicate]; rfl) rfl⟩

set_option maxRecDepth 100000 in
/-- C14 (the code at the failing inputs).  `main` stores the value of `fork()` in
the worker table before it tests it, so a failed `fork` leaves `-1` in
`pid_array[index]`, and `cleanup_handler`, which kills every non-zero entry,
calls `kill(-1, SIGKILL)`:
* one worker, the first `fork` fails: `main` returns `errno = 11`, no worker was
  ever created, the table holds `-1` and `-1` is killed;
* two workers, the second `fork` fails: the live worker 101 and `-1` are killed;
* one worker that is killed by a signal: `wait_for_process` returns `-1` without
  clearing the entry, no child is left, and the process id 101, already reaped,
  is killed. -/
theorem main_cleanup_kills_non_workers :
    (main example_world_fork_fails example_log_none 1 false 3).map pool_summary =
      run.done (11, [], [-1], [-1]) ∧
    (main example_world_second_fork_fails example_log_none 2 false 3).map pool_summary =
      run.done (11, [101], [101, -1], [101, -1]) ∧
    (main example_world_signalled example_log_none 1 false 3).map pool_summary =
      run.done (-1, [], [101], [101]) := by
  decide

end Comprestimator
